import Mathlib

/-!
# Hostlist notation: expansion and compression (`src/Utilities/PublicHeader/String.cpp`)

A shallow embedding of the hostlist functions of `String.cpp` and theorems about them.

Modelling conventions:

* a `std::string` / `std::string_view` is a `List Char` (`Str`); every character that the
  code inspects is ASCII, and the text is taken to be valid UTF-8, so a `Char` stands for one
  code point;
* `size_t` values are natural numbers below `2 ^ 64`, with wrap-around written out where the
  code can overflow; `int` indices into a string are natural numbers (strings are shorter than
  `2 ^ 31`);
* a function that can fail to return normally has result type `Option _`; what `none` stands
  for (a loop that never ends, an uncaught exception) is said at each definition;
* an output parameter (`std::list<std::string> *`) is passed in and returned.
-/

namespace util

/-- Text: `std::string` and `std::string_view`. -/
abbrev Str := List Char

/-! ## Regular expressions (RE2) -/

/-- Regular expressions, as far as the patterns of `String.cpp` need them. -/
inductive Re where
  | emp : Re
  | eps : Re
  | cls : (Char → Bool) → Re
  | cat : Re → Re → Re
  | alt : Re → Re → Re
  | star : Re → Re

namespace Re

/-- Does the expression accept the empty text? -/
def nullable : Re → Bool
  | emp => false
  | eps => true
  | cls _ => false
  | cat a b => a.nullable && b.nullable
  | alt a b => a.nullable || b.nullable
  | star _ => true

/-- Brzozowski derivative: what remains to be matched after reading `c`. -/
def deriv : Re → Char → Re
  | emp, _ => emp
  | eps, _ => emp
  | cls p, c => if p c then eps else emp
  | cat a b, c => if a.nullable then alt (cat (a.deriv c) b) (b.deriv c) else cat (a.deriv c) b
  | alt a b, c => alt (a.deriv c) (b.deriv c)
  | star a, c => cat (a.deriv c) (star a)

/-- The texts an expression denotes. -/
inductive Matches : Re → Str → Prop
  | eps : Matches eps []
  | cls (p : Char → Bool) (c : Char) : p c = true → Matches (cls p) [c]
  | cat {a b : Re} {s t : Str} : Matches a s → Matches b t → Matches (cat a b) (s ++ t)
  | altL {a b : Re} {s : Str} : Matches a s → Matches (alt a b) s
  | altR {a b : Re} {s : Str} : Matches b s → Matches (alt a b) s
  | starNil {a : Re} : Matches (star a) []
  | starCons {a : Re} {s t : Str} : Matches a s → Matches (star a) t → Matches (star a) (s ++ t)

/-- The pattern `c`: one given character. -/
def chr (c : Char) : Re := cls (fun x => x == c)

/-- The pattern `.`: any character but a newline (RE2 default options). -/
def dot : Re := cls (fun x => x != '\n')

/-- The pattern `\d`: an ASCII digit. -/
def digit : Re := cls Char.isDigit

/-- The pattern `r+`. -/
def plus (r : Re) : Re := cat r (star r)

/-- Any character at all, newline included: the text an unanchored search skips. -/
def anyChar : Re := cls (fun _ => true)

end Re

/-- `RE2::FullMatch(text, re)`: the whole text matches. -/
def RE2.FullMatch (text : Str) (re : Re) : Bool := (text.foldl Re.deriv re).nullable

/-- `RE2::PartialMatch(text, re)`: some substring of the text matches. -/
def RE2.PartialMatch (text : Str) (re : Re) : Bool :=
  RE2.FullMatch text (Re.cat (Re.star Re.anyChar) (Re.cat re (Re.star Re.anyChar)))

/-! ## Library primitives -/

/-- `absl::StrSplit(text, d)` for a delimiter that is one character out of a set: cuts at every
delimiter and keeps empty pieces; the empty text gives one empty piece. -/
def StrSplit (isDelim : Char → Bool) : Str → List Str
  | [] => [[]]
  | c :: cs =>
    if isDelim c then [] :: StrSplit isDelim cs
    else
      match StrSplit isDelim cs with
      | [] => [[c]]
      | p :: ps => (c :: p) :: ps

/-- Value of a text of decimal digits. -/
def digitsVal (s : Str) : Nat := s.foldl (fun acc c => 10 * acc + (c.toNat - 48)) 0

/-- `std::from_chars` into a `size_t`: reads the leading decimal digits; `none` when there is
none (`invalid_argument`) or the value does not fit 64 bits (`result_out_of_range`). -/
def from_chars (s : Str) : Option Nat :=
  let d := s.takeWhile Char.isDigit
  if d = [] then none
  else if digitsVal d < 2 ^ 64 then some (digitsVal d) else none

/-- `std::to_string` of an unsigned integer. -/
def to_string (n : Nat) : Str := Nat.toDigits 10 n

/-- `fmt::format("{:0>{}}", s, l)`: `s` right-aligned in a field of `l` characters filled
with zeros; a longer `s` is not cut. -/
def fmtPad (s : Str) (l : Nat) : Str := List.replicate (l - s.length) '0' ++ s

/-- `std::isspace` in the C locale, which is also `absl::ascii_isspace`. -/
def isSpace (c : Char) : Bool :=
  c == ' ' || c == '\t' || c == '\n' || c == '\x0b' || c == '\x0c' || c == '\r'

/-- `absl::StripAsciiWhitespace`: drops white space at both ends. -/
def StripAsciiWhitespace (s : Str) : Str :=
  ((s.dropWhile isSpace).reverse.dropWhile isSpace).reverse

/-- `std::stoi`: skips white space, reads an optional sign and the decimal digits after it;
`none` stands for the exception it throws (`invalid_argument` without a digit,
`out_of_range` outside `int`). -/
def stoi (s : Str) : Option Int :=
  let s1 := s.dropWhile isSpace
  let neg : Bool := decide (s1.head? = some '-')
  let s2 : Str := if s1.head? = some '-' ∨ s1.head? = some '+' then s1.tail else s1
  let d := s2.takeWhile Char.isDigit
  if d = [] then none
  else
    let v : Int := if neg then -(digitsVal d : Int) else (digitsVal d : Int)
    if -(2 : Int) ^ 31 ≤ v ∧ v ≤ 2 ^ 31 - 1 then some v else none

/-! ## `ParseNodeList` -/

/-- The pattern `.*\[(.*)\]` (line 47). -/
def brackets_regex : Re :=
  Re.cat (Re.star Re.dot) (Re.cat (Re.chr '[') (Re.cat (Re.star Re.dot) (Re.chr ']')))

/-- The pattern `\d+` (line 56). -/
def num_regex : Re := Re.plus Re.digit

/-- The pattern `\d+-\d+` (line 57). -/
def scope_regex : Re := Re.cat (Re.plus Re.digit) (Re.cat (Re.chr '-') (Re.plus Re.digit))

/-- How a loop ends. -/
inductive Step (α : Type) where
  | done : α → Step α
  | retFalse : Step α
  | hang : Step α

/-- The loop `for (size_t j = start; j <= end; j++)` of lines 88-91, run for at most `fuel`
tests of its condition; `none` when the fuel is used up. -/
def rangeLoop (head_str : Str) (l end_ : Nat) : Nat → Nat → List Str → Option (List Str)
  | 0, _, _ => none
  | fuel + 1, j, unit_list =>
    if j ≤ end_ then
      rangeLoop head_str l end_ fuel ((j + 1) % 2 ^ 64)
        (unit_list ++ [head_str ++ fmtPad (to_string j) l])
    else some unit_list

/-- Lines 88-91 in closed form: with `end = SIZE_MAX` the condition `j <= end` holds for
every `size_t`, so the loop never ends; otherwise it appends the names for `start .. end`. -/
def rangeUnits (head_str : Str) (l start end_ : Nat) (unit_list : List Str) :
    Step (List Str) :=
  if end_ = 2 ^ 64 - 1 then Step.hang
  else Step.done (unit_list ++
    (List.range' start (end_ + 1 - start)).map (fun j => head_str ++ fmtPad (to_string j) l))

/-- The loop over the units of one bracket group (lines 66-96). -/
def unitLoop (head_str : Str) : List Str → List Str → Step (List Str)
  | [], unit_list => Step.done unit_list
  | u :: rest, unit_list =>
    if RE2.FullMatch u num_regex then unitLoop head_str rest (unit_list ++ [head_str ++ u])
    else if RE2.FullMatch u scope_regex then
      let loc_index := StrSplit (fun c => c == '-') u
      let l := (loc_index.getD 0 []).length
      match from_chars (loc_index.getD 0 []) with
      | none => Step.retFalse
      | some start =>
        match from_chars (loc_index.getD 1 []) with
        | none => Step.retFalse
        | some end_ =>
          match rangeUnits head_str l start end_ unit_list with
          | Step.done unit_list2 => unitLoop head_str rest unit_list2
          | Step.retFalse => Step.retFalse
          | Step.hang => Step.hang
    else Step.retFalse

/-- Lines 98-103: every accumulated name followed by every unit. -/
def crossProduct (res_list unit_list : List Str) : List Str :=
  res_list.flatMap (fun left => unit_list.map (fun right => left ++ right))

/-- The loop over the fragments that end in `]` (lines 59-105). -/
def fragLoop : List Str → List Str → Step (List Str)
  | [], res_list => Step.done res_list
  | str :: rest, res_list =>
    let node_num := StrSplit (fun c => c == '[' || c == ',') str
    match unitLoop (node_num.headD []) node_num.tail [] with
    | Step.done unit_list => fragLoop rest (crossProduct res_list unit_list)
    | Step.retFalse => Step.retFalse
    | Step.hang => Step.hang

/-- `ParseNodeList(node_str, nodelist)`: the returned flag and the final `*nodelist`;
`none` when the call never returns. -/
def ParseNodeList (node_str : Str) (nodelist : List Str) : Option (Bool × List Str) :=
  if !RE2.PartialMatch node_str brackets_regex then some (false, nodelist)
  else
    let unit_str_list := StrSplit (fun c => c == ']') node_str
    let end_str := unit_str_list.getLastD []
    match fragLoop unit_str_list.dropLast [[]] with
    | Step.retFalse => some (false, nodelist)
    | Step.hang => none
    | Step.done res_list =>
      let res_list2 := if !end_str.isEmpty then res_list.map (fun str => str ++ end_str)
        else res_list
      some (true, nodelist ++ res_list2)

/-! ## `ParseHostList` -/

/-- The pattern `.*\[(.*)\](\..*)*$` (line 167); under `FullMatch` the final `$` adds
nothing. -/
def regex : Re :=
  Re.cat (Re.star Re.dot) (Re.cat (Re.chr '[') (Re.cat (Re.star Re.dot)
    (Re.cat (Re.chr ']') (Re.star (Re.cat (Re.chr '.') (Re.star Re.dot))))))

/-- The variables of the splitting loop (lines 126-129). -/
structure SplitState where
  name_meta : Str
  str_list : List Str
  char_queue : Str

/-- One turn of the splitting loop (lines 131-160); `none` is `return false`. -/
def splitStep (st : SplitState) (c : Char) : Option SplitState :=
  if c = '[' then
    if st.char_queue = [] then some { st with char_queue := st.char_queue ++ [c] }
    else none
  else if c = ']' then
    if st.char_queue = [] then none
    else some { st with name_meta := st.name_meta ++ st.char_queue ++ [c], char_queue := [] }
  else if c = ',' then
    if st.char_queue = [] then
      some { st with str_list := st.str_list ++ [st.name_meta], name_meta := [] }
    else some { st with char_queue := st.char_queue ++ [c] }
  else
    if st.char_queue = [] then some { st with name_meta := st.name_meta ++ [c] }
    else some { st with char_queue := st.char_queue ++ [c] }

/-- The splitting loop (lines 130-161). -/
def splitLoop : Str → SplitState → Option SplitState
  | [], st => some st
  | c :: cs, st =>
    match splitStep st c with
    | none => none
    | some st2 => splitLoop cs st2

/-- The loop over the tokens (lines 168-175). -/
def tokenLoop : List Str → List Str → Option (Bool × List Str)
  | [], host_list => some (true, host_list)
  | str :: rest, host_list =>
    let str_s := StripAsciiWhitespace str
    if !RE2.FullMatch str_s regex then tokenLoop rest (host_list ++ [str_s])
    else
      match ParseNodeList str_s host_list with
      | none => none
      | some (false, host_list2) => some (false, host_list2)
      | some (true, host_list2) => tokenLoop rest host_list2

/-- `ParseHostList(host_str, host_list)`: the returned flag and the final `*host_list`;
`none` when the call never returns. -/
def ParseHostList (host_str : Str) (host_list : List Str) : Option (Bool × List Str) :=
  let name_str := host_str.filter (fun i => i != ' ') ++ [',']
  match splitLoop name_str { name_meta := [], str_list := [], char_queue := [] } with
  | none => some (false, host_list)
  | some st =>
    if st.char_queue ≠ [] then some (false, host_list)
    else tokenLoop st.str_list host_list

/-! ## `FoundFirstNumberWithoutBrackets` -/

/-- The scanning loop of lines 286-302 and the test after it (lines 304-309), with the
variables `opens`, `*start` and `i`; the result is the returned flag, `*start` and `*end`.
`opens` is a `size_t`: `opens--` at zero wraps around. -/
def foundLoop : Str → Nat → Nat → Nat → Bool × Nat × Nat
  | [], _, start, i => if start ≠ 0 then (true, start, i) else (false, start, 0)
  | c :: cs, opens, start, i =>
    if c = '[' then foundLoop cs ((opens + 1) % 2 ^ 64) start (i + 1)
    else if c = ']' then foundLoop cs ((opens + (2 ^ 64 - 1)) % 2 ^ 64) start (i + 1)
    else if opens = 0 then
      if start = 0 ∧ c.isDigit = true then foundLoop cs opens i (i + 1)
      else if start ≠ 0 ∧ c.isDigit = false then (true, start, i)
      else foundLoop cs opens start (i + 1)
    else foundLoop cs opens start (i + 1)

/-- `FoundFirstNumberWithoutBrackets(input, start, end)`: the returned flag, `*start` and
`*end`. -/
def FoundFirstNumberWithoutBrackets (input : Str) : Bool × Nat × Nat :=
  foundLoop input 0 0 0

/-! ## `HostNameListToStr_` -/

/-- The `std::unordered_map` from key to the list of numbers, kept in order of first
insertion. -/
abbrev HostMap := List (Str × List Str)

/-- Lines 202-206: `host_map[key_str].emplace_back(num_str)`, creating the entry when the
key is new. -/
def mapPush : HostMap → Str → Str → HostMap
  | [], key_str, num_str => [(key_str, [num_str])]
  | (k, v) :: rest, key_str, num_str =>
    if k = key_str then (k, v ++ [num_str]) :: rest
    else (k, v) :: mapPush rest key_str num_str

/-- The variables of the grouping loop. -/
structure GroupState where
  host_map : HostMap
  res : Bool
  res_list : List Str

/-- One turn of the grouping loop (lines 193-209). -/
def groupStep (st : GroupState) (host : Str) : GroupState :=
  if host = [] then st
  else
    match FoundFirstNumberWithoutBrackets host with
    | (true, start, end_) =>
      let num_str := (host.drop start).take (end_ - start)
      let head_str := host.take start
      let tail_str := (host.drop end_).take host.length
      let key_str := head_str ++ '<' :: tail_str
      { st with res := false, host_map := mapPush st.host_map key_str num_str }
    | (false, _, _) => { st with res_list := st.res_list ++ [host] }

/-- The comparator of lines 228-234, for texts on which `stoi` does not throw. -/
def numLess (a b : Str) : Bool :=
  if a.length ≠ b.length then decide (a.length < b.length)
  else decide ((stoi a).getD 0 < (stoi b).getD 0)

/-- `std::sort` with that comparator: a permutation in which no element is less than an
earlier one. Elements that the comparator does not tell apart keep their order here (the
C++ standard leaves their order open). -/
def sortNums (v : List Str) : List Str :=
  List.insertionSort (fun a b => numLess b a = false) v

/-- `std::unique` followed by `erase`: of neighbours that are equal only the first stays. -/
def unique : List Str → List Str
  | [] => []
  | [a] => [a]
  | a :: b :: rest => if a = b then unique (b :: rest) else a :: unique (b :: rest)

/-- The variables of the run walk (lines 215, 239-240). -/
structure Walk where
  first : Int
  last : Int
  first_str : Str
  last_str : Str
  host_name_str : Str

/-- Lines 252-258 and 264-270: the pending run as text. -/
def Walk.flush (w : Walk) : Str :=
  if w.first = w.last then w.host_name_str ++ w.first_str
  else w.host_name_str ++ w.first_str ++ '-' :: w.last_str

/-- One turn of the run walk (lines 242-262) with `num = stoi(num_str)`. `last + 1` cannot
overflow into a value that `num` takes, so it is computed in the integers. -/
def walkStep (w : Walk) (num_str : Str) (num : Int) : Walk :=
  if w.first < 0 then
    { w with first := num, last := num, first_str := num_str, last_str := num_str }
  else if num = w.last + 1 then
    { w with last := w.last + 1, last_str := num_str }
  else
    { first := num, last := num, first_str := num_str, last_str := num_str,
      host_name_str := w.flush ++ [','] }

/-- The run walk (lines 241-263); `none` when `stoi` throws. -/
def walkLoop : List Str → Walk → Option Walk
  | [], w => some w
  | num_str :: rest, w =>
    match stoi num_str with
    | none => none
    | some num => walkLoop rest (walkStep w num_str num)

/-- The body of the loop over the map (lines 215-274) for one entry: the text appended to
`*res_list`, or `none` when `stoi` throws `std::out_of_range` (in the comparator or in the
walk, which reads every number that is left). -/
def bucketStr (key : Str) (nums : List Str) : Option Str :=
  let delimiter_pos := (key.takeWhile (fun c => c != '<')).length
  let host_name_str := key.take delimiter_pos ++ ['[']
  if nums.all (fun n => (stoi n).isSome) then
    let v := unique (sortNums nums)
    match walkLoop v { first := -1, last := -1, first_str := [], last_str := [],
                        host_name_str := host_name_str } with
    | none => none
    | some w => some (w.flush ++ ']' :: (key.drop (delimiter_pos + 1)).take key.length)
  else none

/-- The loop over the map (lines 214-275) in the order given. -/
def emitLoop : HostMap → List Str → Option (List Str)
  | [], res_list => some res_list
  | (k, v) :: rest, res_list =>
    match bucketStr k v with
    | none => none
    | some s => emitLoop rest (res_list ++ [s])

/-- `HostNameListToStr_(host_list, res_list)`: the returned flag and the final `*res_list`;
`none` when an exception leaves the function. The order in which a `std::unordered_map` is
walked is not fixed by the language: `iterOrder` gives it. -/
def HostNameListToStr_ (iterOrder : HostMap → HostMap) (host_list res_list : List Str) :
    Option (Bool × List Str) :=
  let sz := host_list.length
  if sz = 0 then some (true, res_list)
  else if sz = 1 then some (true, res_list ++ [host_list.headD []])
  else
    let st := host_list.foldl groupStep { host_map := [], res := true, res_list := res_list }
    if st.res then some (true, st.res_list)
    else
      match emitLoop (iterOrder st.host_map) st.res_list with
      | none => none
      | some res_list2 => some (st.res, res_list2)

/-! ## `RemoveBracketsWithoutDashOrComma` -/

/-- `s.find(c, pos)`: the first index at or after `pos` that holds `c`; `none` is `npos`. -/
def find (s : Str) (c : Char) (pos : Nat) : Option Nat :=
  if (s.drop pos).indexOf c < (s.drop pos).length then some (pos + (s.drop pos).indexOf c)
  else none

/-- The loop of lines 315-330 on `output` and `leftBracketPos`, for at most `fuel` tests of
its condition; `none` when the fuel is used up. -/
def removeLoop : Nat → Str → Nat → Option Str
  | 0, _, _ => none
  | fuel + 1, output, leftBracketPos =>
    match find output '[' leftBracketPos with
    | none => some output
    | some l =>
      match find output ']' l with
      | none => some output
      | some r =>
        let betweenBrackets := (output.drop (l + 1)).take (r - l - 1)
        if find betweenBrackets '-' 0 = none ∧ find betweenBrackets ',' 0 = none then
          removeLoop fuel ((output.eraseIdx r).eraseIdx l) l
        else removeLoop fuel output (r + 1)

/-- `RemoveBracketsWithoutDashOrComma(input)`. Every turn of the loop either erases two
characters or moves `leftBracketPos` at least two places right, so the loop ends within
`input.length + 1` tests of its condition (`removeLoop_fuel`). -/
def RemoveBracketsWithoutDashOrComma (input : Str) : Str :=
  (removeLoop (input.length + 1) input 0).getD input

/-! ## Bracket structure, in the words of the specification -/

/-- Reading the text from the left with `isOpen` telling whether a bracket is open: is
there a `[` while a bracket is already open, a `]` while none is open, or is a bracket still
open at the end? -/
def illFormedFrom : Bool → Str → Bool
  | isOpen, [] => isOpen
  | isOpen, c :: cs =>
    if c = '[' then (if isOpen then true else illFormedFrom true cs)
    else if c = ']' then (if isOpen then illFormedFrom false cs else true)
    else illFormedFrom isOpen cs

/-- Ill-formed bracket structure of a whole text. -/
def illFormedBrackets (s : Str) : Bool := illFormedFrom false s

/-- The loop of `RemoveBracketsWithoutDashOrComma` seen from `leftBracketPos`: the text left
of that position is never read again, and the loop rewrites the text `s` right of it
(`removeLoop_eq_removeFrom`). -/
def removeFrom : Nat → Str → Str
  | 0, s => s
  | fuel + 1, s =>
    match s.dropWhile (fun c => c != '[') with
    | [] => s
    | _ :: after =>
      match after.dropWhile (fun c => c != ']') with
      | [] => s
      | _ :: post =>
        if '-' ∉ after.takeWhile (fun c => c != ']') ∧
            ',' ∉ after.takeWhile (fun c => c != ']') then
          s.takeWhile (fun c => c != '[') ++
            removeFrom fuel (after.takeWhile (fun c => c != ']') ++ post)
        else
          s.takeWhile (fun c => c != '[') ++
            '[' :: (after.takeWhile (fun c => c != ']') ++ ']' :: removeFrom fuel post)

/-! ## Balanced brackets without nesting, in the words of the specification -/

/-- A piece of a text whose brackets are balanced and not nested: text outside brackets, or
the text enclosed by one pair of brackets. -/
inductive Seg where
  | lit : Str → Seg
  | grp : Str → Seg

/-- The text a piece carries. -/
def Seg.text : Seg → Str
  | Seg.lit t => t
  | Seg.grp t => t

/-- The piece as written. -/
def Seg.render : Seg → Str
  | Seg.lit t => t
  | Seg.grp t => '[' :: (t ++ [']'])

/-- The piece with its two brackets deleted when the enclosed text has neither `-` nor `,`. -/
def Seg.strip : Seg → Str
  | Seg.lit t => t
  | Seg.grp t => if '-' ∈ t ∨ ',' ∈ t then '[' :: (t ++ [']']) else t

/-- The text made of the pieces. -/
def renderSegs (segs : List Seg) : Str := (segs.map Seg.render).flatten

/-- The text made of the pieces, singleton brackets deleted. -/
def stripSegs (segs : List Seg) : Str := (segs.map Seg.strip).flatten

/-! ## Digits outside brackets, in the words of the specification -/

/-- Reading the text from the left at bracket depth `depth` (the brackets opened less the
brackets closed so far): is there a digit at depth zero? -/
def hasDigitOutsideFrom : Int → Str → Bool
  | _, [] => false
  | depth, c :: cs =>
    if c = '[' then hasDigitOutsideFrom (depth + 1) cs
    else if c = ']' then hasDigitOutsideFrom (depth - 1) cs
    else (decide (depth = 0) && c.isDigit) || hasDigitOutsideFrom depth cs

/-- Does the text have a digit outside brackets? -/
def hasDigitOutsideBrackets (s : Str) : Bool := hasDigitOutsideFrom 0 s

/-! ## One bracket group, in the words of the specification -/

/-- A unit of a bracket group: a digit string, or a range of two digit strings. -/
inductive HostUnit where
  | num : Str → HostUnit
  | range : Str → Str → HostUnit

/-- The unit as written: `d`, or `a-b`. -/
def HostUnit.text : HostUnit → Str
  | HostUnit.num d => d
  | HostUnit.range a b => a ++ '-' :: b

/-- A non-empty text of decimal digits. -/
def isDigitStr (d : Str) : Prop := d ≠ [] ∧ ∀ c ∈ d, c.isDigit = true

instance (d : Str) : Decidable (isDigitStr d) := by
  unfold isDigitStr
  exact inferInstance

/-- The number `j` in decimal, filled with zeros on the left up to `w` characters. -/
def zeroPadLeft (j w : Nat) : Str :=
  List.replicate (w - (Nat.toDigits 10 j).length) '0' ++ Nat.toDigits 10 j

/-- The host names a unit stands for after the literal `p`: `p + d` for a digit string, and
`p + zeroPadLeft(j, length(a))` for `j` from `value(a)` up to `value(b)` for a range. -/
def HostUnit.names (p : Str) : HostUnit → List Str
  | HostUnit.num d => [p ++ d]
  | HostUnit.range a b =>
    (List.range' (digitsVal a) (digitsVal b + 1 - digitsVal a)).map
      (fun j => p ++ zeroPadLeft j a.length)

/-- The units of a group as written, with commas between them. -/
def groupText : List HostUnit → Str
  | [] => []
  | [u] => u.text
  | u :: v :: rest => u.text ++ ',' :: groupText (v :: rest)

/-- A unit that the expansion accepts and that ends: digit strings, and ranges `a-b` with
`value(a) ≤ value(b)` and `value(b)` below the largest 64-bit value. -/
def HostUnit.ok : HostUnit → Prop
  | HostUnit.num d => isDigitStr d
  | HostUnit.range a b =>
    isDigitStr a ∧ isDigitStr b ∧ digitsVal a ≤ digitsVal b ∧ digitsVal b < 2 ^ 64 - 1

instance (u : HostUnit) : Decidable u.ok := by
  cases u <;> unfold HostUnit.ok <;> exact inferInstance

/-! ## Host names `head + number`, in the words of the specification -/

/-- A head that the grouping keeps whole: not empty, and without digit, bracket or `<`. -/
def isPlainHead (h : Str) : Prop :=
  h ≠ [] ∧ ∀ c ∈ h, c.isDigit = false ∧ c ≠ '[' ∧ c ≠ ']' ∧ c ≠ '<'

instance (h : Str) : Decidable (isPlainHead h) := by
  unfold isPlainHead
  exact inferInstance

/-- The order of the entries of a bucket: by length of the text first, by value second. -/
def widthThenValue (a b : Str) : Prop :=
  a.length < b.length ∨ (a.length = b.length ∧ digitsVal a < digitsVal b)

instance (a b : Str) : Decidable (widthThenValue a b) := by
  unfold widthThenValue
  exact inferInstance

/-- Texts with commas between them. -/
def commaJoin : List Str → Str
  | [] => []
  | [a] => a
  | a :: b :: rest => a ++ ',' :: commaJoin (b :: rest)

/-- A bucket entry that `stoi` reads: a digit string with a value up to `INT_MAX`. -/
def isIntStr (n : Str) : Prop := isDigitStr n ∧ digitsVal n ≤ 2 ^ 31 - 1

instance (n : Str) : Decidable (isIntStr n) := by
  unfold isIntStr
  exact inferInstance

/-- The variables of the run walk before its first turn, for the head `h`. -/
def walkStart (h : Str) : Walk :=
  { first := -1, last := -1, first_str := [], last_str := [], host_name_str := h ++ ['['] }

/-- The run walk over entries that `stoi` reads. -/
def walkAll (w : Walk) (v : List Str) : Walk :=
  v.foldl (fun w n => walkStep w n (digitsVal n)) w

/-! ## The runs of a bucket, in the words of the specification -/

/-- A run from `f` to `l` as a unit: the bare number when the run is one entry, else the
range `f-l`. -/
def runUnit (f l : Str) : HostUnit := if f = l then HostUnit.num f else HostUnit.range f l

/-- The runs of the entries `rest` after a pending run from `f` to `l`: an entry whose value
is one more than the value of `l` extends the pending run, any other entry closes it. -/
def runs (f l : Str) : List Str → List HostUnit
  | [] => [runUnit f l]
  | y :: rest =>
    if digitsVal y = digitsVal l + 1 then runs f y rest
    else runUnit f l :: runs y y rest

/-! ## Host names with a head, a number and a tail, in the words of the specification -/

/-- A tail that the expansion takes for a suffix: nothing, or a dot followed by text
without bracket, comma or white space. -/
def isDotTail (t : Str) : Prop :=
  t = [] ∨ ∃ r, t = '.' :: r ∧ ∀ c ∈ r, c ≠ '[' ∧ c ≠ ']' ∧ c ≠ ',' ∧ isSpace c = false

/-- A name that passes through the compression: not empty, and without digit, bracket, comma
or white space. -/
def isPlainName (x : Str) : Prop :=
  x ≠ [] ∧ ∀ c ∈ x, c.isDigit = false ∧ c ≠ '[' ∧ c ≠ ']' ∧ c ≠ ',' ∧ isSpace c = false

/-- A host name by its parts: a plain name, or a head, a number and a tail. -/
inductive HostItem where
  | plain : Str → HostItem
  | numbered : Str → Str → Str → HostItem

/-- The host name. -/
def HostItem.name : HostItem → Str
  | HostItem.plain x => x
  | HostItem.numbered h n t => h ++ (n ++ t)

/-- The parts are as the round trip needs them: a plain name; or a head that is not empty
and has no digit, bracket, `<`, comma or white space, a number that `stoi` reads, and a dot
tail. -/
def HostItem.ok : HostItem → Prop
  | HostItem.plain x => isPlainName x
  | HostItem.numbered h n t =>
    isPlainHead h ∧ (∀ c ∈ h, c ≠ ',' ∧ isSpace c = false) ∧ isIntStr n ∧ isDotTail t

/-- The units that a bucket is written with: the runs of its entries, sorted and freed of
duplicates. -/
def sortedRuns (v : List Str) : List HostUnit :=
  match unique (sortNums v) with
  | [] => []
  | x :: rest => runs x x rest

/-- The plain names among the items, in order. -/
def plainNames : List HostItem → List Str
  | [] => []
  | HostItem.plain x :: rest => x :: plainNames rest
  | HostItem.numbered _ _ _ :: rest => plainNames rest

/-- What the grouping loop has done after the items `done`, started with `res0` in
`*res_list`: the plain names are appended, the flag is down once a numbered name was seen,
every bucket holds numbers of names seen under its key and nothing else, and the number of
every numbered name seen is in a bucket under its key. -/
def GroupInv (res0 : List Str) (done : List HostItem) (st : GroupState) : Prop :=
  st.res_list = res0 ++ plainNames done ∧
  (st.res = true → ∀ h n t, HostItem.numbered h n t ∉ done) ∧
  (∀ k v, (k, v) ∈ st.host_map →
    v ≠ [] ∧ ∀ n ∈ v, ∃ h t, HostItem.numbered h n t ∈ done ∧ k = h ++ '<' :: t) ∧
  (∀ h n t, HostItem.numbered h n t ∈ done → ∃ v, (h ++ '<' :: t, v) ∈ st.host_map ∧ n ∈ v)

instance (t : Str) : Decidable (isDotTail t) :=
  decidable_of_iff
    (t = [] ∨ (t.head? = some '.' ∧
      ∀ c ∈ t.tail, c ≠ '[' ∧ c ≠ ']' ∧ c ≠ ',' ∧ isSpace c = false))
    (by
      unfold isDotTail
      constructor
      · rintro (h | ⟨h1, h2⟩)
        · exact Or.inl h
        · cases t with
          | nil => simp at h1
          | cons c r =>
            simp only [List.head?_cons, Option.some.injEq] at h1
            subst h1
            exact Or.inr ⟨r, rfl, h2⟩
      · rintro (h | ⟨r, rfl, h2⟩)
        · exact Or.inl h
        · exact Or.inr ⟨rfl, h2⟩)

instance (x : Str) : Decidable (isPlainName x) := by
  unfold isPlainName
  exact inferInstance

instance (it : HostItem) : Decidable it.ok := by
  cases it <;> unfold HostItem.ok <;> exact inferInstance

/-- The bracket depth after reading the text from the left, started at `depth`. -/
def depthAfter : Int → Str → Int
  | depth, [] => depth
  | depth, c :: cs =>
    if c = '[' then depthAfter (depth + 1) cs
    else if c = ']' then depthAfter (depth - 1) cs
    else depthAfter depth cs

/-! ## Tokens with several bracket groups, in the words of the specification -/

/-- A unit as the grammar asks for it: a non-empty digit string, or two of them joined by
`-`. -/
def HostUnit.wf : HostUnit → Prop
  | HostUnit.num d => isDigitStr d
  | HostUnit.range a b => isDigitStr a ∧ isDigitStr b

instance (u : HostUnit) : Decidable u.wf := by
  cases u <;> unfold HostUnit.wf <;> exact inferInstance

/-- A unit that the expansion reads to its end: digit strings, and ranges `a-b` whose values
fit 64 bits with `value(b)` below the largest 64-bit value; `value(a)` may be above
`value(b)`. -/
def HostUnit.expands : HostUnit → Prop
  | HostUnit.num d => isDigitStr d
  | HostUnit.range a b =>
    isDigitStr a ∧ isDigitStr b ∧ digitsVal a < 2 ^ 64 ∧ digitsVal b < 2 ^ 64 - 1

instance (u : HostUnit) : Decidable u.expands := by
  cases u <;> unfold HostUnit.expands <;> exact inferInstance

/-- A bracket group with the literal text before it. -/
structure HostGroup where
  head : Str
  units : List HostUnit

/-- The group as written: `head[u1,u2,...]`. -/
def HostGroup.text (g : HostGroup) : Str := g.head ++ '[' :: (groupText g.units ++ [']'])

/-- The unit list of the group: the head followed by one unit value, in unit order. -/
def HostGroup.names (g : HostGroup) : List Str := g.units.flatMap (HostUnit.names g.head)

/-- A group as the grammar asks for it: the head has no bracket and no comma, and there is
at least one unit, all of them well formed. -/
def HostGroup.wf (g : HostGroup) : Prop :=
  (∀ c ∈ g.head, c ≠ '[' ∧ c ≠ ']' ∧ c ≠ ',') ∧ g.units ≠ [] ∧ ∀ u ∈ g.units, u.wf

instance (g : HostGroup) : Decidable g.wf :=
  decidable_of_iff
    ((∀ c ∈ g.head, c ≠ '[' ∧ c ≠ ']' ∧ c ≠ ',') ∧ g.units.length ≠ 0 ∧
      ∀ u ∈ g.units, u.wf)
    (by unfold HostGroup.wf; rw [Ne, Ne, List.length_eq_zero])

/-- A group of a token: the head has no bracket and no comma, and there is at least one
unit, all of them read to their end. -/
def HostGroup.ok (g : HostGroup) : Prop :=
  (∀ c ∈ g.head, c ≠ '[' ∧ c ≠ ']' ∧ c ≠ ',') ∧ g.units ≠ [] ∧ ∀ u ∈ g.units, u.expands

instance (g : HostGroup) : Decidable g.ok :=
  decidable_of_iff
    ((∀ c ∈ g.head, c ≠ '[' ∧ c ≠ ']' ∧ c ≠ ',') ∧ g.units.length ≠ 0 ∧
      ∀ u ∈ g.units, u.expands)
    (by unfold HostGroup.ok; rw [Ne, Ne, List.length_eq_zero])

/-- The token as written: the groups one after the other, then the suffix. -/
def tokenText (groups : List HostGroup) (suffix : Str) : Str :=
  (groups.map HostGroup.text).flatten ++ suffix

/-- All concatenations of one entry of each list, the first list varying slowest and the
last one fastest. -/
def cartesian : List (List Str) → List Str
  | [] => [[]]
  | l :: ls => l.flatMap (fun x => (cartesian ls).map (fun y => x ++ y))

/-! ## The pieces of a bracket group, in the words of the specification -/

/-- A piece as the grammar asks for it: a non-empty digit string, or two non-empty digit
strings joined by one `-`. -/
def isUnitText (u : Str) : Prop :=
  isDigitStr u ∨ ∃ a b, u = a ++ '-' :: b ∧ isDigitStr a ∧ isDigitStr b

/-- The largest 64-bit value as it is written. -/
def sizeMaxText : Str := "18446744073709551615".toList

/-! ## The tokens of an input and their host names, in the words of the specification -/

/-- The pieces of a text cut at the commas outside brackets; `cur` is the piece being read
and `isOpen` tells whether a bracket is open. -/
def tokensFrom : Str → Bool → Str → List Str
  | cur, _, [] => [cur]
  | cur, isOpen, c :: cs =>
    if c = '[' then tokensFrom (cur ++ [c]) true cs
    else if c = ']' then tokensFrom (cur ++ [c]) false cs
    else if c = ',' ∧ isOpen = false then cur :: tokensFrom [] false cs
    else tokensFrom (cur ++ [c]) isOpen cs

/-- The tokens of a text: its pieces between the commas outside brackets. -/
def tokens (s : Str) : List Str := tokensFrom [] false s

/-- The token, trimmed, has the host names `names`: itself when it does not match the
pattern of line 167, and what `ParseNodeList` makes of it when it does. -/
def tokenExpands (tok : Str) (names : List Str) : Prop :=
  (RE2.FullMatch (StripAsciiWhitespace tok) regex = false ∧
      names = [StripAsciiWhitespace tok]) ∨
    (RE2.FullMatch (StripAsciiWhitespace tok) regex = true ∧
      ParseNodeList (StripAsciiWhitespace tok) [] = some (true, names))

/-- The expansion of the token fails: the token, trimmed, matches the pattern of line 167
and `ParseNodeList` returns `false` on it. -/
def tokenFails (tok : Str) : Prop :=
  RE2.FullMatch (StripAsciiWhitespace tok) regex = true ∧
    ParseNodeList (StripAsciiWhitespace tok) [] = some (false, [])

/-! ## The parts of a host name -/

/-- The head, the numeric string and the tail of a host name, as lines 196-200 cut it at
the run that `FoundFirstNumberWithoutBrackets` reports; `none` when no run is reported. -/
def hostParts (host : Str) : Option (Str × Str × Str) :=
  match FoundFirstNumberWithoutBrackets host with
  | (true, start, end_) =>
    some (host.take start, (host.drop start).take (end_ - start),
      (host.drop end_).take host.length)
  | (false, _, _) => none

/-- What the grouping loop has done after the hosts `done`: the flag is down once a host
with a numeric run was seen, every bucket holds numeric strings of hosts seen under its
key and nothing else, and the numeric string of every host seen is in the bucket of its
key. -/
def PartsInv (done : List Str) (st : GroupState) : Prop :=
  (st.res = true → ∀ y ∈ done, hostParts y = none) ∧
  (∀ k v, (k, v) ∈ st.host_map →
    v ≠ [] ∧ ∀ m ∈ v, ∃ y ∈ done, ∃ h t, hostParts y = some (h, m, t) ∧ k = h ++ '<' :: t) ∧
  (∀ y ∈ done, ∀ h n t, hostParts y = some (h, n, t) →
    ∃ v, (h ++ '<' :: t, v) ∈ st.host_map ∧ n ∈ v)

/-! ## Numbers of a bucket that keep their text through a run -/

/-- The entry `b` may follow the entry `a` in the ordered bucket: it comes later in the
order by length, then value, and when it is longer than `a` and its value is one more than
the value of `a`, it does not begin with `0`. -/
def cleanStep (a b : Str) : Prop :=
  widthThenValue a b ∧
    (a.length < b.length → digitsVal b = digitsVal a + 1 → b.head? ≠ some '0')

/-! ## Names that go through the round trip -/

/-- A name of a list of two or more that the round trip gives back. A name in which the
compression finds no numeric run is not empty and is a text that `ParseHostList` expands to
itself. A name that the compression cuts into head, numeric string and tail has a head
without bracket, `<`, comma and white space, a numeric string of digits with a value up to
`2^31 - 1`, and a tail that is empty or a dot followed by text without bracket, comma and
white space. -/
def nameOk (x : Str) : Prop :=
  match hostParts x with
  | none => x ≠ [] ∧ ParseHostList x [] = some (true, [x])
  | some (h, n, t) =>
    (∀ c ∈ h, c ≠ '[' ∧ c ≠ ']' ∧ c ≠ '<' ∧ c ≠ ',' ∧ isSpace c = false) ∧
      isIntStr n ∧ isDotTail t

instance (x : Str) : Decidable (nameOk x) := by
  unfold nameOk
  cases hostParts x with
  | none => exact inferInstance
  | some p =>
    obtain ⟨h, n, t⟩ := p
    exact inferInstance

/-! # Properties -/

/-! ## Regular expressions: the matcher computes the denotation -/

namespace Re

theorem matches_emp_iff {s : Str} : Matches emp s ↔ False := by
  constructor
  · intro h; cases h
  · intro h; exact h.elim

theorem matches_eps_iff {s : Str} : Matches eps s ↔ s = [] := by
  constructor
  · intro h; cases h; rfl
  · rintro rfl; exact Matches.eps

theorem matches_cls_iff {p : Char → Bool} {s : Str} :
    Matches (cls p) s ↔ ∃ c, s = [c] ∧ p c = true := by
  constructor
  · intro h; cases h with
    | cls _ c hc => exact ⟨c, rfl, hc⟩
  · rintro ⟨c, rfl, hc⟩; exact Matches.cls p c hc

theorem matches_cat_iff {a b : Re} {s : Str} :
    Matches (cat a b) s ↔ ∃ s1 s2, s = s1 ++ s2 ∧ Matches a s1 ∧ Matches b s2 := by
  constructor
  · intro h; cases h with
    | cat h1 h2 => exact ⟨_, _, rfl, h1, h2⟩
  · rintro ⟨s1, s2, rfl, h1, h2⟩; exact Matches.cat h1 h2

theorem matches_alt_iff {a b : Re} {s : Str} :
    Matches (alt a b) s ↔ Matches a s ∨ Matches b s := by
  constructor
  · intro h; cases h with
    | altL h1 => exact Or.inl h1
    | altR h1 => exact Or.inr h1
  · rintro (h | h)
    · exact Matches.altL h
    · exact Matches.altR h

theorem nullable_iff (r : Re) : r.nullable = true ↔ Matches r [] := by
  induction r with
  | emp => simp [nullable, matches_emp_iff]
  | eps => simp [nullable, matches_eps_iff]
  | cls p => simp [nullable, matches_cls_iff]
  | cat a b iha ihb =>
    simp only [nullable, Bool.and_eq_true, iha, ihb, matches_cat_iff]
    constructor
    · rintro ⟨h1, h2⟩; exact ⟨[], [], rfl, h1, h2⟩
    · rintro ⟨s1, s2, h, h1, h2⟩
      have h3 := List.append_eq_nil.mp h.symm
      rw [h3.1] at h1; rw [h3.2] at h2
      exact ⟨h1, h2⟩
  | alt a b iha ihb => simp [nullable, iha, ihb, matches_alt_iff]
  | star a _ => simp only [nullable, true_iff]; exact Matches.starNil

/-- A non-empty text of `star a` begins with a non-empty text of `a`. -/
theorem matches_star_cons_aux {r : Re} {x : Str} (h : Matches r x) :
    ∀ (a : Re) (c : Char) (s : Str), r = star a → x = c :: s →
      ∃ s1 s2, s = s1 ++ s2 ∧ Matches a (c :: s1) ∧ Matches (star a) s2 := by
  induction h with
  | eps => intro a c s hr; cases hr
  | cls p d hd => intro a c s hr; cases hr
  | cat _ _ _ _ => intro a c s hr; cases hr
  | altL _ _ => intro a c s hr; cases hr
  | altR _ _ => intro a c s hr; cases hr
  | starNil => intro a c s _ hx; cases hx
  | @starCons a0 s0 t0 h1 h2 _ ih2 =>
    intro a c s hr hx
    cases hr
    cases s0 with
    | nil => exact ih2 _ c s rfl (by simpa using hx)
    | cons d s1 =>
      simp only [List.cons_append, List.cons.injEq] at hx
      obtain ⟨rfl, rfl⟩ := hx
      exact ⟨s1, t0, rfl, h1, h2⟩

theorem matches_star_cons_iff {a : Re} {c : Char} {s : Str} :
    Matches (star a) (c :: s) ↔
      ∃ s1 s2, s = s1 ++ s2 ∧ Matches a (c :: s1) ∧ Matches (star a) s2 := by
  constructor
  · intro h; exact matches_star_cons_aux h a c s rfl rfl
  · rintro ⟨s1, s2, rfl, h1, h2⟩
    exact Matches.starCons h1 h2

theorem matches_deriv (r : Re) : ∀ (c : Char) (s : Str),
    Matches (r.deriv c) s ↔ Matches r (c :: s) := by
  induction r with
  | emp => intro c s; simp [deriv, matches_emp_iff]
  | eps => intro c s; simp [deriv, matches_emp_iff, matches_eps_iff]
  | cls p =>
    intro c s
    simp only [deriv, matches_cls_iff, List.cons.injEq]
    cases hp : p c
    · simp only [Bool.false_eq_true, if_false, matches_emp_iff, false_iff]
      rintro ⟨d, ⟨rfl, _⟩, hd⟩
      simp [hp] at hd
    · simp only [if_true, matches_eps_iff]
      constructor
      · rintro rfl; exact ⟨c, ⟨rfl, rfl⟩, hp⟩
      · rintro ⟨d, ⟨_, h⟩, _⟩; exact h
  | cat a b iha ihb =>
    intro c s
    have key : Matches (cat a b) (c :: s) ↔
        (Matches a [] ∧ Matches b (c :: s)) ∨
          ∃ s1 s2, s = s1 ++ s2 ∧ Matches a (c :: s1) ∧ Matches b s2 := by
      rw [matches_cat_iff]
      constructor
      · rintro ⟨t1, t2, ht, h1, h2⟩
        cases t1 with
        | nil => left; simp only [List.nil_append] at ht; rw [ht]; exact ⟨h1, h2⟩
        | cons d t1 =>
          right
          simp only [List.cons_append, List.cons.injEq] at ht
          obtain ⟨rfl, rfl⟩ := ht
          exact ⟨t1, t2, rfl, h1, h2⟩
      · rintro (⟨h1, h2⟩ | ⟨s1, s2, rfl, h1, h2⟩)
        · exact ⟨[], c :: s, rfl, h1, h2⟩
        · exact ⟨c :: s1, s2, rfl, h1, h2⟩
    rw [key]
    cases hn : a.nullable
    · have hn2 : ¬ Matches a [] := fun h => by
        have := (nullable_iff a).mpr h
        simp [hn] at this
      simp only [deriv, hn, Bool.false_eq_true, if_false, matches_cat_iff, iha]
      constructor
      · intro h; exact Or.inr h
      · rintro (⟨h, _⟩ | h)
        · exact (hn2 h).elim
        · exact h
    · have hn2 := (nullable_iff a).mp hn
      simp only [deriv, hn, if_true, matches_alt_iff, matches_cat_iff, iha, ihb]
      constructor
      · rintro (h | h)
        · exact Or.inr h
        · exact Or.inl ⟨hn2, h⟩
      · rintro (⟨_, h⟩ | h)
        · exact Or.inr h
        · exact Or.inl h
  | alt a b iha ihb => intro c s; simp [deriv, matches_alt_iff, iha, ihb]
  | star a iha =>
    intro c s
    rw [matches_star_cons_iff]
    simp only [deriv, matches_cat_iff, iha]

/-- Matching a class zero or more times: every character is in the class. -/
theorem matches_star_cls {p : Char → Bool} : ∀ (s : Str),
    Matches (star (cls p)) s ↔ ∀ c ∈ s, p c = true
  | [] => by simp only [List.not_mem_nil, false_implies, implies_true, iff_true]
             exact Matches.starNil
  | c :: s => by
    rw [matches_star_cons_iff]
    simp only [matches_cls_iff, List.cons.injEq, List.mem_cons, forall_eq_or_imp]
    constructor
    · rintro ⟨s1, s2, rfl, ⟨d, ⟨rfl, rfl⟩, hd⟩, h2⟩
      exact ⟨hd, by simpa using (matches_star_cls s2).mp h2⟩
    · rintro ⟨hc, hs⟩
      exact ⟨[], s, rfl, ⟨c, ⟨rfl, rfl⟩, hc⟩, (matches_star_cls s).mpr hs⟩

/-- Matching a class one or more times. -/
theorem matches_plus_cls {p : Char → Bool} (s : Str) :
    Matches (plus (cls p)) s ↔ s ≠ [] ∧ ∀ c ∈ s, p c = true := by
  simp only [plus, matches_cat_iff, matches_cls_iff, matches_star_cls]
  constructor
  · rintro ⟨s1, s2, rfl, ⟨c, rfl, hc⟩, h2⟩
    refine ⟨by simp, ?_⟩
    intro d hd
    simp only [List.singleton_append, List.mem_cons] at hd
    rcases hd with rfl | hd
    · exact hc
    · exact h2 d hd
  · rintro ⟨hne, h⟩
    cases s with
    | nil => exact (hne rfl).elim
    | cons c s =>
      exact ⟨[c], s, rfl, ⟨c, rfl, h c (List.mem_cons_self _ _)⟩,
        fun d hd => h d (List.mem_cons_of_mem _ hd)⟩

theorem matches_chr_iff {c : Char} {s : Str} : Matches (chr c) s ↔ s = [c] := by
  simp only [chr, matches_cls_iff, beq_iff_eq]
  constructor
  · rintro ⟨d, rfl, rfl⟩; rfl
  · rintro rfl; exact ⟨c, rfl, rfl⟩

end Re

theorem RE2.FullMatch_iff (text : Str) : ∀ (re : Re),
    RE2.FullMatch text re = true ↔ Re.Matches re text := by
  induction text with
  | nil => intro re; exact Re.nullable_iff re
  | cons c s ih =>
    intro re
    have h := ih (re.deriv c)
    simp only [RE2.FullMatch, List.foldl_cons] at h ⊢
    rw [h, Re.matches_deriv]

/-- `\d+` taken against the whole text: a non-empty text of digits. -/
theorem FullMatch_num_regex (u : Str) :
    RE2.FullMatch u num_regex = true ↔ u ≠ [] ∧ ∀ c ∈ u, c.isDigit = true := by
  rw [RE2.FullMatch_iff, num_regex, Re.digit, Re.matches_plus_cls]

/-- `\d+-\d+` taken against the whole text: two non-empty texts of digits joined by `-`. -/
theorem FullMatch_scope_regex (u : Str) :
    RE2.FullMatch u scope_regex = true ↔
      ∃ a b, u = a ++ '-' :: b ∧ (a ≠ [] ∧ ∀ c ∈ a, c.isDigit = true) ∧
        (b ≠ [] ∧ ∀ c ∈ b, c.isDigit = true) := by
  rw [RE2.FullMatch_iff, scope_regex, Re.digit]
  simp only [Re.matches_cat_iff, Re.matches_plus_cls, Re.matches_chr_iff]
  constructor
  · rintro ⟨a, t, rfl, ha, d, b, rfl, rfl, hb⟩
    exact ⟨a, b, rfl, ha, hb⟩
  · rintro ⟨a, b, rfl, ha, hb⟩
    exact ⟨a, '-' :: b, rfl, ha, ['-'], b, rfl, rfl, hb⟩

/-- Every character of a text of `star a` lies in a text of `a`. -/
theorem Re.matches_star_forall_aux {r : Re} {x : Str} (h : Re.Matches r x) :
    ∀ (a : Re) (q : Char → Prop), r = Re.star a → (∀ s, Re.Matches a s → ∀ c ∈ s, q c) →
      ∀ c ∈ x, q c := by
  induction h with
  | eps => intro a q hr; cases hr
  | cls p d hd => intro a q hr; cases hr
  | cat _ _ _ _ => intro a q hr; cases hr
  | altL _ _ => intro a q hr; cases hr
  | altR _ _ => intro a q hr; cases hr
  | starNil => intro a q _ _ c hc; simp at hc
  | starCons h1 h2 _ ih2 =>
    intro a q hr hq c hc
    cases hr
    rcases List.mem_append.mp hc with h | h
    · exact hq _ h1 c h
    · exact ih2 _ q rfl hq c h

/-- The denotation of `(\..*)*`: nothing, or a dot followed by text without a newline. -/
theorem matches_dot_suffix (z : Str) :
    Re.Matches (Re.star (Re.cat (Re.chr '.') (Re.star Re.dot))) z ↔
      z = [] ∨ ∃ t, z = '.' :: t ∧ ∀ c ∈ t, c ≠ '\n' := by
  have piece : ∀ s, Re.Matches (Re.cat (Re.chr '.') (Re.star Re.dot)) s →
      ∃ t, s = '.' :: t ∧ ∀ c ∈ t, c ≠ '\n' := by
    intro s hs
    rw [Re.matches_cat_iff] at hs
    obtain ⟨s1, s2, rfl, h1, h2⟩ := hs
    rw [Re.matches_chr_iff] at h1
    subst h1
    rw [Re.dot, Re.matches_star_cls] at h2
    exact ⟨s2, rfl, fun c hc => by simpa using h2 c hc⟩
  constructor
  · intro h
    cases z with
    | nil => exact Or.inl rfl
    | cons c z =>
      right
      have hall : ∀ d ∈ c :: z, d ≠ '\n' := by
        refine Re.matches_star_forall_aux h _ (fun d => d ≠ '\n') rfl ?_
        intro s hs d hd
        obtain ⟨t, rfl, ht⟩ := piece s hs
        rcases List.mem_cons.mp hd with rfl | hd
        · decide
        · exact ht d hd
      obtain ⟨s1, s2, rfl, h1, _⟩ := Re.matches_star_cons_iff.mp h
      obtain ⟨t, ht, _⟩ := piece _ h1
      simp only [List.cons.injEq] at ht
      rw [ht.1]
      exact ⟨s1 ++ s2, rfl, fun d hd => hall d (List.mem_cons_of_mem _ hd)⟩
  · rintro (rfl | ⟨t, rfl, ht⟩)
    · exact Re.Matches.starNil
    · have h1 : Re.Matches (Re.cat (Re.chr '.') (Re.star Re.dot)) ('.' :: t) := by
        rw [Re.matches_cat_iff]
        refine ⟨['.'], t, rfl, Re.matches_chr_iff.mpr rfl, ?_⟩
        rw [Re.dot, Re.matches_star_cls]
        intro c hc
        simpa using ht c hc
      have := Re.Matches.starCons h1 (Re.Matches.starNil)
      simpa using this

/-- The token pattern of line 167 taken against the whole text. -/
theorem FullMatch_regex (s : Str) :
    RE2.FullMatch s regex = true ↔
      ∃ x y z, s = x ++ '[' :: (y ++ ']' :: z) ∧ (∀ c ∈ x, c ≠ '\n') ∧ (∀ c ∈ y, c ≠ '\n') ∧
        (z = [] ∨ ∃ t, z = '.' :: t ∧ ∀ c ∈ t, c ≠ '\n') := by
  rw [RE2.FullMatch_iff, regex]
  simp only [Re.matches_cat_iff, Re.matches_chr_iff, matches_dot_suffix]
  simp only [Re.dot, Re.matches_star_cls, bne_iff_ne, ne_eq]
  constructor
  · rintro ⟨x, _, rfl, hx, _, _, rfl, rfl, y, _, rfl, hy, _, z, rfl, rfl, hz⟩
    exact ⟨x, y, z, by simp, hx, hy, hz⟩
  · rintro ⟨x, y, z, rfl, hx, hy, hz⟩
    exact ⟨x, _, rfl, hx, ['['], _, rfl, rfl, y, _, rfl, hy, [']'], z, rfl, rfl, hz⟩

/-- The pattern of line 47 searched in the text: a `[`, later a `]`, no newline between. -/
theorem PartialMatch_brackets_regex (s : Str) :
    RE2.PartialMatch s brackets_regex = true ↔
      ∃ x y z, s = x ++ '[' :: (y ++ ']' :: z) ∧ ∀ c ∈ y, c ≠ '\n' := by
  rw [RE2.PartialMatch, RE2.FullMatch_iff, brackets_regex]
  simp only [Re.matches_cat_iff, Re.matches_chr_iff]
  simp only [Re.dot, Re.anyChar, Re.matches_star_cls, bne_iff_ne, ne_eq, implies_true, true_and,
    and_true]
  constructor
  · rintro ⟨x0, _, rfl, _, z, rfl, ⟨x1, _, rfl, _, _, _, rfl, rfl, y, _, rfl, hy, rfl⟩⟩
    exact ⟨x0 ++ x1, y, z, by simp, hy⟩
  · rintro ⟨x, y, z, rfl, hy⟩
    refine ⟨x, _, rfl, '[' :: (y ++ [']']), z, by simp, [], _, rfl, ?_, ['['], _, rfl, rfl, y,
      _, rfl, hy, rfl⟩
    simp

/-! ## `ParseHostList`: failures -/

/-- The splitting loop ends in `return false`, or with a bracket still open, on every text
whose bracket structure is ill-formed. -/
theorem splitLoop_illFormed : ∀ (t : Str) (st : SplitState),
    illFormedFrom (decide (st.char_queue ≠ [])) t = true →
      ∀ st2, splitLoop (t ++ [',']) st = some st2 → st2.char_queue ≠ []
  | [], st => by
    intro h st2 h2
    simp only [illFormedFrom, decide_eq_true_eq] at h
    simp only [List.nil_append, splitLoop, splitStep, h, if_false] at h2
    simp only [show ¬ (',' = '[') by decide, show ¬ (',' = ']') by decide, if_false, if_true,
      Option.some.injEq] at h2
    rw [← h2]
    simp
  | c :: cs, st => by
    intro h st2 h2
    simp only [List.cons_append, splitLoop] at h2
    simp only [illFormedFrom] at h
    by_cases hq : st.char_queue = []
    · simp only [hq, ne_eq, not_true_eq_false, decide_False, Bool.false_eq_true, if_false] at h
      by_cases h1 : c = '['
      · simp only [h1, if_true] at h
        simp only [splitStep, h1, hq, if_true, List.nil_append] at h2
        exact splitLoop_illFormed cs _ (by simpa using h) st2 h2
      · by_cases h3 : c = ']'
        · simp [splitStep, h1, h3, hq] at h2
        · simp only [h1, h3, if_false] at h
          by_cases h4 : c = ','
          · simp only [splitStep, h1, h3, h4, hq, if_true, if_false] at h2
            exact splitLoop_illFormed cs _ (by simpa using h) st2 h2
          · simp only [splitStep, h1, h3, h4, hq, if_true, if_false] at h2
            exact splitLoop_illFormed cs _ (by simpa [hq] using h) st2 h2
    · simp only [hq, ne_eq, not_false_eq_true, decide_True, if_true] at h
      by_cases h1 : c = '['
      · simp [splitStep, h1, hq] at h2
      · by_cases h3 : c = ']'
        · simp only [h1, h3, if_true, if_false] at h
          simp only [splitStep, h1, h3, hq, if_false, if_true] at h2
          exact splitLoop_illFormed cs _ (by simpa using h) st2 h2
        · simp only [h1, h3, if_false] at h
          by_cases h4 : c = ','
          · simp only [splitStep, h1, h3, h4, hq, if_true, if_false] at h2
            exact splitLoop_illFormed cs _ (by simpa using h) st2 h2
          · simp only [splitStep, h1, h3, h4, hq, if_true, if_false] at h2
            exact splitLoop_illFormed cs _ (by simpa using h) st2 h2

/-- **C4.** Ill-formed bracket structure is rejected with no output: when the input, its
spaces removed, has a `[` while a bracket is open, a `]` while none is open, or ends with a
bracket open, `ParseHostList` returns `false` and `*host_list` is what it was. -/
theorem ParseHostList_illFormed (host_str : Str) (host_list : List Str)
    (h : illFormedBrackets (host_str.filter (fun i => i != ' ')) = true) :
    ParseHostList host_str host_list = some (false, host_list) := by
  unfold ParseHostList
  simp only
  cases hs : splitLoop (host_str.filter (fun i => i != ' ') ++ [','])
      { name_meta := [], str_list := [], char_queue := [] } with
  | none => rfl
  | some st =>
    have := splitLoop_illFormed _ { name_meta := [], str_list := [], char_queue := [] }
      (by simpa [illFormedBrackets] using h) st hs
    simp [this]

set_option maxRecDepth 100000 in
/-- The input `cn[01-` of the specification: failure, and nothing is appended. -/
theorem ParseHostList_illFormed_witness :
    illFormedBrackets ("cn[01-".toList.filter (fun i => i != ' ')) = true ∧
      ParseHostList "cn[01-".toList ["x".toList] = some (false, ["x".toList]) :=
  ⟨by decide, ParseHostList_illFormed "cn[01-".toList ["x".toList] (by decide)⟩

/-- What `ParseNodeList` returns for a list is what it returns for the empty list, after the
list. -/
theorem ParseNodeList_append (node_str : Str) (nodelist : List Str) :
    ParseNodeList node_str nodelist =
      (ParseNodeList node_str []).map (fun p => (p.1, nodelist ++ p.2)) := by
  unfold ParseNodeList
  by_cases h : RE2.PartialMatch node_str brackets_regex = true
  · simp only [h, Bool.not_true, Bool.false_eq_true, if_false]
    cases fragLoop (StrSplit (fun c => c == ']') node_str).dropLast [[]] <;> simp
  · simp [h]

/-- A failing `ParseNodeList` leaves `*nodelist` as it was. -/
theorem ParseNodeList_false (node_str : Str) (nodelist l2 : List Str)
    (h : ParseNodeList node_str nodelist = some (false, l2)) : l2 = nodelist := by
  unfold ParseNodeList at h
  by_cases hm : RE2.PartialMatch node_str brackets_regex = true
  · simp only [hm, Bool.not_true, Bool.false_eq_true, if_false] at h
    cases hf : fragLoop (StrSplit (fun c => c == ']') node_str).dropLast [[]] with
    | done r => simp [hf] at h
    | retFalse => simp [hf] at h; exact h.symm
    | hang => simp [hf] at h
  · simp [hm] at h; exact h.symm

/-- What the token loop returns for a list is what it returns for the empty list, after the
list. -/
theorem tokenLoop_append : ∀ (toks : List Str) (host_list : List Str),
    tokenLoop toks host_list =
      (tokenLoop toks []).map (fun p => (p.1, host_list ++ p.2))
  | [], host_list => by simp [tokenLoop]
  | tok :: rest, host_list => by
    simp only [tokenLoop]
    by_cases hm : RE2.FullMatch (StripAsciiWhitespace tok) regex = true
    · simp only [hm, Bool.not_true, Bool.false_eq_true, if_false]
      rw [ParseNodeList_append _ host_list]
      cases hp : ParseNodeList (StripAsciiWhitespace tok) [] with
      | none => simp
      | some p =>
        obtain ⟨b, l⟩ := p
        cases b with
        | false => simp
        | true =>
          simp only [Option.map_some', List.nil_append]
          rw [tokenLoop_append rest (host_list ++ l), tokenLoop_append rest l]
          cases tokenLoop rest [] <;> simp
    · simp only [hm, Bool.not_false, if_true, List.nil_append]
      rw [tokenLoop_append rest (host_list ++ _), tokenLoop_append rest [_]]
      cases tokenLoop rest [] <;> simp

/-- A failing token loop has run the tokens before the failing one, and only them. -/
theorem tokenLoop_false : ∀ (toks : List Str) (l2 : List Str),
    tokenLoop toks [] = some (false, l2) →
      ∃ pre tok post, toks = pre ++ tok :: post ∧ tokenLoop pre [] = some (true, l2) ∧
        ParseNodeList (StripAsciiWhitespace tok) [] = some (false, [])
  | [], l2 => by simp [tokenLoop]
  | t :: rest, l2 => by
    intro h
    simp only [tokenLoop] at h
    by_cases hm : RE2.FullMatch (StripAsciiWhitespace t) regex = true
    · simp only [hm, Bool.not_true, Bool.false_eq_true, if_false] at h
      cases hp : ParseNodeList (StripAsciiWhitespace t) [] with
      | none => simp [hp] at h
      | some p =>
        obtain ⟨b, l⟩ := p
        cases b with
        | false =>
          have hl := ParseNodeList_false _ _ _ hp
          subst hl
          simp only [hp, Option.some.injEq, Prod.mk.injEq, true_and] at h
          subst h
          exact ⟨[], t, rest, rfl, rfl, hp⟩
        | true =>
          simp only [hp] at h
          rw [tokenLoop_append] at h
          cases hr : tokenLoop rest [] with
          | none => simp [hr] at h
          | some q =>
            obtain ⟨b2, l3⟩ := q
            simp only [hr, Option.map_some', Option.some.injEq, Prod.mk.injEq] at h
            obtain ⟨rfl, rfl⟩ := h
            obtain ⟨pre, tok, post, rfl, h1, h2⟩ := tokenLoop_false rest l3 hr
            refine ⟨t :: pre, tok, post, rfl, ?_, h2⟩
            simp only [tokenLoop, hm, Bool.not_true, Bool.false_eq_true, if_false, hp]
            rw [tokenLoop_append, h1]
            rfl
    · simp only [hm, Bool.not_false, if_true, List.nil_append] at h
      rw [tokenLoop_append] at h
      cases hr : tokenLoop rest [] with
      | none => simp [hr] at h
      | some q =>
        obtain ⟨b2, l3⟩ := q
        simp only [hr, Option.map_some', Option.some.injEq, Prod.mk.injEq] at h
        obtain ⟨rfl, rfl⟩ := h
        obtain ⟨pre, tok, post, rfl, h1, h2⟩ := tokenLoop_false rest l3 hr
        refine ⟨t :: pre, tok, post, rfl, ?_, h2⟩
        simp only [tokenLoop, hm, Bool.not_false, if_true, List.nil_append]
        rw [tokenLoop_append, h1]
        rfl

set_option maxRecDepth 100000 in
/-- **C5**, refuted as stated: on `a,b[x]` the call fails in its second token, and the host
name of the first token has been appended. -/
theorem ParseHostList_failure_not_atomic :
    ParseHostList "a,b[x]".toList [] = some (false, ["a".toList]) ∧
      ¬ (∀ (host_str : Str) (host_list l2 : List Str),
          ParseHostList host_str host_list = some (false, l2) → l2 = host_list) := by
  have h : ParseHostList "a,b[x]".toList [] = some (false, ["a".toList]) := by decide
  refine ⟨h, fun hall => ?_⟩
  have := hall _ _ _ h
  simp at this

/-! ## `RemoveBracketsWithoutDashOrComma` -/

theorem dropWhile_ne_eq_nil (c : Char) : ∀ (s : Str),
    s.dropWhile (fun x => x != c) = [] ↔ c ∉ s
  | [] => by simp
  | d :: s => by
    by_cases h : d = c
    · simp [List.dropWhile_cons, h]
    · have := dropWhile_ne_eq_nil c s
      simp [List.dropWhile_cons, h, this, Ne.symm h]

theorem takeWhile_ne_first (c : Char) (pre post : Str) (h : c ∉ pre) :
    (pre ++ c :: post).takeWhile (fun x => x != c) = pre := by
  rw [List.takeWhile_append_of_pos]
  · simp [List.takeWhile_cons]
  · intro a ha
    simp only [bne_iff_ne, ne_eq]
    rintro rfl
    exact h ha

theorem dropWhile_ne_first (c : Char) (pre post : Str) (h : c ∉ pre) :
    (pre ++ c :: post).dropWhile (fun x => x != c) = c :: post := by
  rw [List.dropWhile_append_of_pos]
  · simp [List.dropWhile_cons]
  · intro a ha
    simp only [bne_iff_ne, ne_eq]
    rintro rfl
    exact h ha

/-- A text either lacks `c` or splits at its first `c`. -/
theorem split_first (c : Char) : ∀ (s : Str),
    c ∉ s ∨ ∃ pre post, s = pre ++ c :: post ∧ c ∉ pre
  | [] => by simp
  | d :: s => by
    by_cases h : d = c
    · right; exact ⟨[], s, by simp [h], by simp⟩
    · rcases split_first c s with h1 | ⟨pre, post, rfl, h2⟩
      · left; simp [h1, Ne.symm h]
      · right; exact ⟨d :: pre, post, rfl, by simp [h2, Ne.symm h]⟩

theorem indexOf_first (c : Char) (pre post : Str) (h : c ∉ pre) :
    (pre ++ c :: post).indexOf c = pre.length := by
  induction pre with
  | nil => simp
  | cons d pre ih =>
    have hd : d ≠ c := fun e => h (by simp [e])
    have hp : c ∉ pre := fun e => h (by simp [e])
    simp [List.indexOf_cons, hd, ih hp]

/-- `find` from position `done.length` in `done ++ rest` when `rest` has no `c`. -/
theorem find_none (c : Char) (done rest : Str) (h : c ∉ rest) :
    find (done ++ rest) c done.length = none := by
  simp only [find, List.drop_left, ite_eq_right_iff]
  intro h2
  exact absurd (List.indexOf_lt_length.mp h2) h

/-- `find` from position `done.length` in `done ++ rest` when `rest` splits at its first
`c`. -/
theorem find_some (c : Char) (done pre post : Str) (h : c ∉ pre) :
    find (done ++ (pre ++ c :: post)) c done.length = some (done.length + pre.length) := by
  simp only [find, List.drop_left, indexOf_first c pre post h]
  simp

theorem eraseIdx_middle (a : Str) (x : Char) (b : Str) :
    (a ++ x :: b).eraseIdx a.length = a ++ b := by
  induction a with
  | nil => simp
  | cons d a ih => simp [ih]

/-- The loop on `output` from `leftBracketPos` ends, given more turns than there are
characters right of `leftBracketPos`, and is the rewriting of the text right of
`leftBracketPos`. -/
theorem removeLoop_eq_removeFrom : ∀ (fuel : Nat) (done rest : Str), rest.length < fuel →
    removeLoop fuel (done ++ rest) done.length = some (done ++ removeFrom fuel rest)
  | 0, done, rest => by intro h; omega
  | fuel + 1, done, rest => by
    intro hfuel
    rcases split_first '[' rest with h1 | ⟨pre, after, rfl, hpre⟩
    · simp only [removeLoop, removeFrom, find_none _ _ _ h1,
        (dropWhile_ne_eq_nil '[' rest).mpr h1]
    · rcases split_first ']' after with h2 | ⟨mid, post, rfl, hmid⟩
      · have hf : find (done ++ (pre ++ '[' :: after)) ']' (done.length + pre.length) = none := by
          have := find_none ']' (done ++ pre) ('[' :: after) (by simp [h2])
          simpa using this
        simp only [removeLoop, removeFrom, find_some _ _ _ _ hpre, hf,
          dropWhile_ne_first _ _ _ hpre, (dropWhile_ne_eq_nil ']' after).mpr h2]
      · have hf : find (done ++ (pre ++ '[' :: (mid ++ ']' :: post))) ']'
            (done.length + pre.length) = some (done.length + pre.length + (mid.length + 1)) := by
          have := find_some ']' (done ++ pre) ('[' :: mid) post (by simp [hmid])
          simpa [Nat.add_assoc] using this
        have hb : (List.drop (done.length + pre.length + 1)
            (done ++ (pre ++ '[' :: (mid ++ ']' :: post)))).take
              (done.length + pre.length + (mid.length + 1) - (done.length + pre.length) - 1)
              = mid := by
          have e1 : done ++ (pre ++ '[' :: (mid ++ ']' :: post)) =
              (done ++ pre ++ ['[']) ++ (mid ++ ']' :: post) := by simp
          have e2 : done.length + pre.length + 1 = (done ++ pre ++ ['[']).length := by
            simp [Nat.add_assoc]
          have e3 : done.length + pre.length + (mid.length + 1) - (done.length + pre.length) - 1
              = mid.length := by omega
          rw [e1, e2, List.drop_left, e3, List.take_left]
        have hd : ∀ c : Char, find mid c 0 = none ↔ c ∉ mid := by
          intro c
          simp only [find, List.drop_zero, Nat.zero_add, ite_eq_right_iff, reduceCtorEq,
            imp_false, not_lt]
          rw [← not_lt, List.indexOf_lt_length]
        have he : ((done ++ (pre ++ '[' :: (mid ++ ']' :: post))).eraseIdx
            (done.length + pre.length + (mid.length + 1))).eraseIdx (done.length + pre.length)
            = (done ++ pre) ++ (mid ++ post) := by
          have e1 : done ++ (pre ++ '[' :: (mid ++ ']' :: post)) =
              (done ++ pre ++ '[' :: mid) ++ ']' :: post := by simp
          have e2 : done.length + pre.length + (mid.length + 1) =
              (done ++ pre ++ '[' :: mid).length := by simp [Nat.add_assoc]
          rw [e1, e2, eraseIdx_middle]
          have e3 : done ++ pre ++ '[' :: mid ++ post = (done ++ pre) ++ '[' :: (mid ++ post) := by
            simp
          have e4 : done.length + pre.length = (done ++ pre).length := by simp
          rw [e3, e4, eraseIdx_middle]
        simp only [List.length_append, List.length_cons] at hfuel
        simp only [removeLoop, removeFrom, find_some _ _ _ _ hpre, hf,
          dropWhile_ne_first _ _ _ hpre, dropWhile_ne_first _ _ _ hmid,
          takeWhile_ne_first _ _ _ hpre, takeWhile_ne_first _ _ _ hmid, hb, hd]
        by_cases hc : '-' ∉ mid ∧ ',' ∉ mid
        · simp only [hc, not_false_eq_true, and_self, if_true]
          rw [he]
          have := removeLoop_eq_removeFrom fuel (done ++ pre) (mid ++ post)
            (by simp only [List.length_append]; omega)
          simp only [List.length_append] at this
          rw [this]
          simp
        · simp only [hc, if_false]
          have := removeLoop_eq_removeFrom fuel (done ++ pre ++ '[' :: mid ++ [']']) post
            (by omega)
          simp only [List.length_append, List.length_cons, List.length_nil, List.append_assoc,
            List.cons_append, List.nil_append, List.singleton_append] at this
          have e5 : done.length + pre.length + (mid.length + 1) + 1 =
              done.length + (pre.length + (mid.length + 1 + 1)) := by omega
          rw [e5, this]

theorem removeFrom_no_open (fuel : Nat) (s : Str) (h : '[' ∉ s) : removeFrom fuel s = s := by
  cases fuel with
  | zero => rfl
  | succ fuel => simp only [removeFrom, (dropWhile_ne_eq_nil '[' s).mpr h]

theorem removeFrom_no_close (fuel : Nat) (pre after : Str) (h1 : '[' ∉ pre)
    (h2 : ']' ∉ after) : removeFrom fuel (pre ++ '[' :: after) = pre ++ '[' :: after := by
  cases fuel with
  | zero => rfl
  | succ fuel =>
    simp only [removeFrom, dropWhile_ne_first _ _ _ h1, (dropWhile_ne_eq_nil ']' after).mpr h2]

theorem removeFrom_step (fuel : Nat) (pre mid post : Str) (h1 : '[' ∉ pre) (h2 : ']' ∉ mid) :
    removeFrom (fuel + 1) (pre ++ '[' :: (mid ++ ']' :: post)) =
      if '-' ∉ mid ∧ ',' ∉ mid then pre ++ removeFrom fuel (mid ++ post)
      else pre ++ '[' :: (mid ++ ']' :: removeFrom fuel post) := by
  simp only [removeFrom, dropWhile_ne_first _ _ _ h1, dropWhile_ne_first _ _ _ h2,
    takeWhile_ne_first _ _ _ h1, takeWhile_ne_first _ _ _ h2]

/-- More turns than the text has characters are never used up. -/
theorem removeFrom_fuel : ∀ (fuel fuel2 : Nat) (s : Str), s.length < fuel → s.length < fuel2 →
    removeFrom fuel s = removeFrom fuel2 s
  | 0, _, s => by intro h; omega
  | _ + 1, 0, s => by intro _ h; omega
  | fuel + 1, fuel2 + 1, s => by
    intro hf hf2
    rcases split_first '[' s with h1 | ⟨pre, after, rfl, hpre⟩
    · rw [removeFrom_no_open _ _ h1, removeFrom_no_open _ _ h1]
    · rcases split_first ']' after with h2 | ⟨mid, post, rfl, hmid⟩
      · rw [removeFrom_no_close _ _ _ hpre h2, removeFrom_no_close _ _ _ hpre h2]
      · rw [removeFrom_step _ _ _ _ hpre hmid, removeFrom_step _ _ _ _ hpre hmid]
        simp only [List.length_append, List.length_cons] at hf hf2
        rw [removeFrom_fuel fuel fuel2 (mid ++ post) (by simp; omega) (by simp; omega),
          removeFrom_fuel fuel fuel2 post (by omega) (by omega)]

/-- The loop of `RemoveBracketsWithoutDashOrComma` ends: with more turns than the input has
characters it returns, and what it returns is the result of the function. -/
theorem removeLoop_fuel (input : Str) (fuel : Nat) (h : input.length < fuel) :
    removeLoop fuel input 0 = some (RemoveBracketsWithoutDashOrComma input) := by
  have h1 := removeLoop_eq_removeFrom fuel [] input h
  have h2 := removeLoop_eq_removeFrom (input.length + 1) [] input (Nat.lt_succ_self _)
  simp only [List.nil_append, List.length_nil] at h1 h2
  rw [RemoveBracketsWithoutDashOrComma, h1, h2, Option.getD_some]
  exact congrArg some (removeFrom_fuel _ _ _ h (Nat.lt_succ_self _))

theorem Remove_eq (s : Str) (fuel : Nat) (h : s.length < fuel) :
    RemoveBracketsWithoutDashOrComma s = removeFrom fuel s := by
  have h2 := removeLoop_eq_removeFrom (s.length + 1) [] s (Nat.lt_succ_self _)
  simp only [List.nil_append, List.length_nil] at h2
  rw [RemoveBracketsWithoutDashOrComma, h2, Option.getD_some]
  exact removeFrom_fuel _ _ _ (Nat.lt_succ_self _) h

/-- A text without `[` is returned as it is. -/
theorem Remove_no_open (s : Str) (h : '[' ∉ s) : RemoveBracketsWithoutDashOrComma s = s := by
  rw [Remove_eq s _ (Nat.lt_succ_self _), removeFrom_no_open _ _ h]

/-- A text without `]` after its first `[` is returned as it is. -/
theorem Remove_no_close (pre after : Str) (h1 : '[' ∉ pre) (h2 : ']' ∉ after) :
    RemoveBracketsWithoutDashOrComma (pre ++ '[' :: after) = pre ++ '[' :: after := by
  rw [Remove_eq _ _ (Nat.lt_succ_self _), removeFrom_no_close _ _ _ h1 h2]

/-- The first `[` and the first `]` after it: both deleted when the text between them has
neither `-` nor `,`, and the scan goes on at the text between them; else both kept, and the
scan goes on after the `]`. -/
theorem Remove_step (pre mid post : Str) (h1 : '[' ∉ pre) (h2 : ']' ∉ mid) :
    RemoveBracketsWithoutDashOrComma (pre ++ '[' :: (mid ++ ']' :: post)) =
      if '-' ∉ mid ∧ ',' ∉ mid then pre ++ RemoveBracketsWithoutDashOrComma (mid ++ post)
      else pre ++ '[' :: (mid ++ ']' :: RemoveBracketsWithoutDashOrComma post) := by
  rw [Remove_eq _ ((pre ++ '[' :: (mid ++ ']' :: post)).length + 1) (Nat.lt_succ_self _),
    removeFrom_step _ _ _ _ h1 h2,
    Remove_eq (mid ++ post) (pre ++ '[' :: (mid ++ ']' :: post)).length (by simp; omega),
    Remove_eq post (pre ++ '[' :: (mid ++ ']' :: post)).length (by simp; omega)]

/-- Text without `[` in front of the input stays in front of the result. -/
theorem Remove_append_left (pre x : Str) (h : '[' ∉ pre) :
    RemoveBracketsWithoutDashOrComma (pre ++ x) = pre ++ RemoveBracketsWithoutDashOrComma x := by
  rcases split_first '[' x with h1 | ⟨p2, after, rfl, hp2⟩
  · rw [Remove_no_open x h1, Remove_no_open _ (by simp [h, h1])]
  · have hpp : '[' ∉ pre ++ p2 := by simp [h, hp2]
    rcases split_first ']' after with h2 | ⟨mid, post, rfl, hmid⟩
    · rw [Remove_no_close p2 after hp2 h2, ← List.append_assoc,
        Remove_no_close (pre ++ p2) after hpp h2]
    · rw [Remove_step p2 mid post hp2 hmid, ← List.append_assoc,
        Remove_step (pre ++ p2) mid post hpp hmid]
      by_cases hc : '-' ∉ mid ∧ ',' ∉ mid
      · simp only [hc, not_false_eq_true, and_self, if_true, List.append_assoc]
      · simp only [hc, if_false, List.append_assoc]

/-- **C9.** Singleton canonicalization: on a text whose brackets are balanced and not nested
(pieces of bracket-free text, some of them enclosed in a pair of brackets)
`RemoveBracketsWithoutDashOrComma` deletes the two brackets of every pair whose enclosed
text has neither `-` nor `,` and keeps everything else in place. -/
theorem Remove_balanced (segs : List Seg)
    (h : ∀ g ∈ segs, '[' ∉ g.text ∧ ']' ∉ g.text) :
    RemoveBracketsWithoutDashOrComma (renderSegs segs) = stripSegs segs := by
  induction segs with
  | nil => exact Remove_no_open [] (by simp)
  | cons g rest ih =>
    have hg := h g (List.mem_cons_self _ _)
    have ih2 := ih (fun g2 hg2 => h g2 (List.mem_cons_of_mem _ hg2))
    simp only [renderSegs, stripSegs, List.map_cons, List.flatten_cons] at ih2 ⊢
    cases g with
    | lit t =>
      simp only [Seg.text] at hg
      simp only [Seg.render, Seg.strip]
      rw [Remove_append_left _ _ hg.1, ih2]
    | grp t =>
      simp only [Seg.text] at hg
      simp only [Seg.render, Seg.strip, List.cons_append, List.append_assoc,
        List.singleton_append, List.nil_append]
      have := Remove_step [] t (rest.map Seg.render).flatten (by simp) hg.2
      simp only [List.nil_append] at this
      rw [this]
      by_cases hc : '-' ∈ t ∨ ',' ∈ t
      · have hc2 : ¬ ('-' ∉ t ∧ ',' ∉ t) := by tauto
        rw [if_neg hc2, if_pos hc, ih2]
        simp
      · have hc2 : '-' ∉ t ∧ ',' ∉ t := by tauto
        rw [if_pos hc2, if_neg hc, Remove_append_left _ _ hg.1, ih2]

set_option maxRecDepth 100000 in
/-- The texts `cn[5]` and `cn[1-2]` of the specification, one after the other. -/
theorem Remove_balanced_witness :
    (∀ g ∈ [Seg.lit "cn".toList, Seg.grp "5".toList, Seg.lit "cn".toList, Seg.grp "1-2".toList],
      '[' ∉ g.text ∧ ']' ∉ g.text) ∧
    RemoveBracketsWithoutDashOrComma "cn[5]cn[1-2]".toList = "cn5cn[1-2]".toList :=
  ⟨by decide, Remove_balanced [Seg.lit "cn".toList, Seg.grp "5".toList, Seg.lit "cn".toList,
    Seg.grp "1-2".toList] (by decide)⟩

theorem Remove_idem_aux : ∀ (n : Nat) (s : Str), s.length ≤ n →
    RemoveBracketsWithoutDashOrComma (RemoveBracketsWithoutDashOrComma s) =
      RemoveBracketsWithoutDashOrComma s
  | n, s => by
    intro hn
    rcases split_first '[' s with h1 | ⟨pre, after, rfl, hpre⟩
    · rw [Remove_no_open s h1, Remove_no_open s h1]
    · rcases split_first ']' after with h2 | ⟨mid, post, rfl, hmid⟩
      · rw [Remove_no_close pre after hpre h2, Remove_no_close pre after hpre h2]
      · simp only [List.length_append, List.length_cons] at hn
        rw [Remove_step pre mid post hpre hmid]
        by_cases hc : '-' ∉ mid ∧ ',' ∉ mid
        · simp only [hc, not_false_eq_true, and_self, if_true]
          rw [Remove_append_left _ _ hpre,
            Remove_idem_aux (n - 1) (mid ++ post) (by simp; omega)]
        · simp only [hc, if_false]
          rw [Remove_step pre mid _ hpre hmid]
          simp only [hc, if_false]
          rw [Remove_idem_aux (n - 1) post (by omega)]
termination_by n => n
decreasing_by
  all_goals simp_wf
  all_goals simp only [List.length_append, List.length_cons] at hn
  all_goals omega

/-- **C10.** Idempotence: on every text, with nested, unbalanced or stray brackets too,
applying `RemoveBracketsWithoutDashOrComma` twice gives what applying it once gives. -/
theorem Remove_idempotent (s : Str) :
    RemoveBracketsWithoutDashOrComma (RemoveBracketsWithoutDashOrComma s) =
      RemoveBracketsWithoutDashOrComma s :=
  Remove_idem_aux s.length s (Nat.le_refl _)

/-! ## `HostNameListToStr_`: hosts without a number -/

/-- Without a digit at depth zero the scan finds nothing. -/
theorem foundLoop_none : ∀ (cs : Str) (depth : Int) (opens i : Nat),
    (opens : Int) = depth % 2 ^ 64 → depth.natAbs + cs.length < 2 ^ 64 →
    hasDigitOutsideFrom depth cs = false → foundLoop cs opens 0 i = (false, 0, 0)
  | [], depth, opens, i => by intro _ _ _; simp [foundLoop]
  | c :: cs, depth, opens, i => by
    intro ho hl hd
    simp only [List.length_cons] at hl
    simp only [hasDigitOutsideFrom] at hd
    simp only [foundLoop]
    by_cases h1 : c = '['
    · simp only [h1, if_true] at hd ⊢
      exact foundLoop_none cs (depth + 1) _ _ (by push_cast; omega) (by omega) hd
    · by_cases h2 : c = ']'
      · simp only [h1, h2, if_true, if_false] at hd ⊢
        exact foundLoop_none cs (depth - 1) _ _ (by push_cast; omega) (by omega) hd
      · simp only [h1, h2, if_false, Bool.or_eq_false_iff, Bool.and_eq_false_imp,
          decide_eq_true_eq] at hd ⊢
        by_cases h3 : opens = 0
        · have hz : depth = 0 := by subst h3; omega
          have hc := hd.1 hz
          simp only [h3, if_true, hc, Bool.false_eq_true, and_false, if_false, ne_eq,
            not_true_eq_false, false_and]
          exact foundLoop_none cs depth 0 _ (by rw [← h3]; exact ho) (by omega) hd.2
        · simp only [h3, if_false]
          exact foundLoop_none cs depth opens _ ho (by omega) hd.2

/-- A host without a digit outside brackets has no number to group by. -/
theorem Found_none (host : Str) (hl : host.length < 2 ^ 64)
    (hd : hasDigitOutsideBrackets host = false) :
    FoundFirstNumberWithoutBrackets host = (false, 0, 0) :=
  foundLoop_none host 0 0 0 (by simp) (by simpa using hl) hd

/-- The grouping loop over hosts without a digit outside brackets passes the non-empty ones
through and leaves the map alone. -/
theorem groupLoop_ungroupable : ∀ (hosts : List Str) (st : GroupState),
    (∀ h ∈ hosts, h.length < 2 ^ 64) → (∀ h ∈ hosts, hasDigitOutsideBrackets h = false) →
    hosts.foldl groupStep st =
      { st with res_list := st.res_list ++ hosts.filter (fun h => decide (h ≠ [])) }
  | [], st => by intro _ _; simp
  | h :: hosts, st => by
    intro hl hd
    have ih := groupLoop_ungroupable hosts (groupStep st h)
      (fun x hx => hl x (List.mem_cons_of_mem _ hx))
      (fun x hx => hd x (List.mem_cons_of_mem _ hx))
    rw [List.foldl_cons, ih]
    by_cases he : h = []
    · simp [groupStep, he]
    · have hf := Found_none h (hl h (List.mem_cons_self _ _)) (hd h (List.mem_cons_self _ _))
      simp [groupStep, he, hf, List.filter_cons]

set_option maxRecDepth 100000 in
/-- **C7**, refuted as stated: of the two hosts `""` and `a`, neither with a digit, only
`a` comes back, so the result is not the input list. -/
theorem HostNameListToStr_drops_empty_host :
    hasDigitOutsideBrackets [] = false ∧ hasDigitOutsideBrackets "a".toList = false ∧
    HostNameListToStr_ id [[], "a".toList] [] = some (true, ["a".toList]) ∧
    HostNameListToStr_ id [[], "a".toList] [] ≠ some (true, [[], "a".toList]) := by
  decide

/-- **C7**, amended. Identity on ungroupable input, empty names apart: for every list of
host names none of which has a digit outside brackets, `HostNameListToStr_` returns `true`
and appends the input list, every element unchanged and in its original order, when the
list has at most one element, and otherwise the input list without its empty names (the
other elements unchanged and in their original order). -/
theorem HostNameListToStr_ungroupable (iterOrder : HostMap → HostMap)
    (host_list res_list : List Str)
    (hl : ∀ h ∈ host_list, h.length < 2 ^ 64)
    (hd : ∀ h ∈ host_list, hasDigitOutsideBrackets h = false) :
    HostNameListToStr_ iterOrder host_list res_list =
      some (true, res_list ++
        (if host_list.length ≤ 1 then host_list
         else host_list.filter (fun h => decide (h ≠ [])))) := by
  unfold HostNameListToStr_
  match host_list, hl, hd with
  | [], _, _ => simp
  | [a], _, _ => simp
  | a :: b :: rest, hl, hd =>
    simp only [List.length_cons]
    rw [groupLoop_ungroupable _ _ hl hd]
    simp

set_option maxRecDepth 100000 in
/-- The list `[a, b, c]` of the specification comes back as it is. -/
theorem HostNameListToStr_ungroupable_witness :
    (∀ h ∈ ["a".toList, "b".toList, "c".toList], h.length < 2 ^ 64) ∧
    (∀ h ∈ ["a".toList, "b".toList, "c".toList], hasDigitOutsideBrackets h = false) ∧
    HostNameListToStr_ id ["a".toList, "b".toList, "c".toList] [] =
      some (true, ["a".toList, "b".toList, "c".toList]) :=
  ⟨by decide, by decide,
    HostNameListToStr_ungroupable id ["a".toList, "b".toList, "c".toList] []
      (by decide) (by decide)⟩

set_option maxRecDepth 100000 in
/-- **C6**, refuted: a number beyond `INT_MAX` makes `stoi` throw, and nothing in
`HostNameListToStr_` catches the exception. -/
theorem HostNameListToStr_throws :
    HostNameListToStr_ id ["cn2147483648".toList, "cn1".toList] [] = none := by
  decide

/-! ## The loop over a range -/

/-- With `end = SIZE_MAX` the loop of lines 88-91 uses up any number of turns. -/
theorem rangeLoop_hang (head_str : Str) (l : Nat) : ∀ (fuel j : Nat) (unit_list : List Str),
    j < 2 ^ 64 → rangeLoop head_str l (2 ^ 64 - 1) fuel j unit_list = none
  | 0, _, _ => by intro _; rfl
  | fuel + 1, j, unit_list => by
    intro hj
    have h1 : j ≤ 2 ^ 64 - 1 := by omega
    simp only [rangeLoop, h1, if_true]
    exact rangeLoop_hang head_str l fuel _ _ (Nat.mod_lt _ (by norm_num))

/-- With `end < SIZE_MAX` the loop of lines 88-91 ends, having appended the names for
`start .. end` in ascending order, as soon as it is given one turn more than there are
names. -/
theorem rangeLoop_done (head_str : Str) (l end_ : Nat) (he : end_ < 2 ^ 64 - 1) :
    ∀ (fuel start : Nat) (unit_list : List Str), end_ + 1 - start < fuel →
      rangeLoop head_str l end_ fuel start unit_list =
        some (unit_list ++ (List.range' start (end_ + 1 - start)).map
          (fun j => head_str ++ fmtPad (to_string j) l))
  | 0, start, unit_list => by
    intro hf
    omega
  | fuel + 1, start, unit_list => by
    intro hf
    by_cases hs : start ≤ end_
    · have hm : (start + 1) % 2 ^ 64 = start + 1 := Nat.mod_eq_of_lt (by omega)
      have hn : end_ + 1 - start = (end_ + 1 - (start + 1)) + 1 := by omega
      simp only [rangeLoop, hs, if_true, hm]
      rw [rangeLoop_done head_str l end_ he fuel (start + 1) _ (by omega), hn,
        List.range'_succ]
      simp
    · have h0 : end_ + 1 - start = 0 := by omega
      simp [rangeLoop, hs, h0]

/-- The closed form `rangeUnits` is what the loop does. -/
theorem rangeUnits_spec (head_str : Str) (l start end_ : Nat) (unit_list : List Str)
    (hs : start < 2 ^ 64) (he : end_ < 2 ^ 64) :
    (rangeUnits head_str l start end_ unit_list = Step.hang ∧
        ∀ fuel, rangeLoop head_str l end_ fuel start unit_list = none) ∨
      ∃ r, rangeUnits head_str l start end_ unit_list = Step.done r ∧
        ∀ fuel, end_ + 1 - start < fuel →
          rangeLoop head_str l end_ fuel start unit_list = some r := by
  by_cases h : end_ = 2 ^ 64 - 1
  · left
    subst h
    exact ⟨by simp [rangeUnits], fun fuel => rangeLoop_hang head_str l fuel start unit_list hs⟩
  · right
    exact ⟨_, by rw [rangeUnits, if_neg h],
      fun fuel hf => rangeLoop_done head_str l end_ (by omega) fuel start unit_list hf⟩

/-! ## Concrete runs -/

set_option maxRecDepth 100000 in
/-- **C1**, at the largest 64-bit value: the loop over the range `SIZE_MAX-SIZE_MAX` never
ends, so `ParseHostList` does not return. -/
theorem ParseHostList_hangs_at_SIZE_MAX :
    from_chars "18446744073709551615".toList = some (2 ^ 64 - 1) ∧
    ParseHostList "cn[18446744073709551615-18446744073709551615]".toList [] = none := by
  decide

theorem StrSplit_ne_nil (isDelim : Char → Bool) : ∀ (s : Str), StrSplit isDelim s ≠ []
  | [] => by simp [StrSplit]
  | c :: cs => by
    have := StrSplit_ne_nil isDelim cs
    simp only [StrSplit]
    split
    · simp
    · split <;> simp

/-- Text without a delimiter is one piece. -/
theorem StrSplit_plain (isDelim : Char → Bool) : ∀ (s : Str),
    (∀ c ∈ s, isDelim c = false) → StrSplit isDelim s = [s]
  | [] => by intro _; rfl
  | c :: cs => by
    intro h
    have h1 := h c (List.mem_cons_self _ _)
    have h2 := StrSplit_plain isDelim cs (fun d hd => h d (List.mem_cons_of_mem _ hd))
    simp [StrSplit, h1, h2]

/-- Text without a delimiter before the first delimiter is the first piece. -/
theorem StrSplit_first (isDelim : Char → Bool) (d : Char) (rest : Str) (hd : isDelim d = true) :
    ∀ (pre : Str), (∀ c ∈ pre, isDelim c = false) →
      StrSplit isDelim (pre ++ d :: rest) = pre :: StrSplit isDelim rest
  | [] => by intro _; simp [StrSplit, hd]
  | c :: cs => by
    intro h
    have h1 := h c (List.mem_cons_self _ _)
    have h2 := StrSplit_first isDelim d rest hd cs (fun x hx => h x (List.mem_cons_of_mem _ hx))
    simp [StrSplit, h1, h2]

/-! ## Characters -/

theorem digit_ne {c d : Char} (hc : c.isDigit = true) (hd : d.isDigit = false) : c ≠ d := by
  rintro rfl
  rw [hc] at hd
  exact Bool.noConfusion hd

theorem digit_not_space {c : Char} (hc : c.isDigit = true) : isSpace c = false := by
  have h1 := digit_ne hc (show ' '.isDigit = false by decide)
  have h2 := digit_ne hc (show '\t'.isDigit = false by decide)
  have h3 := digit_ne hc (show '\n'.isDigit = false by decide)
  have h4 := digit_ne hc (show '\x0b'.isDigit = false by decide)
  have h5 := digit_ne hc (show '\x0c'.isDigit = false by decide)
  have h6 := digit_ne hc (show '\r'.isDigit = false by decide)
  simp [isSpace, h1, h2, h3, h4, h5, h6]

/-- The characters of a unit are digits and `-`. -/
theorem HostUnit.text_chars {u : HostUnit} (hu : u.ok) :
    ∀ c ∈ u.text, c.isDigit = true ∨ c = '-' := by
  intro c hc
  cases u with
  | num d => exact Or.inl (hu.2 c hc)
  | range a b =>
    simp only [HostUnit.text, List.mem_append, List.mem_cons] at hc
    rcases hc with h | h | h
    · exact Or.inl (hu.1.2 c h)
    · exact Or.inr h
    · exact Or.inl (hu.2.1.2 c h)

/-- The characters of a group are digits, `-` and `,`. -/
theorem groupText_chars : ∀ (us : List HostUnit), (∀ u ∈ us, u.ok) →
    ∀ c ∈ groupText us, c.isDigit = true ∨ c = '-' ∨ c = ','
  | [], _ => by simp [groupText]
  | [u], h => by
    intro c hc
    rcases HostUnit.text_chars (h u (List.mem_cons_self _ _)) c hc with h1 | h1
    · exact Or.inl h1
    · exact Or.inr (Or.inl h1)
  | u :: v :: rest, h => by
    intro c hc
    simp only [groupText, List.mem_append, List.mem_cons] at hc
    rcases hc with h1 | h1 | h1
    · rcases HostUnit.text_chars (h u (List.mem_cons_self _ _)) c h1 with h2 | h2
      · exact Or.inl h2
      · exact Or.inr (Or.inl h2)
    · exact Or.inr (Or.inr h1)
    · exact groupText_chars (v :: rest) (fun x hx => h x (List.mem_cons_of_mem _ hx)) c h1

/-- The pieces of a group between `[` and `,` are its units. -/
theorem StrSplit_groupText : ∀ (us : List HostUnit), us ≠ [] → (∀ u ∈ us, u.ok) →
    StrSplit (fun c => c == '[' || c == ',') (groupText us) = us.map HostUnit.text
  | [], h, _ => absurd rfl h
  | [u], _, h => by
    simp only [groupText, List.map_cons, List.map_nil]
    apply StrSplit_plain
    intro c hc
    rcases HostUnit.text_chars (h u (List.mem_cons_self _ _)) c hc with h1 | h1
    · have h2 := digit_ne h1 (show '['.isDigit = false by decide)
      have h3 := digit_ne h1 (show ','.isDigit = false by decide)
      simp [h2, h3]
    · subst h1; decide
  | u :: v :: rest, _, h => by
    simp only [groupText, List.map_cons]
    rw [StrSplit_first _ ',' _ (by decide)]
    · rw [StrSplit_groupText (v :: rest) (by simp)
        (fun x hx => h x (List.mem_cons_of_mem _ hx))]
      simp
    · intro c hc
      rcases HostUnit.text_chars (h u (List.mem_cons_self _ _)) c hc with h1 | h1
      · have h2 := digit_ne h1 (show '['.isDigit = false by decide)
        have h3 := digit_ne h1 (show ','.isDigit = false by decide)
        simp [h2, h3]
      · subst h1; decide

/-! ## `ParseNodeList` on one group -/

theorem takeWhile_digits {d : Str} (h : ∀ c ∈ d, c.isDigit = true) :
    d.takeWhile Char.isDigit = d :=
  List.takeWhile_eq_self_iff.mpr h

/-- `from_chars` on a digit string whose value fits 64 bits. -/
theorem from_chars_digits {d : Str} (h : isDigitStr d) (hv : digitsVal d < 2 ^ 64) :
    from_chars d = some (digitsVal d) := by
  simp only [from_chars, takeWhile_digits h.2, h.1, if_false, hv, if_true]

/-- The units of a group, read by the loop of lines 66-96. -/
theorem unitLoop_units (p : Str) : ∀ (us : List HostUnit) (unit_list : List Str),
    (∀ u ∈ us, u.ok) →
      unitLoop p (us.map HostUnit.text) unit_list =
        Step.done (unit_list ++ us.flatMap (HostUnit.names p))
  | [], unit_list, _ => by simp [unitLoop]
  | u :: us, unit_list, h => by
    have hu := h u (List.mem_cons_self _ _)
    have ih := fun l => unitLoop_units p us l (fun x hx => h x (List.mem_cons_of_mem _ hx))
    cases u with
    | num d =>
      have hm : RE2.FullMatch d num_regex = true := (FullMatch_num_regex d).mpr hu
      simp only [List.map_cons, HostUnit.text, unitLoop, hm, if_true, ih,
        List.flatMap_cons, HostUnit.names, List.append_assoc]
    | range a b =>
      obtain ⟨ha, hb, hab, hb2⟩ := hu
      have hn : RE2.FullMatch (a ++ '-' :: b) num_regex = false := by
        rw [Bool.eq_false_iff]
        intro hh
        have := ((FullMatch_num_regex _).mp hh).2 '-' (by simp)
        exact absurd this (by decide)
      have hs : RE2.FullMatch (a ++ '-' :: b) scope_regex = true :=
        (FullMatch_scope_regex _).mpr ⟨a, b, rfl, ha, hb⟩
      have hsplit : StrSplit (fun c => c == '-') (a ++ '-' :: b) = [a, b] := by
        rw [StrSplit_first _ '-' _ (by decide), StrSplit_plain]
        · intro c hc
          simpa using digit_ne (hb.2 c hc) (show '-'.isDigit = false by decide)
        · intro c hc
          simpa using digit_ne (ha.2 c hc) (show '-'.isDigit = false by decide)
      have hfa : from_chars a = some (digitsVal a) := from_chars_digits ha (by omega)
      have hfb : from_chars b = some (digitsVal b) := from_chars_digits hb (by omega)
      have hr : ∀ l, rangeUnits p a.length (digitsVal a) (digitsVal b) l =
          Step.done (l ++ (HostUnit.range a b).names p) := by
        intro l
        have : digitsVal b ≠ 2 ^ 64 - 1 := by omega
        rw [rangeUnits, if_neg this]
        rfl
      simp only [List.map_cons, HostUnit.text, unitLoop, hn, hs, hsplit, if_true,
        Bool.false_eq_true, if_false, List.getD_cons_zero, List.getD_cons_succ, hfa, hfb, hr, ih,
        List.flatMap_cons, List.append_assoc]

theorem crossProduct_single (unit_list : List Str) :
    crossProduct [[]] unit_list = unit_list := by
  simp [crossProduct]

/-- `ParseNodeList` on a token `p[u1,...,un]`. -/
theorem ParseNodeList_group (p : Str) (us : List HostUnit) (nodelist : List Str)
    (hp : ∀ c ∈ p, c ≠ '[' ∧ c ≠ ']' ∧ c ≠ ',' ∧ isSpace c = false)
    (hne : us ≠ []) (hus : ∀ u ∈ us, u.ok) :
    ParseNodeList (p ++ '[' :: (groupText us ++ [']'])) nodelist =
      some (true, nodelist ++ us.flatMap (HostUnit.names p)) := by
  have hbody := groupText_chars us hus
  have hbody_nl : ∀ c ∈ groupText us, c ≠ '\n' := by
    intro c hc
    rcases hbody c hc with h | h | h
    · exact digit_ne h (by decide)
    · subst h; decide
    · subst h; decide
  have hbody_cl : ∀ c ∈ groupText us, (c == ']') = false := by
    intro c hc
    rcases hbody c hc with h | h | h
    · simpa using digit_ne h (show ']'.isDigit = false by decide)
    · subst h; decide
    · subst h; decide
  have hpm : RE2.PartialMatch (p ++ '[' :: (groupText us ++ [']'])) brackets_regex = true :=
    (PartialMatch_brackets_regex _).mpr ⟨p, groupText us, [], by simp, hbody_nl⟩
  have hsplit : StrSplit (fun c => c == ']') (p ++ '[' :: (groupText us ++ [']'])) =
      [p ++ '[' :: groupText us, []] := by
    have e : p ++ '[' :: (groupText us ++ [']']) = (p ++ '[' :: groupText us) ++ ']' :: [] := by
      simp
    rw [e, StrSplit_first _ ']' _ (by decide)]
    · rfl
    · intro c hc
      simp only [List.mem_append, List.mem_cons] at hc
      rcases hc with h | h | h
      · simpa using (hp c h).2.1
      · subst h; decide
      · exact hbody_cl c h
  have hsplit2 : StrSplit (fun c => c == '[' || c == ',') (p ++ '[' :: groupText us) =
      p :: us.map HostUnit.text := by
    rw [StrSplit_first _ '[' _ (by decide), StrSplit_groupText us hne hus]
    intro c hc
    have := hp c hc
    simp [this.1, this.2.2.1]
  simp only [ParseNodeList, hpm, Bool.not_true, Bool.false_eq_true, if_false, hsplit,
    List.dropLast, fragLoop, hsplit2, List.headD_cons, List.tail_cons,
    unitLoop_units p us [] hus, List.nil_append, crossProduct_single, List.getLastD,
    List.getLast?, List.getLast, Option.getD, List.isEmpty]

/-! ## `ParseHostList` on one group -/

/-- The splitting loop over text outside brackets that has no bracket and no comma. -/
theorem splitLoop_literal : ∀ (lit rest : Str) (st : SplitState), st.char_queue = [] →
    (∀ c ∈ lit, c ≠ '[' ∧ c ≠ ']' ∧ c ≠ ',') →
      splitLoop (lit ++ rest) st = splitLoop rest { st with name_meta := st.name_meta ++ lit }
  | [], rest, st => by intro _ _; simp
  | c :: cs, rest, st => by
    intro hq h
    obtain ⟨h1, h2, h3⟩ := h c (List.mem_cons_self _ _)
    rw [List.cons_append, splitLoop]
    simp only [splitStep, h1, h2, h3, hq, if_false, if_true]
    rw [splitLoop_literal cs rest _ rfl (fun x hx => h x (List.mem_cons_of_mem _ hx))]
    simp

/-- The splitting loop over text inside brackets that has no bracket. -/
theorem splitLoop_inside : ∀ (body rest : Str) (st : SplitState), st.char_queue ≠ [] →
    (∀ c ∈ body, c ≠ '[' ∧ c ≠ ']') →
      splitLoop (body ++ rest) st =
        splitLoop rest { st with char_queue := st.char_queue ++ body }
  | [], rest, st => by intro _ _; simp
  | c :: cs, rest, st => by
    intro hq h
    obtain ⟨h1, h2⟩ := h c (List.mem_cons_self _ _)
    have e : splitStep st c = some { st with char_queue := st.char_queue ++ [c] } := by
      by_cases h3 : c = ','
      · simp [splitStep, h1, h2, h3, hq]
      · simp [splitStep, h1, h2, h3, hq]
    rw [List.cons_append, splitLoop, e]
    simp only
    rw [splitLoop_inside cs rest _ (by simp) (fun x hx => h x (List.mem_cons_of_mem _ hx))]
    simp

/-- Text that neither begins nor ends with white space is not changed by stripping. -/
theorem Strip_id (x y : Char) (m : Str) (hx : isSpace x = false) (hy : isSpace y = false) :
    StripAsciiWhitespace (x :: (m ++ [y])) = x :: (m ++ [y]) := by
  simp [StripAsciiWhitespace, List.dropWhile_cons, hx, hy]

/-- Single-group expansion, for ranges that end below the largest 64-bit value. For a
literal `p` without bracket, comma or white space and a non-empty list of units, each a
digit string `d` or a
range `a-b` of digit strings with `value(a) ≤ value(b) < 2^64 - 1`, `ParseHostList` on
`p[u1,...,un]` returns `true` and appends, in the order of the units, `p + d` for a digit
string and `p + zeroPadLeft(j, length(a))` for `j = value(a) .. value(b)` for a range. -/
theorem ParseHostList_single_group (p : Str) (us : List HostUnit) (host_list : List Str)
    (hp : ∀ c ∈ p, c ≠ '[' ∧ c ≠ ']' ∧ c ≠ ',' ∧ isSpace c = false)
    (hne : us ≠ []) (hus : ∀ u ∈ us, u.ok) :
    ParseHostList (p ++ '[' :: (groupText us ++ [']'])) host_list =
      some (true, host_list ++ us.flatMap (HostUnit.names p)) := by
  have hbody := groupText_chars us hus
  have hb1 : ∀ c ∈ groupText us, c ≠ '[' ∧ c ≠ ']' := by
    intro c hc
    rcases hbody c hc with h | h | h
    · exact ⟨digit_ne h (by decide), digit_ne h (by decide)⟩
    · subst h; decide
    · subst h; decide
  have hb2 : ∀ c ∈ groupText us, c ≠ ' ' ∧ c ≠ '\n' := by
    intro c hc
    rcases hbody c hc with h | h | h
    · exact ⟨digit_ne h (by decide), digit_ne h (by decide)⟩
    · subst h; decide
    · subst h; decide
  have hp2 : ∀ c ∈ p, c ≠ ' ' ∧ c ≠ '\n' := by
    intro c hc
    have := (hp c hc).2.2.2
    simp only [isSpace, Bool.or_eq_false_iff, beq_eq_false_iff_ne, ne_eq] at this
    exact ⟨this.1.1.1.1.1, this.1.1.1.2⟩
  have hfilter : (p ++ '[' :: (groupText us ++ [']'])).filter (fun i => i != ' ') =
      p ++ '[' :: (groupText us ++ [']']) := by
    rw [List.filter_eq_self]
    intro c hc
    simp only [List.mem_append, List.mem_cons, List.mem_singleton, List.not_mem_nil,
      or_false] at hc
    simp only [bne_iff_ne, ne_eq]
    rcases hc with h | h | h | h
    · exact (hp2 c h).1
    · subst h; decide
    · exact (hb2 c h).1
    · subst h; decide
  have hsplit : splitLoop ((p ++ '[' :: (groupText us ++ [']'])) ++ [','])
      { name_meta := [], str_list := [], char_queue := [] } =
      some { name_meta := [], str_list := [p ++ '[' :: (groupText us ++ [']'])],
             char_queue := [] } := by
    rw [List.append_assoc, splitLoop_literal p _ _ rfl
      (fun c hc => ⟨(hp c hc).1, (hp c hc).2.1, (hp c hc).2.2.1⟩)]
    rw [List.cons_append, splitLoop]
    simp only [splitStep, if_true, List.nil_append]
    rw [List.append_assoc, splitLoop_inside (groupText us) _ _ (by simp) hb1]
    simp [splitLoop, splitStep]
  have hstrip : StripAsciiWhitespace (p ++ '[' :: (groupText us ++ [']'])) =
      p ++ '[' :: (groupText us ++ [']']) := by
    cases p with
    | nil => exact Strip_id '[' ']' (groupText us) (by decide) (by decide)
    | cons c p =>
      have hc := (hp c (List.mem_cons_self _ _)).2.2.2
      have := Strip_id c ']' (p ++ '[' :: groupText us) hc (by decide)
      simpa using this
  have hm : RE2.FullMatch (p ++ '[' :: (groupText us ++ [']'])) regex = true :=
    (FullMatch_regex _).mpr ⟨p, groupText us, [], rfl, fun c hc => (hp2 c hc).2,
      fun c hc => (hb2 c hc).2, Or.inl rfl⟩
  simp only [ParseHostList, hfilter, hsplit, ne_eq, not_true_eq_false, if_false, tokenLoop,
    hstrip, hm, Bool.not_true, Bool.false_eq_true, ParseNodeList_group p us host_list hp hne hus]

set_option maxRecDepth 100000 in
/-- The inputs `cn[01-03]` and `cn[01,03,05-06]` of the specification. -/
theorem ParseHostList_single_group_examples :
    ParseHostList "cn[01-03]".toList [] =
      some (true, ["cn01".toList, "cn02".toList, "cn03".toList]) ∧
    ParseHostList "cn[01,03,05-06]".toList [] =
      some (true, ["cn01".toList, "cn03".toList, "cn05".toList, "cn06".toList]) := by
  constructor
  · exact ParseHostList_single_group "cn".toList
      [HostUnit.range "01".toList "03".toList] [] (by decide) (by simp) (by decide)
  · exact ParseHostList_single_group "cn".toList
      [HostUnit.num "01".toList, HostUnit.num "03".toList,
        HostUnit.range "05".toList "06".toList] [] (by decide) (by simp) (by decide)

/-! ## Decimal digits -/

/-- With enough fuel `Nat.toDigitsCore` puts the digits of `n` in front of the digits it
was given. -/
theorem toDigitsCore_eq : ∀ (fuel n : Nat) (ds : List Char), n < fuel →
    Nat.toDigitsCore 10 fuel n ds = Nat.toDigits 10 n ++ ds := by
  intro fuel
  induction fuel using Nat.strong_induction_on with
  | _ fuel ih =>
    intro n ds hn
    cases fuel with
    | zero => omega
    | succ fuel =>
      by_cases h0 : n / 10 = 0
      · simp [Nat.toDigits, Nat.toDigitsCore, h0]
      · have h1 : n / 10 < fuel := by omega
        have h2 : n / 10 < n := by omega
        have e1 : Nat.toDigitsCore 10 (fuel + 1) n ds =
            Nat.toDigitsCore 10 fuel (n / 10) (Nat.digitChar (n % 10) :: ds) := by
          simp [Nat.toDigitsCore, h0]
        have e2 : Nat.toDigits 10 n =
            Nat.toDigitsCore 10 n (n / 10) [Nat.digitChar (n % 10)] := by
          simp [Nat.toDigits, Nat.toDigitsCore, h0]
        rw [e1, e2, ih fuel (Nat.lt_succ_self _) _ _ h1, ih n hn _ _ h2]
        simp

theorem toDigits_small (n : Nat) (h : n < 10) : Nat.toDigits 10 n = [Nat.digitChar n] := by
  have h0 : n / 10 = 0 := by omega
  have h1 : n % 10 = n := by omega
  simp [Nat.toDigits, Nat.toDigitsCore, h0, h1]

theorem toDigits_large (n : Nat) (h : 10 ≤ n) :
    Nat.toDigits 10 n = Nat.toDigits 10 (n / 10) ++ [Nat.digitChar (n % 10)] := by
  have h0 : ¬ n / 10 = 0 := by omega
  have e2 : Nat.toDigits 10 n =
      Nat.toDigitsCore 10 n (n / 10) [Nat.digitChar (n % 10)] := by
    simp [Nat.toDigits, Nat.toDigitsCore, h0]
  rw [e2, toDigitsCore_eq n (n / 10) _ (by omega)]

theorem digitChar_isDigit (k : Nat) (h : k < 10) : (Nat.digitChar k).isDigit = true := by
  interval_cases k <;> decide

theorem digitChar_val (k : Nat) (h : k < 10) : (Nat.digitChar k).toNat - 48 = k := by
  interval_cases k <;> decide

theorem digitsVal_append (s : Str) (c : Char) :
    digitsVal (s ++ [c]) = 10 * digitsVal s + (c.toNat - 48) := by
  simp [digitsVal, List.foldl_append]

/-- The decimal text of a number consists of digits. -/
theorem toDigits_isDigit : ∀ (n : Nat), ∀ c ∈ Nat.toDigits 10 n, c.isDigit = true := by
  intro n
  induction n using Nat.strong_induction_on with
  | _ n ih =>
    intro c hc
    by_cases h : n < 10
    · rw [toDigits_small n h] at hc
      simp only [List.mem_singleton] at hc
      subst hc
      exact digitChar_isDigit n h
    · rw [toDigits_large n (by omega)] at hc
      simp only [List.mem_append, List.mem_singleton] at hc
      rcases hc with hc | hc
      · exact ih (n / 10) (by omega) c hc
      · subst hc
        exact digitChar_isDigit _ (Nat.mod_lt _ (by norm_num))

theorem toDigits_ne_nil (n : Nat) : Nat.toDigits 10 n ≠ [] := by
  by_cases h : n < 10
  · rw [toDigits_small n h]; simp
  · rw [toDigits_large n (by omega)]; simp

/-- Reading the decimal text of a number gives the number. -/
theorem digitsVal_toDigits : ∀ (n : Nat), digitsVal (Nat.toDigits 10 n) = n := by
  intro n
  induction n using Nat.strong_induction_on with
  | _ n ih =>
    by_cases h : n < 10
    · rw [toDigits_small n h]
      have := digitsVal_append [] (Nat.digitChar n)
      simp only [List.nil_append] at this
      rw [this, digitChar_val n h]
      simp [digitsVal]
    · rw [toDigits_large n (by omega), digitsVal_append, ih (n / 10) (by omega),
        digitChar_val _ (Nat.mod_lt _ (by norm_num))]
      omega

/-- A number below `10 ^ w` has at most `w` digits. -/
theorem toDigits_length : ∀ (w n : Nat), n < 10 ^ w → (Nat.toDigits 10 n).length ≤ max w 1 := by
  intro w
  induction w with
  | zero =>
    intro n hn
    have : n < 10 := by simp at hn; omega
    rw [toDigits_small n this]
    simp
  | succ w ih =>
    intro n hn
    by_cases h : n < 10
    · rw [toDigits_small n h]
      simp
    · rw [toDigits_large n (by omega)]
      have h2 : n / 10 < 10 ^ w := by
        rw [Nat.div_lt_iff_lt_mul (by norm_num)]
        rw [pow_succ] at hn
        exact hn
      have h3 := ih (n / 10) h2
      have h4 : 1 ≤ w := by
        rcases Nat.eq_zero_or_pos w with h5 | h5
        · subst h5; simp at hn; omega
        · exact h5
      simp only [List.length_append, List.length_singleton]
      have : max w 1 = w := by omega
      have : max (w + 1) 1 = w + 1 := by omega
      omega

theorem digitsVal_zeros (k : Nat) (s : Str) :
    digitsVal (List.replicate k '0' ++ s) = digitsVal s := by
  induction k with
  | zero => simp
  | succ k ih =>
    simp only [digitsVal, List.replicate_succ, List.cons_append, List.foldl_cons] at ih ⊢
    simpa using ih

theorem zeroPadLeft_isDigit (j w : Nat) : ∀ c ∈ zeroPadLeft j w, c.isDigit = true := by
  intro c hc
  simp only [zeroPadLeft, List.mem_append, List.mem_replicate] at hc
  rcases hc with ⟨_, rfl⟩ | hc
  · decide
  · exact toDigits_isDigit j c hc

theorem zeroPadLeft_ne_nil (j w : Nat) : zeroPadLeft j w ≠ [] := by
  simp [zeroPadLeft, toDigits_ne_nil]

theorem zeroPadLeft_isDigitStr (j w : Nat) : isDigitStr (zeroPadLeft j w) :=
  ⟨zeroPadLeft_ne_nil j w, zeroPadLeft_isDigit j w⟩

theorem digitsVal_zeroPadLeft (j w : Nat) : digitsVal (zeroPadLeft j w) = j := by
  rw [zeroPadLeft, digitsVal_zeros, digitsVal_toDigits]

/-- Padding to `w ≥ 1` characters a number below `10 ^ w` gives exactly `w` characters. -/
theorem zeroPadLeft_length (j w : Nat) (hw : 1 ≤ w) (h : j < 10 ^ w) :
    (zeroPadLeft j w).length = w := by
  have := toDigits_length w j h
  have h2 : max w 1 = w := by omega
  simp only [zeroPadLeft, List.length_append, List.length_replicate]
  omega

/-! ## `FoundFirstNumberWithoutBrackets` on `head + number` -/

/-- The scan passes over text at depth zero that has no digit and no bracket. -/
theorem foundLoop_head : ∀ (h rest : Str) (i : Nat),
    (∀ c ∈ h, c.isDigit = false ∧ c ≠ '[' ∧ c ≠ ']') →
      foundLoop (h ++ rest) 0 0 i = foundLoop rest 0 0 (i + h.length)
  | [], rest, i => by intro _; simp
  | c :: cs, rest, i => by
    intro hh
    obtain ⟨h1, h2, h3⟩ := hh c (List.mem_cons_self _ _)
    rw [List.cons_append, foundLoop]
    simp only [h1, h2, h3, if_false, if_true, Bool.false_eq_true, and_false, ne_eq,
      not_true_eq_false, false_and]
    rw [foundLoop_head cs rest (i + 1) (fun x hx => hh x (List.mem_cons_of_mem _ hx))]
    simp only [List.length_cons]
    congr 1
    omega

/-- The scan passes over digits once the start of the number is set, up to the end of the
text. -/
theorem foundLoop_digits : ∀ (n : Str) (start i : Nat), start ≠ 0 →
    (∀ c ∈ n, c.isDigit = true) → foundLoop n 0 start i = (true, start, i + n.length)
  | [], start, i => by intro hs _; simp [foundLoop, hs]
  | c :: cs, start, i => by
    intro hs hn
    have h1 := hn c (List.mem_cons_self _ _)
    have h2 : c ≠ '[' := digit_ne h1 (by decide)
    have h3 : c ≠ ']' := digit_ne h1 (by decide)
    rw [foundLoop]
    simp only [h1, h2, h3, hs, if_false, if_true, false_and, Bool.true_eq_false, and_false]
    rw [foundLoop_digits cs start (i + 1) hs (fun x hx => hn x (List.mem_cons_of_mem _ hx))]
    simp only [List.length_cons]
    congr 2
    omega

/-- In `head + number` the number is found. -/
theorem Found_head_num (h n : Str) (hh : isPlainHead h) (hn : isDigitStr n) :
    FoundFirstNumberWithoutBrackets (h ++ n) = (true, h.length, h.length + n.length) := by
  rw [FoundFirstNumberWithoutBrackets,
    foundLoop_head h n 0 (fun c hc => ⟨(hh.2 c hc).1, (hh.2 c hc).2.1, (hh.2 c hc).2.2.1⟩)]
  obtain ⟨hne, hd⟩ := hn
  cases n with
  | nil => exact absurd rfl hne
  | cons c cs =>
    have h1 := hd c (List.mem_cons_self _ _)
    have h2 : c ≠ '[' := digit_ne h1 (by decide)
    have h3 : c ≠ ']' := digit_ne h1 (by decide)
    have h4 : h.length ≠ 0 := by
      intro e
      exact hh.1 (List.length_eq_zero.mp e)
    rw [foundLoop]
    simp only [h1, h2, h3, if_false, if_true, and_self, Nat.zero_add]
    rw [foundLoop_digits cs h.length (h.length + 1) h4
      (fun x hx => hd x (List.mem_cons_of_mem _ hx))]
    simp only [List.length_cons]
    congr 2
    omega

/-- One turn of the grouping loop on `head + number`. -/
theorem groupStep_head_num (st : GroupState) (h n : Str) (hh : isPlainHead h)
    (hn : isDigitStr n) :
    groupStep st (h ++ n) =
      { st with res := false, host_map := mapPush st.host_map (h ++ ['<']) n } := by
  have hne : h ++ n ≠ [] := by simp [hh.1]
  have e1 : List.take (h.length + n.length - h.length) (List.drop h.length (h ++ n)) = n := by
    simp
  have e2 : List.take h.length (h ++ n) = h := by simp
  have e3 : List.drop (h.length + n.length) (h ++ n) = [] := by simp
  simp only [groupStep, hne, if_false, Found_head_num h n hh hn, e1, e2, e3, List.take_nil]

/-- The grouping loop over hosts `head + number` with one head fills one bucket. -/
theorem groupLoop_one_head (h : Str) (hh : isPlainHead h) : ∀ (ns v : List Str)
    (res : Bool) (res_list : List Str), (∀ n ∈ ns, isDigitStr n) →
      (ns.map (fun n => h ++ n)).foldl groupStep
          { host_map := [(h ++ ['<'], v)], res := res, res_list := res_list } =
        { host_map := [(h ++ ['<'], v ++ ns)], res := (res && decide (ns = [])),
          res_list := res_list }
  | [], v, res, res_list => by intro _; simp
  | n :: ns, v, res, res_list => by
    intro hns
    rw [List.map_cons, List.foldl_cons, groupStep_head_num _ h n hh (hns n (List.mem_cons_self _ _))]
    simp only [mapPush, if_true]
    rw [groupLoop_one_head h hh ns (v ++ [n]) false res_list
      (fun x hx => hns x (List.mem_cons_of_mem _ hx))]
    simp

/-- The grouping loop over at least one host `head + number` with one head, from the start. -/
theorem groupLoop_one_head_init (h : Str) (hh : isPlainHead h) (n : Str) (ns : List Str)
    (res_list : List Str) (hns : ∀ x ∈ n :: ns, isDigitStr x) :
    ((n :: ns).map (fun n => h ++ n)).foldl groupStep
        { host_map := [], res := true, res_list := res_list } =
      { host_map := [(h ++ ['<'], n :: ns)], res := false, res_list := res_list } := by
  rw [List.map_cons, List.foldl_cons, groupStep_head_num _ h n hh (hns n (List.mem_cons_self _ _))]
  simp only [mapPush]
  rw [groupLoop_one_head h hh ns [n] false res_list
    (fun x hx => hns x (List.mem_cons_of_mem _ hx))]
  simp

/-! ## `stoi` and the comparator on digit strings -/

/-- `stoi` on a digit string whose value fits an `int`. -/
theorem stoi_digits (n : Str) (hn : isDigitStr n) (hv : digitsVal n ≤ 2 ^ 31 - 1) :
    stoi n = some (digitsVal n : Int) := by
  obtain ⟨hne, hd⟩ := hn
  cases n with
  | nil => exact absurd rfl hne
  | cons c cs =>
    have h1 := hd c (List.mem_cons_self _ _)
    have hsp : isSpace c = false := digit_not_space h1
    have hm : c ≠ '-' := digit_ne h1 (by decide)
    have hp : c ≠ '+' := digit_ne h1 (by decide)
    have ht : (c :: cs).takeWhile Char.isDigit = c :: cs := takeWhile_digits hd
    have hv2 : (digitsVal (c :: cs) : Int) ≤ 2 ^ 31 - 1 := by
      have : ((2 ^ 31 - 1 : Nat) : Int) = 2 ^ 31 - 1 := by norm_num
      rw [← this]
      exact_mod_cast hv
    have hv3 : -(2 : Int) ^ 31 ≤ (digitsVal (c :: cs) : Int) := by
      have : (0 : Int) ≤ (digitsVal (c :: cs) : Int) := Int.natCast_nonneg _
      have h2 : -(2 : Int) ^ 31 ≤ 0 := by norm_num
      exact le_trans h2 this
    simp only [stoi, List.dropWhile_cons, hsp, Bool.false_eq_true, if_false, List.head?_cons,
      Option.some.injEq, hm, hp, or_self, decide_False, ht, reduceCtorEq, hv2, hv3, and_self,
      if_true]

/-- What the comparator of lines 228-234 computes. -/
theorem numLess_iff (a b : Str) :
    numLess a b = true ↔
      a.length < b.length ∨ (a.length = b.length ∧ (stoi a).getD 0 < (stoi b).getD 0) := by
  unfold numLess
  by_cases h : a.length = b.length
  · simp [h]
  · simp only [ne_eq, h, not_false_eq_true, if_true, decide_eq_true_eq, false_and, or_false]

theorem numLess_asymm (a b : Str) (h1 : numLess a b = true) (h2 : numLess b a = true) :
    False := by
  rw [numLess_iff] at h1 h2
  omega

theorem numLess_trans (a b c : Str) (h1 : numLess a b = true) (h2 : numLess b c = true) :
    numLess a c = true := by
  rw [numLess_iff] at h1 h2 ⊢
  omega

instance : IsTotal Str (fun a b => numLess b a = false) :=
  ⟨fun a b => by
    by_cases h1 : numLess b a = true
    · right
      rw [Bool.eq_false_iff]
      intro h2
      exact numLess_asymm _ _ h1 h2
    · left
      simpa using h1⟩

instance : IsTrans Str (fun a b => numLess b a = false) :=
  ⟨fun a b c h1 h2 => by
    simp only [Bool.eq_false_iff, ne_eq, numLess_iff] at h1 h2 ⊢
    omega⟩

instance : IsAntisymm Str (fun a b => numLess a b = true) :=
  ⟨fun a b h1 h2 => (numLess_asymm a b h1 h2).elim⟩

/-- Digit strings of one length with one value are one text. -/
theorem digitsVal_inj : ∀ (a b : Str), a.length = b.length →
    (∀ c ∈ a, c.isDigit = true) → (∀ c ∈ b, c.isDigit = true) →
    digitsVal a = digitsVal b → a = b := by
  intro a
  induction a using List.reverseRecOn with
  | nil =>
    intro b hl _ _ _
    exact (List.length_eq_zero.mp hl.symm).symm
  | append_singleton a c ih =>
    intro b hl ha hb hv
    rcases List.eq_nil_or_concat b with rfl | ⟨b2, d, rfl⟩
    · simp at hl
    · rw [List.concat_eq_append] at hl hb hv ⊢
      simp only [List.length_append, List.length_singleton, add_left_inj] at hl
      rw [digitsVal_append, digitsVal_append] at hv
      have hc := ha c (by simp)
      have hd := hb d (by simp)
      simp only [Char.isDigit, Bool.and_eq_true, decide_eq_true_eq] at hc hd
      have hc1 : 48 ≤ c.toNat := hc.1
      have hc2 : c.toNat ≤ 57 := hc.2
      have hd1 : 48 ≤ d.toNat := hd.1
      have hd2 : d.toNat ≤ 57 := hd.2
      have hcd : c.toNat = d.toNat := by omega
      have hab : digitsVal a = digitsVal b2 := by omega
      have e1 : a = b2 := ih b2 hl (fun x hx => ha x (by simp [hx]))
        (fun x hx => hb x (by simp [hx])) hab
      have e2 : c = d := by
        apply Char.ext
        apply UInt32.ext
        exact hcd
      rw [e1, e2]

/-! ## Sorting and removing duplicates -/

theorem unique_mem : ∀ (l : List Str) (x : Str), x ∈ unique l ↔ x ∈ l
  | [], x => by simp [unique]
  | [a], x => by simp [unique]
  | a :: b :: rest, x => by
    by_cases h : a = b
    · subst h
      simp only [unique, if_true, unique_mem (a :: rest) x, List.mem_cons]
      tauto
    · simp only [unique, h, if_false, List.mem_cons, unique_mem (b :: rest) x]

/-- Removing equal neighbours from a list in which every element equals or precedes the
later ones leaves a strictly ascending list. -/
theorem unique_pairwise (lt : Str → Str → Prop) (hasym : ∀ a b, lt a b → lt b a → False) :
    ∀ (l : List Str), l.Pairwise (fun a b => a = b ∨ lt a b) → (unique l).Pairwise lt
  | [], _ => by simp [unique]
  | [a], _ => by simp [unique]
  | a :: b :: rest, hp => by
    have hp2 : (b :: rest).Pairwise (fun a b => a = b ∨ lt a b) := (List.pairwise_cons.mp hp).2
    have ha := (List.pairwise_cons.mp hp).1
    have hb := (List.pairwise_cons.mp hp2).1
    by_cases h : a = b
    · simp only [unique, h, if_true]
      exact unique_pairwise lt hasym (b :: rest) hp2
    · simp only [unique, h, if_false]
      rw [List.pairwise_cons]
      refine ⟨?_, unique_pairwise lt hasym (b :: rest) hp2⟩
      intro x hx
      rw [unique_mem] at hx
      have hab : lt a b := by
        rcases ha b (List.mem_cons_self _ _) with e | e
        · exact absurd e h
        · exact e
      rcases ha x hx with e | e
      · subst e
        rcases List.mem_cons.mp hx with e2 | e2
        · exact absurd e2 h
        · rcases hb a e2 with e3 | e3
          · exact absurd e3.symm h
          · exact (hasym _ _ hab e3).elim
      · exact e

/-- On entries that `stoi` reads the comparator is the order by width, then value. -/
theorem numLess_isIntStr (a b : Str) (ha : isIntStr a) (hb : isIntStr b) :
    numLess a b = true ↔ widthThenValue a b := by
  rw [numLess_iff, stoi_digits a ha.1 ha.2, stoi_digits b hb.1 hb.2]
  simp only [Option.getD_some, Nat.cast_lt, widthThenValue]

/-- Two different entries are ordered one way or the other. -/
theorem numLess_total (a b : Str) (ha : isIntStr a) (hb : isIntStr b) (hne : a ≠ b) :
    numLess a b = true ∨ numLess b a = true := by
  rw [numLess_isIntStr a b ha hb, numLess_isIntStr b a hb ha]
  unfold widthThenValue
  by_cases hl : a.length = b.length
  · by_cases hv : digitsVal a = digitsVal b
    · exact absurd (digitsVal_inj a b hl ha.1.2 hb.1.2 hv) hne
    · omega
  · omega

/-- Lines 227-237: the bucket sorted and freed of duplicates is the list of its distinct
entries in the order by width, then value. -/
theorem unique_sortNums (ns m : List Str) (hns : ∀ n ∈ ns, isIntStr n)
    (hm : m.Pairwise widthThenValue) (hmem : ∀ x, x ∈ m ↔ x ∈ ns) :
    unique (sortNums ns) = m := by
  have hperm : (sortNums ns).Perm ns := List.perm_insertionSort _ ns
  have hsorted : (sortNums ns).Pairwise (fun a b => numLess b a = false) :=
    List.sorted_insertionSort _ ns
  have h1 : (sortNums ns).Pairwise (fun a b => a = b ∨ numLess a b = true) := by
    refine List.Pairwise.imp_of_mem ?_ hsorted
    intro a b ha hb hab
    by_cases e : a = b
    · exact Or.inl e
    · right
      rcases numLess_total a b (hns a (hperm.mem_iff.mp ha)) (hns b (hperm.mem_iff.mp hb)) e
        with h | h
      · exact h
      · rw [hab] at h
        exact Bool.noConfusion h
  have h2 : (unique (sortNums ns)).Pairwise (fun a b => numLess a b = true) :=
    unique_pairwise _ numLess_asymm _ h1
  have h3 : m.Pairwise (fun a b => numLess a b = true) := by
    refine List.Pairwise.imp_of_mem ?_ hm
    intro a b ha hb hab
    exact (numLess_isIntStr a b (hns a ((hmem a).mp ha)) (hns b ((hmem b).mp hb))).mpr hab
  have hirr : ∀ a b : Str, numLess a b = true → a ≠ b := by
    rintro a b h rfl
    exact numLess_asymm a a h h
  have n2 : (unique (sortNums ns)).Nodup := h2.imp (fun {a b} h => hirr a b h)
  have n3 : m.Nodup := h3.imp (fun {a b} h => hirr a b h)
  have hp : (unique (sortNums ns)).Perm m := by
    rw [List.perm_ext_iff_of_nodup n2 n3]
    intro x
    rw [unique_mem, hperm.mem_iff, hmem]
  exact List.eq_of_perm_of_sorted hp h2 h3

/-! ## One bucket -/

theorem walkLoop_isIntStr : ∀ (v : List Str) (w : Walk), (∀ n ∈ v, isIntStr n) →
    walkLoop v w = some (walkAll w v)
  | [], w => by intro _; rfl
  | n :: v, w => by
    intro h
    have hn := h n (List.mem_cons_self _ _)
    rw [walkLoop, stoi_digits n hn.1 hn.2]
    simp only
    rw [walkLoop_isIntStr v _ (fun x hx => h x (List.mem_cons_of_mem _ hx))]
    rfl

/-- Lines 215-274 for the bucket of the head `h` with an empty tail. -/
theorem bucketStr_one_head (h : Str) (hh : isPlainHead h) (ns m : List Str)
    (hns : ∀ n ∈ ns, isIntStr n) (hm : m.Pairwise widthThenValue)
    (hmem : ∀ x, x ∈ m ↔ x ∈ ns) :
    bucketStr (h ++ ['<']) ns = some ((walkAll (walkStart h) m).flush ++ [']']) := by
  have hlt : '<' ∉ h := fun hc => (hh.2 _ hc).2.2.2 rfl
  have e1 : (h ++ ['<']).takeWhile (fun c => c != '<') = h := takeWhile_ne_first '<' h [] hlt
  have e2 : (h ++ ['<']).take h.length = h := by simp
  have e3 : (h ++ ['<']).drop (h.length + 1) = [] := by simp
  have e4 : ns.all (fun n => (stoi n).isSome) = true := by
    rw [List.all_eq_true]
    intro n hn
    rw [stoi_digits n (hns n hn).1 (hns n hn).2]
    rfl
  have e5 : ∀ n ∈ m, isIntStr n := fun n hn => hns n ((hmem n).mp hn)
  simp only [bucketStr, e1, e2, e3, e4, if_true, unique_sortNums ns m hns hm hmem,
    walkLoop_isIntStr m _ e5, List.take_nil]
  rfl

/-- `HostNameListToStr_` on two or more hosts `h + n` with one head `h`: one text is
appended, `h[` followed by the runs of the distinct entries in the order by width, then
value, and by `]`. -/
theorem HostNameListToStr_one_head (iterOrder : HostMap → HostMap)
    (hiter : ∀ m, (iterOrder m).Perm m) (h : Str) (hh : isPlainHead h) (ns m : List Str)
    (res_list : List Str) (hlen : 2 ≤ ns.length) (hns : ∀ n ∈ ns, isIntStr n)
    (hm : m.Pairwise widthThenValue) (hmem : ∀ x, x ∈ m ↔ x ∈ ns) :
    HostNameListToStr_ iterOrder (ns.map (fun n => h ++ n)) res_list =
      some (false, res_list ++ [(walkAll (walkStart h) m).flush ++ [']']]) := by
  match ns, hlen, hns, hmem with
  | [], hlen, _, _ => simp at hlen
  | [_], hlen, _, _ => simp at hlen
  | a :: b :: rest, _, hns, hmem =>
    have hg := groupLoop_one_head_init h hh a (b :: rest) res_list (fun x hx => (hns x hx).1)
    have hi : iterOrder [(h ++ ['<'], a :: b :: rest)] = [(h ++ ['<'], a :: b :: rest)] :=
      List.perm_singleton.mp (hiter _)
    have hb := bucketStr_one_head h hh (a :: b :: rest) m hns hm hmem
    unfold HostNameListToStr_
    simp only [List.length_map, List.length_cons]
    rw [hg]
    simp only [hi, emitLoop, hb]
    simp

/-! ## The run walk -/

/-- The first turn of the run walk opens a run. -/
theorem walkStep_start (h x : Str) :
    walkStep (walkStart h) x (digitsVal x) =
      { first := digitsVal x, last := digitsVal x, first_str := x, last_str := x,
        host_name_str := h ++ ['['] } := by
  simp [walkStep, walkStart]

/-- The run walk over entries of which none follows another by one: every entry is a run of
its own, and the runs are written with commas between them. -/
theorem walkAll_gaps : ∀ (rest : List Str) (x acc : Str),
    (∀ p ∈ x :: rest, ∀ q ∈ x :: rest, digitsVal q ≠ digitsVal p + 1) →
      (walkAll { first := digitsVal x, last := digitsVal x, first_str := x, last_str := x,
                 host_name_str := acc } rest).flush = acc ++ commaJoin (x :: rest)
  | [], x, acc => by intro _; simp [walkAll, Walk.flush, commaJoin]
  | y :: rest, x, acc => by
    intro hg
    have h1 : ¬ ((digitsVal x : Int) < 0) := by
      have := Int.natCast_nonneg (digitsVal x)
      omega
    have h2 : ¬ ((digitsVal y : Int) = (digitsVal x : Int) + 1) := by
      have := hg x (List.mem_cons_self _ _) y (by simp)
      exact_mod_cast this
    have e : walkAll { first := digitsVal x, last := digitsVal x, first_str := x,
                       last_str := x, host_name_str := acc } (y :: rest) =
        walkAll { first := digitsVal y, last := digitsVal y, first_str := y,
                  last_str := y, host_name_str := acc ++ x ++ [','] } rest := by
      simp [walkAll, walkStep, h1, h2, Walk.flush]
    rw [e, walkAll_gaps rest y _
      (fun p hp q hq => hg p (List.mem_cons_of_mem _ hp) q (List.mem_cons_of_mem _ hq))]
    simp [commaJoin]

/-- The run walk over the padded numbers `j + 1, ..., j + k` after a run that ends at `j`:
the run is extended to `j + k`. -/
theorem walkAll_run (w : Nat) : ∀ (k j : Nat) (w0 : Walk), 0 ≤ w0.first → w0.last = j →
    1 ≤ k →
      walkAll w0 ((List.range' (j + 1) k).map (fun i => zeroPadLeft i w)) =
        { w0 with last := (j + k : Nat), last_str := zeroPadLeft (j + k) w }
  | 0, _, _ => by intro _ _ hk; omega
  | k + 1, j, w0 => by
    intro hf hl _
    have h1 : ¬ (w0.first < 0) := by omega
    have e : walkStep w0 (zeroPadLeft (j + 1) w) (digitsVal (zeroPadLeft (j + 1) w)) =
        { w0 with last := (j + 1 : Nat), last_str := zeroPadLeft (j + 1) w } := by
      simp [walkStep, h1, digitsVal_zeroPadLeft, hl]
    rw [List.range'_succ, List.map_cons, walkAll, List.foldl_cons, e]
    by_cases hk : k = 0
    · subst hk
      simp
    · have := walkAll_run w k (j + 1)
        { w0 with last := (j + 1 : Nat), last_str := zeroPadLeft (j + 1) w } hf rfl (by omega)
      rw [walkAll] at this
      rw [this]
      simp only [Walk.mk.injEq, true_and, and_true]
      constructor
      · push_cast; omega
      · congr 1; omega

/-! ## `HostNameListToStr_` on one head -/

theorem commaJoin_no_dash : ∀ (m : List Str), (∀ n ∈ m, isDigitStr n) → '-' ∉ commaJoin m
  | [], _ => by simp [commaJoin]
  | [a], h => by
    intro hc
    exact absurd ((h a (List.mem_cons_self _ _)).2 _ hc) (by decide)
  | a :: b :: rest, h => by
    intro hc
    simp only [commaJoin, List.mem_append, List.mem_cons] at hc
    rcases hc with hc | hc | hc
    · exact absurd ((h a (List.mem_cons_self _ _)).2 _ hc) (by decide)
    · exact absurd hc (by decide)
    · exact commaJoin_no_dash (b :: rest) (fun x hx => h x (List.mem_cons_of_mem _ hx)) hc

/-- **C8.** Entries that are not contiguous are listed, in the order by width, then value.
For a non-empty head `h` without digit, bracket or `<`, and two or more hosts `h + n` whose
numbers are digit strings with values up to `2^31 - 1`, no value following another by
one, `HostNameListToStr_` appends exactly one text, `h[m_1,...,m_k]`, where `m` is the list
of the distinct numbers in the order by length first and value second (numbers of equal
value and different text are both in it), and no `-` stands between the brackets. -/
theorem HostNameListToStr_non_contiguous (iterOrder : HostMap → HostMap)
    (hiter : ∀ m, (iterOrder m).Perm m) (h : Str) (hh : isPlainHead h) (ns m : List Str)
    (res_list : List Str) (hlen : 2 ≤ ns.length) (hns : ∀ n ∈ ns, isIntStr n)
    (hgap : ∀ x ∈ ns, ∀ y ∈ ns, digitsVal y ≠ digitsVal x + 1)
    (hm : m.Pairwise widthThenValue) (hmem : ∀ x, x ∈ m ↔ x ∈ ns) :
    HostNameListToStr_ iterOrder (ns.map (fun n => h ++ n)) res_list =
        some (false, res_list ++ [h ++ '[' :: (commaJoin m ++ [']'])]) ∧
      '-' ∉ commaJoin m := by
  refine ⟨?_, commaJoin_no_dash m (fun n hn => (hns n ((hmem n).mp hn)).1)⟩
  rw [HostNameListToStr_one_head iterOrder hiter h hh ns m res_list hlen hns hm hmem]
  cases m with
  | nil =>
    have : ns = [] := List.eq_nil_iff_forall_not_mem.mpr (fun x hx => by
      have := (hmem x).mpr hx
      simp at this)
    subst this
    simp at hlen
  | cons x rest =>
    have hg : ∀ p ∈ x :: rest, ∀ q ∈ x :: rest, digitsVal q ≠ digitsVal p + 1 :=
      fun p hp q hq => hgap p ((hmem p).mp hp) q ((hmem q).mp hq)
    have e : walkAll (walkStart h) (x :: rest) =
        walkAll { first := digitsVal x, last := digitsVal x, first_str := x,
                  last_str := x, host_name_str := h ++ ['['] } rest := by
      rw [walkAll, List.foldl_cons, walkStep_start]
      rfl
    rw [e, walkAll_gaps rest x _ hg]
    simp

set_option maxRecDepth 100000 in
/-- The hosts `cn1, cn3, cn5` of the specification, with `cn01` and a second `cn3` added. -/
theorem HostNameListToStr_non_contiguous_witness :
    HostNameListToStr_ id
        (["1".toList, "3".toList, "01".toList, "5".toList, "3".toList].map
          (fun n => "cn".toList ++ n)) [] =
        some (false, ["cn".toList ++ '[' ::
          (commaJoin ["1".toList, "3".toList, "5".toList, "01".toList] ++ [']'])]) ∧
      '-' ∉ commaJoin ["1".toList, "3".toList, "5".toList, "01".toList] :=
  HostNameListToStr_non_contiguous id (fun m => List.Perm.refl m) "cn".toList (by decide)
    ["1".toList, "3".toList, "01".toList, "5".toList, "3".toList]
    ["1".toList, "3".toList, "5".toList, "01".toList] [] (by decide) (by decide) (by decide)
    (by decide)
    (by
      intro x
      simp only [List.mem_cons, List.mem_singleton, List.not_mem_nil, or_false]
      tauto)

/-- **C2.** Compression merges a contiguous run. For a non-empty head `h` without digit,
bracket or `<`, a width `w`, numbers `a < b` with `b < 10^w` and `b ≤ 2^31 - 1`, and a
list of two or more hosts, in any order and with repetitions, whose elements are exactly the
names `h + zeroPad(j, w)` for `a ≤ j ≤ b`, `HostNameListToStr_` appends exactly one text,
`h[zeroPad(a, w)-zeroPad(b, w)]`. -/
theorem HostNameListToStr_contiguous (iterOrder : HostMap → HostMap)
    (hiter : ∀ m, (iterOrder m).Perm m) (h : Str) (hh : isPlainHead h) (w a b : Nat)
    (hab : a < b) (hbw : b < 10 ^ w) (hbi : b ≤ 2 ^ 31 - 1) (hosts res_list : List Str)
    (hlen : 2 ≤ hosts.length)
    (hset : ∀ x, x ∈ hosts ↔ ∃ j, a ≤ j ∧ j ≤ b ∧ x = h ++ zeroPadLeft j w) :
    HostNameListToStr_ iterOrder hosts res_list =
      some (false, res_list ++
        [h ++ '[' :: (zeroPadLeft a w ++ '-' :: (zeroPadLeft b w ++ [']']))]) := by
  have hw : 1 ≤ w := by
    rcases Nat.eq_zero_or_pos w with e | e
    · subst e; simp at hbw; omega
    · exact e
  have hhosts : hosts = (hosts.map (fun x => x.drop h.length)).map (fun n => h ++ n) := by
    rw [List.map_map]
    conv_lhs => rw [← List.map_id hosts]
    apply List.map_congr_left
    intro x hx
    obtain ⟨j, _, _, rfl⟩ := (hset x).mp hx
    simp
  have hnsmem : ∀ n, n ∈ hosts.map (fun x => x.drop h.length) ↔
      ∃ j, a ≤ j ∧ j ≤ b ∧ n = zeroPadLeft j w := by
    intro n
    rw [List.mem_map]
    constructor
    · rintro ⟨x, hx, rfl⟩
      obtain ⟨j, h1, h2, rfl⟩ := (hset x).mp hx
      exact ⟨j, h1, h2, by simp⟩
    · rintro ⟨j, h1, h2, rfl⟩
      exact ⟨h ++ zeroPadLeft j w, (hset _).mpr ⟨j, h1, h2, rfl⟩, by simp⟩
  have hns : ∀ n ∈ hosts.map (fun x => x.drop h.length), isIntStr n := by
    intro n hn
    obtain ⟨j, _, h2, rfl⟩ := (hnsmem n).mp hn
    exact ⟨zeroPadLeft_isDigitStr j w, by rw [digitsVal_zeroPadLeft]; omega⟩
  have hmem : ∀ x, x ∈ (List.range' a (b + 1 - a)).map (fun i => zeroPadLeft i w) ↔
      x ∈ hosts.map (fun x => x.drop h.length) := by
    intro x
    rw [hnsmem, List.mem_map]
    constructor
    · rintro ⟨j, hj, rfl⟩
      rw [List.mem_range'_1] at hj
      exact ⟨j, hj.1, by omega, rfl⟩
    · rintro ⟨j, h1, h2, rfl⟩
      exact ⟨j, by rw [List.mem_range'_1]; omega, rfl⟩
  have hm : ((List.range' a (b + 1 - a)).map (fun i => zeroPadLeft i w)).Pairwise
      widthThenValue := by
    rw [List.pairwise_map]
    refine List.Pairwise.imp_of_mem ?_ (List.pairwise_lt_range' a (b + 1 - a))
    intro i j hi hj hij
    rw [List.mem_range'_1] at hi hj
    right
    have hbound : ∀ t, t ≤ b → t < 10 ^ w := fun t ht => lt_of_le_of_lt ht hbw
    rw [zeroPadLeft_length i w hw (hbound i (by omega)),
      zeroPadLeft_length j w hw (hbound j (by omega)), digitsVal_zeroPadLeft,
      digitsVal_zeroPadLeft]
    exact ⟨rfl, hij⟩
  have hlen2 : 2 ≤ (hosts.map (fun x => x.drop h.length)).length := by simpa using hlen
  rw [hhosts, HostNameListToStr_one_head iterOrder hiter h hh _ _ res_list hlen2 hns hm hmem]
  have hsplit : b + 1 - a = (b - a) + 1 := by omega
  have hrun := walkAll_run w (b - a) a
    { first := digitsVal (zeroPadLeft a w), last := digitsVal (zeroPadLeft a w),
      first_str := zeroPadLeft a w, last_str := zeroPadLeft a w,
      host_name_str := h ++ ['['] }
    (Int.natCast_nonneg _) (by simp [digitsVal_zeroPadLeft]) (by omega)
  have e : walkAll (walkStart h)
      ((List.range' a (b + 1 - a)).map (fun i => zeroPadLeft i w)) =
      { first := (a : Nat), last := (b : Nat), first_str := zeroPadLeft a w,
        last_str := zeroPadLeft b w, host_name_str := h ++ ['['] } := by
    rw [hsplit, List.range'_succ, List.map_cons, walkAll, List.foldl_cons, walkStep_start]
    rw [walkAll] at hrun
    rw [hrun, digitsVal_zeroPadLeft]
    have hb : a + (b - a) = b := by omega
    simp only [hb]
  have hne : ¬ ((a : Int) = (b : Int)) := by omega
  rw [e]
  simp [Walk.flush, hne]

set_option maxRecDepth 100000 in
/-- The hosts `cn01, cn02, cn03` of the specification, out of order and with a repetition. -/
theorem HostNameListToStr_contiguous_witness :
    (∀ x, x ∈ ["cn02".toList, "cn03".toList, "cn01".toList, "cn02".toList] ↔
      ∃ j, 1 ≤ j ∧ j ≤ 3 ∧ x = "cn".toList ++ zeroPadLeft j 2) ∧
    HostNameListToStr_ id ["cn02".toList, "cn03".toList, "cn01".toList, "cn02".toList] [] =
      some (false, ["cn[01-03]".toList]) := by
  have hset : ∀ x, x ∈ ["cn02".toList, "cn03".toList, "cn01".toList, "cn02".toList] ↔
      ∃ j, 1 ≤ j ∧ j ≤ 3 ∧ x = "cn".toList ++ zeroPadLeft j 2 := by
    intro x
    constructor
    · intro hx
      simp only [List.mem_cons, List.mem_singleton, List.not_mem_nil, or_false] at hx
      rcases hx with rfl | rfl | rfl | rfl
      · exact ⟨2, by decide, by decide, by decide⟩
      · exact ⟨3, by decide, by decide, by decide⟩
      · exact ⟨1, by decide, by decide, by decide⟩
      · exact ⟨2, by decide, by decide, by decide⟩
    · rintro ⟨j, h1, h2, rfl⟩
      interval_cases j <;> decide
  exact ⟨hset, HostNameListToStr_contiguous id (fun m => List.Perm.refl m) "cn".toList
    (by decide) 2 1 3 (by decide) (by decide) (by decide) _ [] (by decide) hset⟩

/-! ## Balanced brackets are pieces -/

/-- A text without ill-formed bracket structure is made of bracket-free pieces; read with a
bracket open, it is the rest of the enclosed text, the `]`, and such pieces. -/
theorem pieces_of_wellFormed : ∀ (s : Str) (isOpen : Bool), illFormedFrom isOpen s = false →
    ∃ (mid : Str) (segs : List Seg), ('[' ∉ mid ∧ ']' ∉ mid) ∧
      (∀ g ∈ segs, '[' ∉ g.text ∧ ']' ∉ g.text) ∧
      s = if isOpen then mid ++ ']' :: renderSegs segs else renderSegs segs
  | [], isOpen => by
    intro h
    simp only [illFormedFrom] at h
    subst h
    exact ⟨[], [], by simp, by simp, by simp [renderSegs]⟩
  | c :: cs, isOpen => by
    intro h
    simp only [illFormedFrom] at h
    by_cases h1 : c = '['
    · subst h1
      cases isOpen with
      | true => simp at h
      | false =>
        simp only [if_true, Bool.false_eq_true, if_false] at h
        obtain ⟨mid, segs, hmid, hsegs, hs⟩ := pieces_of_wellFormed cs true h
        simp only [if_true] at hs
        refine ⟨[], Seg.grp mid :: segs, by simp, ?_, ?_⟩
        · intro g hg
          rcases List.mem_cons.mp hg with rfl | hg
          · exact hmid
          · exact hsegs g hg
        · simp [hs, renderSegs, Seg.render]
    · by_cases h2 : c = ']'
      · subst h2
        cases isOpen with
        | false => simp at h
        | true =>
          simp only [if_true, if_false, h1] at h
          obtain ⟨_, segs, _, hsegs, hs⟩ := pieces_of_wellFormed cs false h
          simp only [Bool.false_eq_true, if_false] at hs
          exact ⟨[], segs, by simp, hsegs, by simp [hs]⟩
      · simp only [h1, h2, if_false] at h
        obtain ⟨mid, segs, hmid, hsegs, hs⟩ := pieces_of_wellFormed cs isOpen h
        cases isOpen with
        | true =>
          simp only [if_true] at hs
          refine ⟨c :: mid, segs, ?_, hsegs, by simp [hs]⟩
          simp [hmid, Ne.symm h1, Ne.symm h2]
        | false =>
          simp only [Bool.false_eq_true, if_false] at hs
          refine ⟨[], Seg.lit [c] :: segs, by simp, ?_, by simp [hs, renderSegs, Seg.render]⟩
          intro g hg
          rcases List.mem_cons.mp hg with rfl | hg
          · simp [Seg.text, Ne.symm h1, Ne.symm h2]
          · exact hsegs g hg

/-- Every text whose bracket structure is not ill-formed is the text of bracket-free
pieces. -/
theorem renderSegs_of_wellFormed (s : Str) (h : illFormedBrackets s = false) :
    ∃ segs : List Seg, (∀ g ∈ segs, '[' ∉ g.text ∧ ']' ∉ g.text) ∧ s = renderSegs segs := by
  obtain ⟨_, segs, _, hsegs, hs⟩ := pieces_of_wellFormed s false h
  exact ⟨segs, hsegs, by simpa using hs⟩

theorem illFormedFrom_plain : ∀ (t rest : Str) (isOpen : Bool), ('[' ∉ t ∧ ']' ∉ t) →
    illFormedFrom isOpen (t ++ rest) = illFormedFrom isOpen rest
  | [], rest, isOpen => by intro _; rfl
  | c :: cs, rest, isOpen => by
    intro h
    have h1 : c ≠ '[' := fun e => h.1 (by simp [e])
    have h2 : c ≠ ']' := fun e => h.2 (by simp [e])
    have h3 : '[' ∉ cs ∧ ']' ∉ cs :=
      ⟨fun e => h.1 (List.mem_cons_of_mem _ e), fun e => h.2 (List.mem_cons_of_mem _ e)⟩
    rw [List.cons_append, illFormedFrom]
    simp only [h1, h2, if_false]
    exact illFormedFrom_plain cs rest isOpen h3

/-- The text of bracket-free pieces has no ill-formed bracket structure. -/
theorem wellFormed_renderSegs : ∀ (segs : List Seg),
    (∀ g ∈ segs, '[' ∉ g.text ∧ ']' ∉ g.text) → illFormedBrackets (renderSegs segs) = false
  | [], _ => rfl
  | g :: rest, h => by
    have hg := h g (List.mem_cons_self _ _)
    have ih := wellFormed_renderSegs rest (fun x hx => h x (List.mem_cons_of_mem _ hx))
    simp only [illFormedBrackets, renderSegs, List.map_cons, List.flatten_cons] at ih ⊢
    cases g with
    | lit t =>
      simp only [Seg.text] at hg
      simp only [Seg.render]
      rw [illFormedFrom_plain t _ false hg]
      exact ih
    | grp t =>
      simp only [Seg.text] at hg
      have e : Seg.render (Seg.grp t) ++ (List.map Seg.render rest).flatten =
          '[' :: (t ++ ']' :: (List.map Seg.render rest).flatten) := by
        simp [Seg.render]
      rw [e, illFormedFrom]
      simp only [if_true, Bool.false_eq_true, if_false]
      rw [illFormedFrom_plain t _ true hg]
      simp only [illFormedFrom, if_true, show ¬ (']' = '[') by decide, if_false]
      exact ih

/-! ## The runs of a bucket -/

theorem digitsVal_lt_pow : ∀ (s : Str), (∀ c ∈ s, c.isDigit = true) →
    digitsVal s < 10 ^ s.length := by
  intro s
  induction s using List.reverseRecOn with
  | nil => intro _; simp [digitsVal]
  | append_singleton s c ih =>
    intro h
    have h1 := ih (fun x hx => h x (by simp [hx]))
    have hc := h c (by simp)
    simp only [Char.isDigit, Bool.and_eq_true, decide_eq_true_eq] at hc
    have hc2 : c.toNat ≤ 57 := hc.2
    rw [digitsVal_append, List.length_append, List.length_singleton, pow_succ]
    omega

/-- A digit string is its value padded to its width. -/
theorem eq_zeroPadLeft (x : Str) (hx : isDigitStr x) :
    x = zeroPadLeft (digitsVal x) x.length := by
  have hlen : 1 ≤ x.length := by
    rcases Nat.eq_zero_or_pos x.length with e | e
    · exact absurd (List.length_eq_zero.mp e) hx.1
    · exact e
  apply digitsVal_inj
  · rw [zeroPadLeft_length _ _ hlen (digitsVal_lt_pow x hx.2)]
  · exact hx.2
  · exact zeroPadLeft_isDigit _ _
  · rw [digitsVal_zeroPadLeft]

theorem runs_ne_nil (f l : Str) : ∀ (rest : List Str), runs f l rest ≠ []
  | [] => by simp [runs]
  | y :: rest => by
    simp only [runs]
    split
    · exact runs_ne_nil f y rest
    · simp

theorem groupText_cons (u : HostUnit) (us : List HostUnit) (h : us ≠ []) :
    groupText (u :: us) = u.text ++ ',' :: groupText us := by
  cases us with
  | nil => exact absurd rfl h
  | cons v rest => rfl

/-- The text of the pending run, as lines 252-258 and 264-270 write it. -/
theorem flush_run (f l acc : Str) (w : Nat) (hf : isDigitStr f) (hl : isDigitStr l)
    (hfw : f.length = w) (hlw : l.length = w) :
    Walk.flush { first := digitsVal f, last := digitsVal l, first_str := f, last_str := l,
                 host_name_str := acc } = acc ++ (runUnit f l).text := by
  by_cases e : f = l
  · subst e
    simp [Walk.flush, runUnit, HostUnit.text]
  · have hne : ¬ ((digitsVal f : Int) = (digitsVal l : Int)) := by
      intro hv
      have hv2 : digitsVal f = digitsVal l := by exact_mod_cast hv
      exact e (digitsVal_inj f l (by rw [hfw, hlw]) hf.2 hl.2 hv2)
    simp [Walk.flush, runUnit, HostUnit.text, e, hne]

/-- The run walk writes the runs of the entries. -/
theorem walkAll_runs (w : Nat) : ∀ (rest : List Str) (f l acc : Str),
    isDigitStr f → isDigitStr l → f.length = w → l.length = w →
    (∀ y ∈ rest, isDigitStr y ∧ y.length = w) →
      (walkAll { first := digitsVal f, last := digitsVal l, first_str := f, last_str := l,
                 host_name_str := acc } rest).flush = acc ++ groupText (runs f l rest)
  | [], f, l, acc => by
    intro hf hl hfw hlw _
    simp only [walkAll, List.foldl_nil, runs, groupText]
    exact flush_run f l acc w hf hl hfw hlw
  | y :: rest, f, l, acc => by
    intro hf hl hfw hlw hrest
    have hy := hrest y (List.mem_cons_self _ _)
    have hrest2 : ∀ z ∈ rest, isDigitStr z ∧ z.length = w :=
      fun z hz => hrest z (List.mem_cons_of_mem _ hz)
    have h1 : ¬ ((digitsVal f : Int) < 0) := by
      have := Int.natCast_nonneg (digitsVal f)
      omega
    by_cases hm : digitsVal y = digitsVal l + 1
    · have hm2 : (digitsVal y : Int) = (digitsVal l : Int) + 1 := by exact_mod_cast hm
      have e : walkStep { first := digitsVal f, last := digitsVal l, first_str := f,
                          last_str := l, host_name_str := acc } y (digitsVal y) =
          { first := digitsVal f, last := digitsVal y, first_str := f, last_str := y,
            host_name_str := acc } := by
        simp [walkStep, h1, hm2]
      rw [walkAll, List.foldl_cons, e]
      have ih := walkAll_runs w rest f y acc hf hy.1 hfw hy.2 hrest2
      rw [walkAll] at ih
      rw [ih]
      simp [runs, hm]
    · have hm2 : ¬ ((digitsVal y : Int) = (digitsVal l : Int) + 1) := by
        intro hv
        exact hm (by exact_mod_cast hv)
      have e : walkStep { first := digitsVal f, last := digitsVal l, first_str := f,
                          last_str := l, host_name_str := acc } y (digitsVal y) =
          { first := digitsVal y, last := digitsVal y, first_str := y, last_str := y,
            host_name_str := acc ++ (runUnit f l).text ++ [','] } := by
        simp only [walkStep, h1, hm2, if_false, flush_run f l acc w hf hl hfw hlw]
      rw [walkAll, List.foldl_cons, e]
      have ih := walkAll_runs w rest y y (acc ++ (runUnit f l).text ++ [',']) hy.1 hy.1 hy.2
        hy.2 hrest2
      rw [walkAll] at ih
      rw [ih]
      simp [runs, hm, groupText_cons _ _ (runs_ne_nil y y rest)]

/-- The names of a run after the literal `p`. -/
theorem runUnit_names (p f l : Str) (hf : isDigitStr f) :
    (runUnit f l).names p =
      (List.range' (digitsVal f) (digitsVal l + 1 - digitsVal f)).map
        (fun j => p ++ zeroPadLeft j f.length) := by
  by_cases e : f = l
  · subst e
    have h1 : digitsVal f + 1 - digitsVal f = 1 := by omega
    simp only [runUnit, if_true, HostUnit.names, h1, List.range'_one, List.map_cons,
      List.map_nil]
    rw [← eq_zeroPadLeft f hf]
  · simp [runUnit, e, HostUnit.names]

/-- Expanding the runs of the entries gives the entries back, in order. -/
theorem runs_names (p : Str) (w : Nat) : ∀ (rest : List Str) (f l : Str),
    isDigitStr f → isDigitStr l → f.length = w → l.length = w → digitsVal f ≤ digitsVal l →
    (∀ y ∈ rest, isDigitStr y ∧ y.length = w) →
      (runs f l rest).flatMap (HostUnit.names p) =
        (List.range' (digitsVal f) (digitsVal l + 1 - digitsVal f)).map
          (fun j => p ++ zeroPadLeft j w) ++ rest.map (fun n => p ++ n)
  | [], f, l => by
    intro hf _ hfw _ _ _
    simp only [runs, List.flatMap_cons, List.flatMap_nil, List.append_nil, List.map_nil]
    rw [runUnit_names p f l hf, hfw]
  | y :: rest, f, l => by
    intro hf hl hfw hlw hfl hrest
    have hy := hrest y (List.mem_cons_self _ _)
    have hrest2 : ∀ z ∈ rest, isDigitStr z ∧ z.length = w :=
      fun z hz => hrest z (List.mem_cons_of_mem _ hz)
    have hyy : zeroPadLeft (digitsVal y) w = y := by
      have := eq_zeroPadLeft y hy.1
      rw [hy.2] at this
      exact this.symm
    by_cases hm : digitsVal y = digitsVal l + 1
    · simp only [runs, hm, if_true]
      have ih := runs_names p w rest f y hf hy.1 hfw hy.2 (by omega) hrest2
      rw [ih]
      have e1 : digitsVal y + 1 - digitsVal f = (digitsVal l + 1 - digitsVal f) + 1 := by omega
      have e2 : digitsVal f + (digitsVal l + 1 - digitsVal f) = digitsVal y := by omega
      rw [e1, List.range'_concat, List.map_append]
      simp only [List.map_cons, List.map_nil, Nat.one_mul, e2, hyy, List.append_assoc,
        List.singleton_append]
    · simp only [runs, hm, if_false, List.flatMap_cons]
      have ih := runs_names p w rest y y hy.1 hy.1 hy.2 hy.2 (Nat.le_refl _) hrest2
      have e1 : digitsVal y + 1 - digitsVal y = 1 := by omega
      rw [ih, runUnit_names p f l hf, hfw, e1]
      simp [hyy]

/-- The runs of entries that `stoi` reads are units that the expansion accepts. -/
theorem runs_ok : ∀ (rest : List Str) (f l : Str),
    isIntStr f → isIntStr l → digitsVal f ≤ digitsVal l → (∀ y ∈ rest, isIntStr y) →
      ∀ u ∈ runs f l rest, u.ok
  | [], f, l => by
    intro hf hl hfl _ u hu
    simp only [runs, List.mem_singleton] at hu
    subst hu
    by_cases e : f = l
    · simp only [runUnit, e, if_true, HostUnit.ok]
      exact hl.1
    · simp only [runUnit, e, if_false, HostUnit.ok]
      have := hl.2
      exact ⟨hf.1, hl.1, hfl, by omega⟩
  | y :: rest, f, l => by
    intro hf hl hfl hrest u hu
    have hy := hrest y (List.mem_cons_self _ _)
    have hrest2 : ∀ z ∈ rest, isIntStr z := fun z hz => hrest z (List.mem_cons_of_mem _ hz)
    by_cases hm : digitsVal y = digitsVal l + 1
    · simp only [runs, hm, if_true] at hu
      exact runs_ok rest f y hf hy (by omega) hrest2 u hu
    · simp only [runs, hm, if_false, List.mem_cons] at hu
      rcases hu with rfl | hu
      · by_cases e : f = l
        · simp only [runUnit, e, if_true, HostUnit.ok]
          exact hl.1
        · simp only [runUnit, e, if_false, HostUnit.ok]
          have := hl.2
          exact ⟨hf.1, hl.1, hfl, by omega⟩
      · exact runs_ok rest y y hy hy (Nat.le_refl _) hrest2 u hu

/-- Lines 227-237 on entries that `stoi` reads: the result is strictly ascending by width,
then value, and has the elements of the bucket. -/
theorem unique_sortNums_sorted (ns : List Str) (hns : ∀ n ∈ ns, isIntStr n) :
    (unique (sortNums ns)).Pairwise widthThenValue ∧
      ∀ x, x ∈ unique (sortNums ns) ↔ x ∈ ns := by
  have hperm : (sortNums ns).Perm ns := List.perm_insertionSort _ ns
  have hsorted : (sortNums ns).Pairwise (fun a b => numLess b a = false) :=
    List.sorted_insertionSort _ ns
  have hmem : ∀ x, x ∈ unique (sortNums ns) ↔ x ∈ ns := by
    intro x
    rw [unique_mem, hperm.mem_iff]
  have h1 : (sortNums ns).Pairwise (fun a b => a = b ∨ numLess a b = true) := by
    refine List.Pairwise.imp_of_mem ?_ hsorted
    intro a b ha hb hab
    by_cases e : a = b
    · exact Or.inl e
    · right
      rcases numLess_total a b (hns a (hperm.mem_iff.mp ha)) (hns b (hperm.mem_iff.mp hb)) e
        with h | h
      · exact h
      · rw [hab] at h
        exact Bool.noConfusion h
  have h2 : (unique (sortNums ns)).Pairwise (fun a b => numLess a b = true) :=
    unique_pairwise _ numLess_asymm _ h1
  refine ⟨?_, hmem⟩
  refine List.Pairwise.imp_of_mem ?_ h2
  intro a b ha hb hab
  exact (numLess_isIntStr a b (hns a ((hmem a).mp ha)) (hns b ((hmem b).mp hb))).mp hab

/-! ## `ParseHostList` on a literal and on one group with a suffix -/

/-- Text without white space is not changed by stripping. -/
theorem Strip_nospace (s : Str) (h : ∀ c ∈ s, isSpace c = false) :
    StripAsciiWhitespace s = s := by
  have h1 : s.dropWhile isSpace = s := by
    cases s with
    | nil => rfl
    | cons c cs => simp [List.dropWhile_cons, h c (List.mem_cons_self _ _)]
  have h2 : s.reverse.dropWhile isSpace = s.reverse := by
    cases hr : s.reverse with
    | nil => rfl
    | cons c cs =>
      have hc : c ∈ s := by
        rw [← List.mem_reverse, hr]
        exact List.mem_cons_self _ _
      simp [List.dropWhile_cons, h c hc]
  rw [StripAsciiWhitespace, h1, h2, List.reverse_reverse]

/-- The characters of a dot tail. -/
theorem isDotTail_chars {t : Str} (ht : isDotTail t) :
    ∀ c ∈ t, c ≠ '[' ∧ c ≠ ']' ∧ c ≠ ',' ∧ isSpace c = false := by
  rcases ht with rfl | ⟨r, rfl, hr⟩
  · simp
  · intro c hc
    rcases List.mem_cons.mp hc with rfl | hc
    · decide
    · exact hr c hc

theorem not_space_ne {c : Char} (h : isSpace c = false) : c ≠ ' ' ∧ c ≠ '\n' := by
  simp only [isSpace, Bool.or_eq_false_iff, beq_eq_false_iff_ne, ne_eq] at h
  exact ⟨h.1.1.1.1.1, h.1.1.1.2⟩

/-- `ParseHostList` on a text without bracket, comma or white space: the text is the one
host name. -/
theorem ParseHostList_literal (x : Str) (host_list : List Str)
    (hx : ∀ c ∈ x, c ≠ '[' ∧ c ≠ ']' ∧ c ≠ ',' ∧ isSpace c = false) :
    ParseHostList x host_list = some (true, host_list ++ [x]) := by
  have hfilter : x.filter (fun i => i != ' ') = x := by
    rw [List.filter_eq_self]
    intro c hc
    simpa using (not_space_ne (hx c hc).2.2.2).1
  have hsplit : splitLoop (x ++ [','])
      { name_meta := [], str_list := [], char_queue := [] } =
      some { name_meta := [], str_list := [x], char_queue := [] } := by
    rw [splitLoop_literal x _ _ rfl (fun c hc => ⟨(hx c hc).1, (hx c hc).2.1, (hx c hc).2.2.1⟩)]
    simp [splitLoop, splitStep]
  have hstrip := Strip_nospace x (fun c hc => (hx c hc).2.2.2)
  have hm : RE2.FullMatch x regex = false := by
    rw [Bool.eq_false_iff]
    intro hh
    obtain ⟨a, b, z, rfl, _⟩ := (FullMatch_regex x).mp hh
    exact (hx '[' (by simp)).1 rfl
  simp only [ParseHostList, hfilter, hsplit, ne_eq, not_true_eq_false, if_false, tokenLoop,
    hstrip, hm, Bool.not_false, if_true]

/-- `ParseNodeList` on a token `p[u1,...,un]t` with a dot tail `t`. -/
theorem ParseNodeList_group_tail (p t : Str) (us : List HostUnit) (nodelist : List Str)
    (hp : ∀ c ∈ p, c ≠ '[' ∧ c ≠ ']' ∧ c ≠ ',' ∧ isSpace c = false)
    (ht : isDotTail t) (hne : us ≠ []) (hus : ∀ u ∈ us, u.ok) :
    ParseNodeList (p ++ '[' :: (groupText us ++ ']' :: t)) nodelist =
      some (true, nodelist ++ (us.flatMap (HostUnit.names p)).map (fun x => x ++ t)) := by
  have htc := isDotTail_chars ht
  have hbody := groupText_chars us hus
  have hbody_nl : ∀ c ∈ groupText us, c ≠ '\n' := by
    intro c hc
    rcases hbody c hc with h | h | h
    · exact digit_ne h (by decide)
    · subst h; decide
    · subst h; decide
  have hbody_cl : ∀ c ∈ groupText us, (c == ']') = false := by
    intro c hc
    rcases hbody c hc with h | h | h
    · simpa using digit_ne h (show ']'.isDigit = false by decide)
    · subst h; decide
    · subst h; decide
  have hpm : RE2.PartialMatch (p ++ '[' :: (groupText us ++ ']' :: t)) brackets_regex = true :=
    (PartialMatch_brackets_regex _).mpr ⟨p, groupText us, t, rfl, hbody_nl⟩
  have hsplit : StrSplit (fun c => c == ']') (p ++ '[' :: (groupText us ++ ']' :: t)) =
      [p ++ '[' :: groupText us, t] := by
    have e : p ++ '[' :: (groupText us ++ ']' :: t) = (p ++ '[' :: groupText us) ++ ']' :: t := by
      simp
    rw [e, StrSplit_first _ ']' _ (by decide), StrSplit_plain]
    · intro c hc
      simpa using (htc c hc).2.1
    · intro c hc
      simp only [List.mem_append, List.mem_cons] at hc
      rcases hc with h | h | h
      · simpa using (hp c h).2.1
      · subst h; decide
      · exact hbody_cl c h
  have hsplit2 : StrSplit (fun c => c == '[' || c == ',') (p ++ '[' :: groupText us) =
      p :: us.map HostUnit.text := by
    rw [StrSplit_first _ '[' _ (by decide), StrSplit_groupText us hne hus]
    intro c hc
    have := hp c hc
    simp [this.1, this.2.2.1]
  simp only [ParseNodeList, hpm, Bool.not_true, Bool.false_eq_true, if_false, hsplit,
    List.dropLast, fragLoop, hsplit2, List.headD_cons, List.tail_cons,
    unitLoop_units p us [] hus, List.nil_append, crossProduct_single, List.getLastD,
    List.getLast?, List.getLast, Option.getD]
  cases t with
  | nil => simp
  | cons c cs => simp

/-- `ParseHostList` on a token `p[u1,...,un]t` with a dot tail `t`: the names of the units
after `p`, each followed by `t`. -/
theorem ParseHostList_group_tail (p t : Str) (us : List HostUnit) (host_list : List Str)
    (hp : ∀ c ∈ p, c ≠ '[' ∧ c ≠ ']' ∧ c ≠ ',' ∧ isSpace c = false)
    (ht : isDotTail t) (hne : us ≠ []) (hus : ∀ u ∈ us, u.ok) :
    ParseHostList (p ++ '[' :: (groupText us ++ ']' :: t)) host_list =
      some (true, host_list ++ (us.flatMap (HostUnit.names p)).map (fun x => x ++ t)) := by
  have htc := isDotTail_chars ht
  have hbody := groupText_chars us hus
  have hb1 : ∀ c ∈ groupText us, c ≠ '[' ∧ c ≠ ']' := by
    intro c hc
    rcases hbody c hc with h | h | h
    · exact ⟨digit_ne h (by decide), digit_ne h (by decide)⟩
    · subst h; decide
    · subst h; decide
  have hb2 : ∀ c ∈ groupText us, isSpace c = false := by
    intro c hc
    rcases hbody c hc with h | h | h
    · exact digit_not_space h
    · subst h; decide
    · subst h; decide
  have hall : ∀ c ∈ p ++ '[' :: (groupText us ++ ']' :: t), isSpace c = false := by
    intro c hc
    simp only [List.mem_append, List.mem_cons] at hc
    rcases hc with h | h | h | h | h
    · exact (hp c h).2.2.2
    · subst h; decide
    · exact hb2 c h
    · subst h; decide
    · exact (htc c h).2.2.2
  have hfilter : (p ++ '[' :: (groupText us ++ ']' :: t)).filter (fun i => i != ' ') =
      p ++ '[' :: (groupText us ++ ']' :: t) := by
    rw [List.filter_eq_self]
    intro c hc
    simpa using (not_space_ne (hall c hc)).1
  have hsplit : splitLoop ((p ++ '[' :: (groupText us ++ ']' :: t)) ++ [','])
      { name_meta := [], str_list := [], char_queue := [] } =
      some { name_meta := [], str_list := [p ++ '[' :: (groupText us ++ ']' :: t)],
             char_queue := [] } := by
    rw [List.append_assoc, splitLoop_literal p _ _ rfl
      (fun c hc => ⟨(hp c hc).1, (hp c hc).2.1, (hp c hc).2.2.1⟩)]
    rw [List.cons_append, splitLoop]
    simp only [splitStep, if_true, List.nil_append]
    rw [List.append_assoc, splitLoop_inside (groupText us) _ _ (by simp) hb1]
    rw [List.cons_append, splitLoop]
    simp only [splitStep, show ¬ (']' = '[') by decide, if_false, if_true,
      show ¬ (['['] ++ groupText us = []) by simp]
    rw [splitLoop_literal t _ _ rfl
      (fun c hc => ⟨(htc c hc).1, (htc c hc).2.1, (htc c hc).2.2.1⟩)]
    simp [splitLoop, splitStep]
  have hstrip := Strip_nospace _ hall
  have hm : RE2.FullMatch (p ++ '[' :: (groupText us ++ ']' :: t)) regex = true := by
    refine (FullMatch_regex _).mpr ⟨p, groupText us, t, rfl,
      fun c hc => (not_space_ne (hp c hc).2.2.2).2, fun c hc => (not_space_ne (hb2 c hc)).2, ?_⟩
    rcases ht with rfl | ⟨r, rfl, hr⟩
    · exact Or.inl rfl
    · exact Or.inr ⟨r, rfl, fun c hc => (not_space_ne (hr c hc).2.2.2).2⟩
  simp only [ParseHostList, hfilter, hsplit, ne_eq, not_true_eq_false, if_false, tokenLoop,
    hstrip, hm, Bool.not_true, Bool.false_eq_true,
    ParseNodeList_group_tail p t us host_list hp ht hne hus]

/-! ## Grouping names with a head, a number and a tail -/

/-- The scan over the digits of the number stops at the dot that follows them. -/
theorem foundLoop_digits_dot : ∀ (n r : Str) (start i : Nat), start ≠ 0 →
    (∀ c ∈ n, c.isDigit = true) →
      foundLoop (n ++ '.' :: r) 0 start i = (true, start, i + n.length)
  | [], r, start, i => by
    intro hs _
    rw [List.nil_append, foundLoop]
    simp [hs]
  | c :: cs, r, start, i => by
    intro hs hn
    have h1 := hn c (List.mem_cons_self _ _)
    have h2 : c ≠ '[' := digit_ne h1 (by decide)
    have h3 : c ≠ ']' := digit_ne h1 (by decide)
    rw [List.cons_append, foundLoop]
    simp only [h1, h2, h3, hs, if_false, if_true, false_and, Bool.true_eq_false, and_false]
    rw [foundLoop_digits_dot cs r start (i + 1) hs
      (fun x hx => hn x (List.mem_cons_of_mem _ hx))]
    simp only [List.length_cons]
    congr 2
    omega

/-- In `head + number + tail` the number is found. -/
theorem Found_numbered (h n t : Str) (hh : isPlainHead h) (hn : isDigitStr n)
    (ht : isDotTail t) :
    FoundFirstNumberWithoutBrackets (h ++ (n ++ t)) =
      (true, h.length, h.length + n.length) := by
  rcases ht with rfl | ⟨r, rfl, _⟩
  · rw [List.append_nil]
    exact Found_head_num h n hh hn
  · rw [FoundFirstNumberWithoutBrackets,
      foundLoop_head h _ 0 (fun c hc => ⟨(hh.2 c hc).1, (hh.2 c hc).2.1, (hh.2 c hc).2.2.1⟩)]
    obtain ⟨hne, hd⟩ := hn
    cases n with
    | nil => exact absurd rfl hne
    | cons c cs =>
      have h1 := hd c (List.mem_cons_self _ _)
      have h2 : c ≠ '[' := digit_ne h1 (by decide)
      have h3 : c ≠ ']' := digit_ne h1 (by decide)
      have h4 : h.length ≠ 0 := by
        intro e
        exact hh.1 (List.length_eq_zero.mp e)
      rw [List.cons_append, foundLoop]
      simp only [h1, h2, h3, if_false, if_true, and_self, Nat.zero_add]
      rw [foundLoop_digits_dot cs r h.length (h.length + 1) h4
        (fun x hx => hd x (List.mem_cons_of_mem _ hx))]
      simp only [List.length_cons]
      congr 2
      omega

/-- One turn of the grouping loop on `head + number + tail`. -/
theorem groupStep_numbered (st : GroupState) (h n t : Str) (hh : isPlainHead h)
    (hn : isDigitStr n) (ht : isDotTail t) :
    groupStep st (h ++ (n ++ t)) =
      { st with res := false, host_map := mapPush st.host_map (h ++ '<' :: t) n } := by
  have hne : h ++ (n ++ t) ≠ [] := by simp [hh.1]
  have e1 : List.take (h.length + n.length - h.length) (List.drop h.length (h ++ (n ++ t))) =
      n := by simp
  have e2 : List.take h.length (h ++ (n ++ t)) = h := by simp
  have e3 : List.take (h ++ (n ++ t)).length
      (List.drop (h.length + n.length) (h ++ (n ++ t))) = t := by
    have : h ++ (n ++ t) = (h ++ n) ++ t := by simp
    rw [this]
    have hl : h.length + n.length = (h ++ n).length := by simp
    rw [hl, List.drop_left, List.take_of_length_le]
    simp only [List.length_append]
    omega
  simp only [groupStep, hne, if_false, Found_numbered h n t hh hn ht, e1, e2, e3]

/-- One turn of the grouping loop on a plain name. -/
theorem groupStep_plain (st : GroupState) (x : Str) (hx : isPlainName x) :
    groupStep st x = { st with res_list := st.res_list ++ [x] } := by
  have hf : FoundFirstNumberWithoutBrackets x = (false, 0, 0) := by
    have := foundLoop_head x [] 0
      (fun c hc => ⟨(hx.2 c hc).1, (hx.2 c hc).2.1, (hx.2 c hc).2.2.1⟩)
    rw [List.append_nil] at this
    rw [FoundFirstNumberWithoutBrackets, this]
    simp [foundLoop]
  simp only [groupStep, hx.1, if_false, hf]

/-! ## The map of buckets -/

theorem mem_mapPush : ∀ (m : HostMap) (k n : Str) (k2 : Str) (v2 : List Str),
    (k2, v2) ∈ mapPush m k n →
      (k2, v2) ∈ m ∨ (k2 = k ∧ v2 = [n]) ∨ (k2 = k ∧ ∃ v, (k, v) ∈ m ∧ v2 = v ++ [n])
  | [], k, n, k2, v2 => by
    intro h
    simp only [mapPush, List.mem_singleton, Prod.mk.injEq] at h
    exact Or.inr (Or.inl h)
  | (k0, v0) :: rest, k, n, k2, v2 => by
    intro h
    by_cases e : k0 = k
    · simp only [mapPush, e, if_true, List.mem_cons, Prod.mk.injEq] at h
      rcases h with ⟨h1, h2⟩ | h
      · exact Or.inr (Or.inr ⟨h1, v0, by simp [e], h2⟩)
      · exact Or.inl (List.mem_cons_of_mem _ h)
    · simp only [mapPush, e, if_false, List.mem_cons, Prod.mk.injEq] at h
      rcases h with ⟨h1, h2⟩ | h
      · exact Or.inl (by simp [h1, h2])
      · rcases mem_mapPush rest k n k2 v2 h with h3 | h3 | ⟨h3, v, h4, h5⟩
        · exact Or.inl (List.mem_cons_of_mem _ h3)
        · exact Or.inr (Or.inl h3)
        · exact Or.inr (Or.inr ⟨h3, v, List.mem_cons_of_mem _ h4, h5⟩)

theorem mapPush_new : ∀ (m : HostMap) (k n : Str), ∃ v, (k, v) ∈ mapPush m k n ∧ n ∈ v
  | [], k, n => ⟨[n], by simp [mapPush], by simp⟩
  | (k0, v0) :: rest, k, n => by
    by_cases e : k0 = k
    · exact ⟨v0 ++ [n], by simp [mapPush, e], by simp⟩
    · obtain ⟨v, h1, h2⟩ := mapPush_new rest k n
      exact ⟨v, by simp [mapPush, e, h1], h2⟩

theorem mapPush_old : ∀ (m : HostMap) (k n : Str) (k2 : Str) (v2 : List Str),
    (k2, v2) ∈ m → ∃ v, (k2, v) ∈ mapPush m k n ∧ ∀ x ∈ v2, x ∈ v
  | [], k, n, k2, v2 => by intro h; simp at h
  | (k0, v0) :: rest, k, n, k2, v2 => by
    intro h
    rcases List.mem_cons.mp h with h1 | h1
    · simp only [Prod.mk.injEq] at h1
      obtain ⟨rfl, rfl⟩ := h1
      by_cases e : k2 = k
      · exact ⟨v2 ++ [n], by simp [mapPush, e], fun x hx => by simp [hx]⟩
      · exact ⟨v2, by simp [mapPush, e], fun x hx => hx⟩
    · by_cases e : k0 = k
      · exact ⟨v2, by simp [mapPush, e, h1], fun x hx => hx⟩
      · obtain ⟨v, h2, h3⟩ := mapPush_old rest k n k2 v2 h1
        exact ⟨v, by simp [mapPush, e, h2], h3⟩

theorem plainNames_append (a b : List HostItem) :
    plainNames (a ++ b) = plainNames a ++ plainNames b := by
  induction a with
  | nil => rfl
  | cons it rest ih =>
    cases it with
    | plain x => simp [plainNames, ih]
    | numbered h n t => simp [plainNames, ih]

/-- One turn of the grouping loop keeps `GroupInv`. -/
theorem GroupInv_step (res0 : List Str) (done : List HostItem) (st : GroupState)
    (it : HostItem) (hit : it.ok) (hinv : GroupInv res0 done st) :
    GroupInv res0 (done ++ [it]) (groupStep st it.name) := by
  obtain ⟨h1, h2, h3, h4⟩ := hinv
  cases it with
  | plain x =>
    rw [HostItem.name, groupStep_plain st x hit]
    refine ⟨?_, ?_, ?_, ?_⟩
    · simp [h1, plainNames_append, plainNames]
    · intro hr h n t hm
      simp only [List.mem_append, List.mem_singleton, reduceCtorEq, or_false] at hm
      exact h2 hr h n t hm
    · intro k v hkv
      obtain ⟨a, b⟩ := h3 k v hkv
      refine ⟨a, fun n hn => ?_⟩
      obtain ⟨h, t, c, d⟩ := b n hn
      exact ⟨h, t, List.mem_append_left _ c, d⟩
    · intro h n t hm
      simp only [List.mem_append, List.mem_singleton, reduceCtorEq, or_false] at hm
      exact h4 h n t hm
  | numbered h n t =>
    obtain ⟨hh, _, hn, ht⟩ := hit
    rw [HostItem.name, groupStep_numbered st h n t hh hn.1 ht]
    refine ⟨?_, ?_, ?_, ?_⟩
    · simp [h1, plainNames_append, plainNames]
    · intro hr
      simp at hr
    · intro k v hkv
      rcases mem_mapPush _ _ _ _ _ hkv with hm | ⟨rfl, rfl⟩ | ⟨rfl, v0, hv0, rfl⟩
      · obtain ⟨a, b⟩ := h3 k v hm
        refine ⟨a, fun x hx => ?_⟩
        obtain ⟨h', t', c, d⟩ := b x hx
        exact ⟨h', t', List.mem_append_left _ c, d⟩
      · refine ⟨by simp, fun x hx => ?_⟩
        simp only [List.mem_singleton] at hx
        subst hx
        exact ⟨h, t, by simp, rfl⟩
      · refine ⟨by simp, fun x hx => ?_⟩
        rcases List.mem_append.mp hx with hx | hx
        · obtain ⟨h', t', c, d⟩ := (h3 _ v0 hv0).2 x hx
          exact ⟨h', t', List.mem_append_left _ c, d⟩
        · simp only [List.mem_singleton] at hx
          subst hx
          exact ⟨h, t, by simp, rfl⟩
    · intro h' n' t' hm
      rcases List.mem_append.mp hm with hm | hm
      · obtain ⟨v, a, b⟩ := h4 h' n' t' hm
        obtain ⟨v2, c, d⟩ := mapPush_old st.host_map (h ++ '<' :: t) n _ v a
        exact ⟨v2, c, d n' b⟩
      · simp only [List.mem_singleton, HostItem.numbered.injEq] at hm
        obtain ⟨rfl, rfl, rfl⟩ := hm
        exact mapPush_new st.host_map _ _

/-- The grouping loop keeps `GroupInv`. -/
theorem GroupInv_loop (res0 : List Str) : ∀ (items done : List HostItem) (st : GroupState),
    (∀ it ∈ items, it.ok) → GroupInv res0 done st →
      GroupInv res0 (done ++ items) ((items.map HostItem.name).foldl groupStep st)
  | [], done, st => by
    intro _ h
    simpa using h
  | it :: rest, done, st => by
    intro hok hinv
    have h1 := GroupInv_step res0 done st it (hok it (List.mem_cons_self _ _)) hinv
    have h2 := GroupInv_loop res0 rest (done ++ [it]) _
      (fun x hx => hok x (List.mem_cons_of_mem _ hx)) h1
    simpa using h2

/-- The loop over the map appends one text for each entry when `stoi` throws in none. -/
theorem emitLoop_all : ∀ (m : HostMap) (res_list : List Str),
    (∀ kv ∈ m, ∃ s, bucketStr kv.1 kv.2 = some s) →
      emitLoop m res_list =
        some (res_list ++ m.map (fun kv => (bucketStr kv.1 kv.2).getD []))
  | [], res_list => by intro _; simp [emitLoop]
  | (k, v) :: rest, res_list => by
    intro h
    obtain ⟨s, hs⟩ := h (k, v) (List.mem_cons_self _ _)
    simp only at hs
    rw [emitLoop, hs]
    simp only
    rw [emitLoop_all rest _ (fun kv hkv => h kv (List.mem_cons_of_mem _ hkv))]
    simp [hs]

/-- The key of a bucket gives its head and its tail. -/
theorem key_inj (h1 t1 h2 t2 : Str) (n1 : '<' ∉ h1) (n2 : '<' ∉ h2)
    (e : h1 ++ '<' :: t1 = h2 ++ '<' :: t2) : h1 = h2 ∧ t1 = t2 := by
  have a := takeWhile_ne_first '<' h1 t1 n1
  have b := takeWhile_ne_first '<' h2 t2 n2
  rw [e, b] at a
  subst a
  exact ⟨rfl, by simpa using e⟩

/-! ## One bucket with a tail -/

theorem sortedRuns_spec (v : List Str) (w : Nat) (hne : v ≠ [])
    (hv : ∀ n ∈ v, isIntStr n ∧ n.length = w) :
    ∃ x rest, unique (sortNums v) = x :: rest ∧ sortedRuns v = runs x x rest ∧
      (∀ y ∈ x :: rest, isIntStr y ∧ y.length = w) ∧ ∀ y, y ∈ x :: rest ↔ y ∈ v := by
  obtain ⟨_, hmem⟩ := unique_sortNums_sorted v (fun n hn => (hv n hn).1)
  cases hu : unique (sortNums v) with
  | nil =>
    rw [hu] at hmem
    cases v with
    | nil => exact absurd rfl hne
    | cons a _ =>
      have := (hmem a).mpr (List.mem_cons_self _ _)
      simp at this
  | cons x rest =>
    rw [hu] at hmem
    exact ⟨x, rest, rfl, by simp [sortedRuns, hu], fun y hy => hv y ((hmem y).mp hy), hmem⟩

/-- Lines 215-274 for a bucket whose entries `stoi` reads and that have one width: the text
is `head[runs]tail`. -/
theorem bucketStr_numbered (h t : Str) (v : List Str) (w : Nat) (hh : '<' ∉ h)
    (hne : v ≠ []) (hv : ∀ n ∈ v, isIntStr n ∧ n.length = w) :
    bucketStr (h ++ '<' :: t) v =
      some (h ++ '[' :: (groupText (sortedRuns v) ++ ']' :: t)) := by
  obtain ⟨x, rest, hu, hsr, hxr, _⟩ := sortedRuns_spec v w hne hv
  have hx := hxr x (List.mem_cons_self _ _)
  have hrest : ∀ y ∈ rest, isDigitStr y ∧ y.length = w :=
    fun y hy => ⟨(hxr y (List.mem_cons_of_mem _ hy)).1.1, (hxr y (List.mem_cons_of_mem _ hy)).2⟩
  have e1 : (h ++ '<' :: t).takeWhile (fun c => c != '<') = h := takeWhile_ne_first '<' h t hh
  have e2 : (h ++ '<' :: t).take h.length = h := by simp
  have e3 : ((h ++ '<' :: t).drop (h.length + 1)).take (h ++ '<' :: t).length = t := by
    have a : h ++ '<' :: t = (h ++ ['<']) ++ t := by simp
    have b : h.length + 1 = (h ++ ['<']).length := by simp
    rw [a, b, List.drop_left, List.take_of_length_le]
    simp only [List.length_append]
    omega
  have e4 : v.all (fun n => (stoi n).isSome) = true := by
    rw [List.all_eq_true]
    intro n hn
    rw [stoi_digits n (hv n hn).1.1 (hv n hn).1.2]
    rfl
  have hwalk : (walkAll (walkStart h) (x :: rest)).flush =
      h ++ '[' :: groupText (runs x x rest) := by
    have e : walkAll (walkStart h) (x :: rest) =
        walkAll { first := digitsVal x, last := digitsVal x, first_str := x,
                  last_str := x, host_name_str := h ++ ['['] } rest := by
      rw [walkAll, List.foldl_cons, walkStep_start]
      rfl
    rw [e, walkAll_runs w rest x x _ hx.1.1 hx.1.1 hx.2 hx.2 hrest]
    simp
  have e5 : walkLoop (x :: rest) { first := -1, last := -1, first_str := [], last_str := [],
                                   host_name_str := h ++ ['['] } =
      some (walkAll (walkStart h) (x :: rest)) :=
    walkLoop_isIntStr (x :: rest) _ (fun y hy => (hxr y hy).1)
  simp only [bucketStr, e1, e2, e3, e4, if_true, hu, e5, hwalk, hsr]
  simp

/-- Expanding the text of such a bucket gives `head + number + tail` for the distinct
entries of the bucket. -/
theorem ParseHostList_bucket (h t : Str) (v : List Str) (w : Nat)
    (hh : isPlainHead h) (hh2 : ∀ c ∈ h, c ≠ ',' ∧ isSpace c = false) (ht : isDotTail t)
    (hne : v ≠ []) (hv : ∀ n ∈ v, isIntStr n ∧ n.length = w) :
    ∃ Lc, ParseHostList (h ++ '[' :: (groupText (sortedRuns v) ++ ']' :: t)) [] =
        some (true, Lc) ∧
      ∀ x, x ∈ Lc ↔ ∃ n ∈ v, x = h ++ (n ++ t) := by
  obtain ⟨x, rest, _, hsr, hxr, hmem⟩ := sortedRuns_spec v w hne hv
  have hx := hxr x (List.mem_cons_self _ _)
  have hrest : ∀ y ∈ rest, isIntStr y ∧ y.length = w :=
    fun y hy => hxr y (List.mem_cons_of_mem _ hy)
  have hrest2 : ∀ y ∈ rest, isDigitStr y ∧ y.length = w :=
    fun y hy => ⟨(hrest y hy).1.1, (hrest y hy).2⟩
  have hp : ∀ c ∈ h, c ≠ '[' ∧ c ≠ ']' ∧ c ≠ ',' ∧ isSpace c = false :=
    fun c hc => ⟨(hh.2 c hc).2.1, (hh.2 c hc).2.2.1, (hh2 c hc).1, (hh2 c hc).2⟩
  have hexp := ParseHostList_group_tail h t (runs x x rest) [] hp ht (runs_ne_nil x x rest)
    (runs_ok rest x x hx.1 hx.1 (Nat.le_refl _) (fun y hy => (hrest y hy).1))
  have hnames := runs_names h w rest x x hx.1.1 hx.1.1 hx.2 hx.2 (Nat.le_refl _) hrest2
  have e1 : digitsVal x + 1 - digitsVal x = 1 := by omega
  have hxx : zeroPadLeft (digitsVal x) w = x := by
    have := eq_zeroPadLeft x hx.1.1
    rw [hx.2] at this
    exact this.symm
  rw [e1, List.range'_one, List.map_cons, List.map_nil, hxx, List.singleton_append] at hnames
  rw [hsr]
  refine ⟨_, hexp, ?_⟩
  intro y
  rw [hnames]
  simp only [List.nil_append, List.mem_map, List.mem_cons]
  constructor
  · rintro ⟨z, hz, rfl⟩
    rcases hz with rfl | ⟨n, hn, rfl⟩
    · exact ⟨x, (hmem x).mp (List.mem_cons_self _ _), by simp⟩
    · exact ⟨n, (hmem n).mp (List.mem_cons_of_mem _ hn), by simp⟩
  · rintro ⟨n, hn, rfl⟩
    rcases List.mem_cons.mp ((hmem n).mpr hn) with rfl | hn2
    · exact ⟨h ++ n, Or.inl rfl, by simp⟩
    · exact ⟨h ++ n, Or.inr ⟨n, hn2, rfl⟩, by simp⟩

/-! ## `HostNameListToStr_` on names with a head, a number and a tail -/

theorem mem_plainNames : ∀ (items : List HostItem) (x : Str),
    x ∈ plainNames items ↔ HostItem.plain x ∈ items
  | [], x => by simp [plainNames]
  | it :: rest, x => by
    cases it with
    | plain y => simp [plainNames, mem_plainNames rest x]
    | numbered h n t => simp [plainNames, mem_plainNames rest x]

theorem plainNames_all : ∀ (items : List HostItem),
    (∀ h n t, HostItem.numbered h n t ∉ items) → plainNames items = items.map HostItem.name
  | [], _ => rfl
  | it :: rest, hno => by
    cases it with
    | plain y =>
      simp only [plainNames, List.map_cons, HostItem.name]
      rw [plainNames_all rest (fun h n t hm => hno h n t (List.mem_cons_of_mem _ hm))]
    | numbered h n t => exact absurd (List.mem_cons_self _ _) (hno h n t)

/-- `HostNameListToStr_` on two or more names, each plain or `head + number + tail`, the
numbers under one head and tail having one width: the plain names are appended, then one
text `head[runs]tail` for every entry of some list `M` of buckets; every bucket holds
numbers of names with its head and tail, and the number of every such name is in a
bucket. -/
theorem HostNameListToStr_items (iterOrder : HostMap → HostMap)
    (hiter : ∀ m, (iterOrder m).Perm m) (items : List HostItem) (res_list : List Str)
    (hlen : 2 ≤ items.length) (hok : ∀ it ∈ items, it.ok)
    (hwidth : ∀ h t n n2, HostItem.numbered h n t ∈ items →
      HostItem.numbered h n2 t ∈ items → n.length = n2.length) :
    ∃ (b : Bool) (M : HostMap),
      HostNameListToStr_ iterOrder (items.map HostItem.name) res_list =
        some (b, res_list ++ plainNames items ++
          M.map (fun kv => (bucketStr kv.1 kv.2).getD [])) ∧
      (∀ kv ∈ M, ∃ h t w, kv.1 = h ++ '<' :: t ∧ kv.2 ≠ [] ∧
        (∀ n ∈ kv.2, HostItem.numbered h n t ∈ items ∧ n.length = w) ∧
        bucketStr kv.1 kv.2 = some (h ++ '[' :: (groupText (sortedRuns kv.2) ++ ']' :: t))) ∧
      (∀ h n t, HostItem.numbered h n t ∈ items → ∃ v, (h ++ '<' :: t, v) ∈ M ∧ n ∈ v) := by
  have hinit : GroupInv res_list []
      { host_map := [], res := true, res_list := res_list } := by
    refine ⟨by simp [plainNames], fun _ h n t hm => by simp at hm, fun k v hm => by simp at hm,
      fun h n t hm => by simp at hm⟩
  have hinv := GroupInv_loop res_list items [] _ hok hinit
  rw [List.nil_append] at hinv
  have hsz0 : ¬ ((items.map HostItem.name).length = 0) := by
    rw [List.length_map]; omega
  have hsz1 : ¬ ((items.map HostItem.name).length = 1) := by
    rw [List.length_map]; omega
  unfold HostNameListToStr_
  simp only [hsz0, hsz1, if_false]
  generalize (items.map HostItem.name).foldl groupStep
    { host_map := [], res := true, res_list := res_list } = st at hinv ⊢
  obtain ⟨h1, h2, h3, h4⟩ := hinv
  have hbucket : ∀ kv ∈ st.host_map,
      ∃ h t w, kv.1 = h ++ '<' :: t ∧ kv.2 ≠ [] ∧
        (∀ n ∈ kv.2, HostItem.numbered h n t ∈ items ∧ n.length = w) ∧
        bucketStr kv.1 kv.2 = some (h ++ '[' :: (groupText (sortedRuns kv.2) ++ ']' :: t)) := by
    rintro ⟨k, v⟩ hkv
    obtain ⟨hne, hall⟩ := h3 k v hkv
    cases v with
    | nil => exact absurd rfl hne
    | cons n0 v0 =>
      obtain ⟨h, t, hm0, hk⟩ := hall n0 (List.mem_cons_self _ _)
      have hok0 := hok _ hm0
      have hlt : '<' ∉ h := fun hc => (hok0.1.2 _ hc).2.2.2 rfl
      have hmem : ∀ n ∈ n0 :: v0, HostItem.numbered h n t ∈ items := by
        intro n hn
        obtain ⟨h', t', hm, hk'⟩ := hall n hn
        have hlt' : '<' ∉ h' := fun hc => ((hok _ hm).1.2 _ hc).2.2.2 rfl
        obtain ⟨rfl, rfl⟩ := key_inj h' t' h t hlt' hlt (hk'.symm.trans hk)
        exact hm
      have hv : ∀ n ∈ n0 :: v0, isIntStr n ∧ n.length = n0.length :=
        fun n hn => ⟨(hok _ (hmem n hn)).2.2.1, hwidth h t n n0 (hmem n hn) hm0⟩
      refine ⟨h, t, n0.length, hk, hne, fun n hn => ⟨hmem n hn, (hv n hn).2⟩, ?_⟩
      simp only
      rw [hk]
      exact bucketStr_numbered h t (n0 :: v0) n0.length hlt (by simp) hv
  cases hres : st.res with
  | true =>
    refine ⟨true, [], ?_, fun kv hkv => by simp at hkv, ?_⟩
    · simp [h1]
    · intro h n t hm
      exact absurd hm (h2 hres h n t)
  | false =>
    have hperm := hiter st.host_map
    have hemit := emitLoop_all (iterOrder st.host_map) st.res_list
      (fun kv hkv => by
        obtain ⟨h, t, w, _, _, _, hb⟩ := hbucket kv (hperm.mem_iff.mp hkv)
        exact ⟨_, hb⟩)
    refine ⟨false, iterOrder st.host_map, ?_, ?_, ?_⟩
    · rw [hemit, h1]
      simp
    · intro kv hkv
      exact hbucket kv (hperm.mem_iff.mp hkv)
    · intro h n t hm
      obtain ⟨v, a, b⟩ := h4 h n t hm
      exact ⟨v, hperm.mem_iff.mpr a, b⟩

/-- A name that is plain or `head + number + tail` is a literal to the expansion. -/
theorem ParseHostList_item (it : HostItem) (hit : it.ok) :
    ParseHostList it.name [] = some (true, [it.name]) := by
  have := ParseHostList_literal it.name [] (by
    cases it with
    | plain x =>
      intro c hc
      exact ⟨(hit.2 c hc).2.1, (hit.2 c hc).2.2.1, (hit.2 c hc).2.2.2.1, (hit.2 c hc).2.2.2.2⟩
    | numbered h n t =>
      obtain ⟨hh, hh2, hn, ht⟩ := hit
      intro c hc
      simp only [HostItem.name, List.mem_append] at hc
      rcases hc with hc | hc | hc
      · exact ⟨(hh.2 c hc).2.1, (hh.2 c hc).2.2.1, (hh2 c hc).1, (hh2 c hc).2⟩
      · have hd := hn.1.2 c hc
        exact ⟨digit_ne hd (by decide), digit_ne hd (by decide), digit_ne hd (by decide),
          digit_not_space hd⟩
      · exact isDotTail_chars ht c hc)
  simpa using this

/-! ## `ParseHostList` on input without brackets -/

theorem StrSplit_mem_chars (isDelim : Char → Bool) : ∀ (s : Str),
    ∀ p ∈ StrSplit isDelim s, ∀ c ∈ p, c ∈ s ∧ isDelim c = false
  | [] => by
    intro p hp c hc
    simp only [StrSplit, List.mem_singleton] at hp
    subst hp
    simp at hc
  | d :: cs => by
    intro p hp c hc
    have ih := StrSplit_mem_chars isDelim cs
    by_cases hd : isDelim d = true
    · simp only [StrSplit, hd, if_true, List.mem_cons] at hp
      rcases hp with rfl | hp
      · simp at hc
      · exact ⟨List.mem_cons_of_mem _ (ih p hp c hc).1, (ih p hp c hc).2⟩
    · cases hs : StrSplit isDelim cs with
      | nil => exact absurd hs (StrSplit_ne_nil isDelim cs)
      | cons q qs =>
        simp only [StrSplit, hd, Bool.false_eq_true, if_false, hs, List.mem_cons] at hp
        rcases hp with rfl | hp
        · rcases List.mem_cons.mp hc with rfl | hc
          · exact ⟨List.mem_cons_self _ _, by simpa using hd⟩
          · have := ih q (by rw [hs]; exact List.mem_cons_self _ _) c hc
            exact ⟨List.mem_cons_of_mem _ this.1, this.2⟩
        · have := ih p (by rw [hs]; exact List.mem_cons_of_mem _ hp) c hc
          exact ⟨List.mem_cons_of_mem _ this.1, this.2⟩

/-- Splitting at commas gives one piece more than there are commas. -/
theorem StrSplit_comma_length : ∀ (s : Str),
    (StrSplit (fun c => c == ',') s).length = s.count ',' + 1
  | [] => by simp [StrSplit]
  | d :: cs => by
    have ih := StrSplit_comma_length cs
    by_cases hd : d = ','
    · subst hd
      simp [StrSplit, ih]
    · cases hs : StrSplit (fun c => c == ',') cs with
      | nil => exact absurd hs (StrSplit_ne_nil _ cs)
      | cons q qs =>
        rw [hs] at ih
        simp only [StrSplit, beq_iff_eq, hd, if_false, hs, List.length_cons]
        rw [List.count_cons_of_ne (Ne.symm hd)]
        simpa using ih

/-- The pieces of a text split at commas, joined with commas, are the text. -/
theorem commaJoin_StrSplit : ∀ (s : Str), commaJoin (StrSplit (fun c => c == ',') s) = s
  | [] => by simp [StrSplit, commaJoin]
  | d :: cs => by
    have ih := commaJoin_StrSplit cs
    by_cases hd : d = ','
    · subst hd
      cases hs : StrSplit (fun c => c == ',') cs with
      | nil => exact absurd hs (StrSplit_ne_nil _ cs)
      | cons q qs =>
        rw [hs] at ih
        simp [StrSplit, hs, commaJoin, ih]
    · cases hs : StrSplit (fun c => c == ',') cs with
      | nil => exact absurd hs (StrSplit_ne_nil _ cs)
      | cons q qs =>
        rw [hs] at ih
        simp only [StrSplit, beq_iff_eq, hd, if_false, hs]
        cases qs with
        | nil =>
          simp only [commaJoin] at ih ⊢
          rw [ih]
        | cons r rs =>
          simp only [commaJoin, List.cons_append] at ih ⊢
          rw [ih]

/-- The splitting loop over text without brackets cuts at the commas. -/
theorem splitLoop_plain : ∀ (s : Str) (st : SplitState), st.char_queue = [] →
    (∀ c ∈ s, c ≠ '[' ∧ c ≠ ']') →
      ∃ p ps, StrSplit (fun c => c == ',') s = p :: ps ∧
        splitLoop (s ++ [',']) st =
          some { name_meta := [], str_list := st.str_list ++ (st.name_meta ++ p) :: ps,
                 char_queue := [] }
  | [], st => by
    intro hq _
    refine ⟨[], [], rfl, ?_⟩
    simp [splitLoop, splitStep, hq]
  | d :: cs, ⟨nm, sl, cq⟩ => by
    intro hq hs
    simp only at hq
    subst hq
    obtain ⟨h1, h2⟩ := hs d (List.mem_cons_self _ _)
    have hcs : ∀ c ∈ cs, c ≠ '[' ∧ c ≠ ']' := fun c hc => hs c (List.mem_cons_of_mem _ hc)
    by_cases hd : d = ','
    · subst hd
      obtain ⟨p, ps, e1, e2⟩ := splitLoop_plain cs
        { name_meta := [], str_list := sl ++ [nm], char_queue := [] } rfl hcs
      refine ⟨[], p :: ps, by simp [StrSplit, e1], ?_⟩
      rw [List.cons_append, splitLoop]
      simp only [splitStep, h1, h2, if_false, if_true]
      rw [e2]
      simp
    · obtain ⟨p, ps, e1, e2⟩ := splitLoop_plain cs
        { name_meta := nm ++ [d], str_list := sl, char_queue := [] } rfl hcs
      refine ⟨d :: p, ps, by simp [StrSplit, hd, e1], ?_⟩
      rw [List.cons_append, splitLoop]
      simp only [splitStep, h1, h2, hd, if_false, if_true]
      rw [e2]
      simp

/-- The loop over tokens without `[` and without white space appends them as they are. -/
theorem tokenLoop_plain : ∀ (toks host_list : List Str),
    (∀ t ∈ toks, ∀ c ∈ t, c ≠ '[' ∧ isSpace c = false) →
      tokenLoop toks host_list = some (true, host_list ++ toks)
  | [], host_list => by intro _; simp [tokenLoop]
  | t :: rest, host_list => by
    intro h
    have ht := h t (List.mem_cons_self _ _)
    have hstrip := Strip_nospace t (fun c hc => (ht c hc).2)
    have hm : RE2.FullMatch t regex = false := by
      rw [Bool.eq_false_iff]
      intro hh
      obtain ⟨a, b, z, rfl, _⟩ := (FullMatch_regex t).mp hh
      exact (ht '[' (by simp)).1 rfl
    rw [tokenLoop]
    simp only [hstrip, hm, Bool.not_false, if_true]
    rw [tokenLoop_plain rest _ (fun x hx => h x (List.mem_cons_of_mem _ hx))]
    simp

/-- **C20.** Bracket-free input is a plain comma split that keeps empty tokens: on an input
without `[`, `]` and white space `ParseHostList` succeeds and appends exactly the pieces
between the commas, in order, empty ones included. The pieces have no comma, joined with
commas they are the input, and there is one more of them than there are commas. -/
theorem ParseHostList_bracket_free (host_str : Str) (host_list : List Str)
    (h : ∀ c ∈ host_str, c ≠ '[' ∧ c ≠ ']' ∧ isSpace c = false) :
    ParseHostList host_str host_list =
        some (true, host_list ++ StrSplit (fun c => c == ',') host_str) ∧
      (∀ p ∈ StrSplit (fun c => c == ',') host_str, ',' ∉ p) ∧
      commaJoin (StrSplit (fun c => c == ',') host_str) = host_str ∧
      (StrSplit (fun c => c == ',') host_str).length = host_str.count ',' + 1 := by
  refine ⟨?_, ?_, commaJoin_StrSplit host_str, StrSplit_comma_length host_str⟩
  · have hfilter : host_str.filter (fun i => i != ' ') = host_str := by
      rw [List.filter_eq_self]
      intro c hc
      simpa using (not_space_ne (h c hc).2.2).1
    obtain ⟨p, ps, e1, e2⟩ := splitLoop_plain host_str
      { name_meta := [], str_list := [], char_queue := [] } rfl
      (fun c hc => ⟨(h c hc).1, (h c hc).2.1⟩)
    have htok : ∀ t ∈ StrSplit (fun c => c == ',') host_str,
        ∀ c ∈ t, c ≠ '[' ∧ isSpace c = false := by
      intro t ht c hc
      have := (StrSplit_mem_chars _ host_str t ht c hc).1
      exact ⟨(h c this).1, (h c this).2.2⟩
    simp only [ParseHostList, hfilter, e2, ne_eq, not_true_eq_false, if_false,
      List.nil_append]
    rw [← e1]
    exact tokenLoop_plain _ host_list htok
  · intro p hp hc
    have := (StrSplit_mem_chars _ host_str p hp ',' hc).2
    simp at this

set_option maxRecDepth 100000 in
/-- The input `a,,b,` gives four names, and the empty input gives one empty name. -/
theorem ParseHostList_bracket_free_witness :
    (∀ c ∈ "a,,b,".toList, c ≠ '[' ∧ c ≠ ']' ∧ isSpace c = false) ∧
    (ParseHostList "a,,b,".toList [] =
        some (true, [] ++ StrSplit (fun c => c == ',') "a,,b,".toList) ∧
      (∀ p ∈ StrSplit (fun c => c == ',') "a,,b,".toList, ',' ∉ p) ∧
      commaJoin (StrSplit (fun c => c == ',') "a,,b,".toList) = "a,,b,".toList ∧
      (StrSplit (fun c => c == ',') "a,,b,".toList).length = "a,,b,".toList.count ',' + 1) ∧
    StrSplit (fun c => c == ',') "a,,b,".toList = ["a".toList, [], "b".toList, []] ∧
    ParseHostList [] [] = some (true, [[]]) :=
  ⟨by decide, ParseHostList_bracket_free "a,,b,".toList [] (by decide), by decide, by decide⟩

/-! ## `FoundFirstNumberWithoutBrackets`: where the run is -/

/-- The scan passes over text without a digit at depth zero and keeps count of the depth. -/
theorem foundLoop_skip : ∀ (pre rest : Str) (depth : Int) (opens opens2 i : Nat),
    (opens : Int) = depth % 2 ^ 64 → depth.natAbs + pre.length < 2 ^ 64 →
    hasDigitOutsideFrom depth pre = false → (opens2 : Int) = depthAfter depth pre % 2 ^ 64 →
      foundLoop (pre ++ rest) opens 0 i = foundLoop rest opens2 0 (i + pre.length)
  | [], rest, depth, opens, opens2, i => by
    intro ho _ _ h2
    simp only [depthAfter] at h2
    have : opens = opens2 := by omega
    simp [this]
  | c :: cs, rest, depth, opens, opens2, i => by
    intro ho hl hd h2
    simp only [List.length_cons] at hl
    simp only [hasDigitOutsideFrom] at hd
    simp only [depthAfter] at h2
    have hi : i + (c :: cs).length = i + 1 + cs.length := by simp only [List.length_cons]; omega
    rw [List.cons_append, foundLoop, hi]
    by_cases h1 : c = '['
    · simp only [h1, if_true] at hd h2 ⊢
      exact foundLoop_skip cs rest (depth + 1) _ _ _ (by push_cast; omega) (by omega) hd h2
    · by_cases h3 : c = ']'
      · simp only [h1, h3, if_true, if_false] at hd h2 ⊢
        exact foundLoop_skip cs rest (depth - 1) _ _ _ (by push_cast; omega) (by omega) hd h2
      · simp only [h1, h3, if_false, Bool.or_eq_false_iff, Bool.and_eq_false_imp,
          decide_eq_true_eq] at hd h2 ⊢
        by_cases h4 : opens = 0
        · have hz : depth = 0 := by subst h4; omega
          have hc := hd.1 hz
          simp only [h4, if_true, hc, Bool.false_eq_true, and_false, if_false, ne_eq,
            not_true_eq_false, false_and]
          exact foundLoop_skip cs rest depth 0 _ _ (by rw [← h4]; exact ho) (by omega) hd.2 h2
        · simp only [h4, if_false]
          exact foundLoop_skip cs rest depth opens _ _ ho (by omega) hd.2 h2

/-- The scan over the digits of a run that has begun, up to a character that is neither a
digit nor a bracket. -/
theorem foundLoop_digits_stop : ∀ (n : Str) (c : Char) (r : Str) (start i : Nat), start ≠ 0 →
    (∀ x ∈ n, x.isDigit = true) → c.isDigit = false → c ≠ '[' → c ≠ ']' →
      foundLoop (n ++ c :: r) 0 start i = (true, start, i + n.length)
  | [], c, r, start, i => by
    intro hs _ h1 h2 h3
    rw [List.nil_append, foundLoop]
    simp [hs, h1, h2, h3]
  | d :: ds, c, r, start, i => by
    intro hs hn hc1 hc2 hc3
    have h1 := hn d (List.mem_cons_self _ _)
    have h2 : d ≠ '[' := digit_ne h1 (by decide)
    have h3 : d ≠ ']' := digit_ne h1 (by decide)
    rw [List.cons_append, foundLoop]
    simp only [h1, h2, h3, hs, if_false, if_true, false_and, Bool.true_eq_false, and_false]
    rw [foundLoop_digits_stop ds c r start (i + 1) hs
      (fun x hx => hn x (List.mem_cons_of_mem _ hx)) hc1 hc2 hc3]
    simp only [List.length_cons]
    congr 2
    omega

/-- Where the scan is right: when the first digit at depth zero is not the first character
of the text, and the digits after it are followed by the end of the text or by a character
that is not a bracket, the run is reported as it stands. -/
theorem Found_run (pre n rest : Str) (hpre : pre ≠ []) (hl : pre.length < 2 ^ 64)
    (hd : hasDigitOutsideBrackets pre = false) (hz : depthAfter 0 pre = 0)
    (hn : isDigitStr n)
    (hrest : rest = [] ∨ ∃ c r, rest = c :: r ∧ c.isDigit = false ∧ c ≠ '[' ∧ c ≠ ']') :
    FoundFirstNumberWithoutBrackets (pre ++ (n ++ rest)) =
      (true, pre.length, pre.length + n.length) := by
  obtain ⟨hne, hdig⟩ := hn
  have hskip := foundLoop_skip pre (n ++ rest) 0 0 0 0 (by simp) (by simpa using hl) hd
    (by rw [hz]; simp)
  rw [FoundFirstNumberWithoutBrackets, hskip, Nat.zero_add]
  cases n with
  | nil => exact absurd rfl hne
  | cons d ds =>
    have h1 := hdig d (List.mem_cons_self _ _)
    have h2 : d ≠ '[' := digit_ne h1 (by decide)
    have h3 : d ≠ ']' := digit_ne h1 (by decide)
    have hp : pre.length ≠ 0 := by
      intro h
      exact hpre (List.length_eq_zero.mp h)
    have hds : ∀ x ∈ ds, x.isDigit = true := fun x hx => hdig x (List.mem_cons_of_mem _ hx)
    rw [List.cons_append, foundLoop]
    simp only [h1, h2, h3, if_false, if_true, and_self]
    rcases hrest with rfl | ⟨c, r, rfl, hc1, hc2, hc3⟩
    · rw [List.append_nil, foundLoop_digits ds _ _ hp hds]
      simp only [List.length_cons]
      congr 2
      omega
    · rw [foundLoop_digits_stop ds c r _ _ hp hds hc1 hc2 hc3]
      simp only [List.length_cons]
      congr 2
      omega

set_option maxRecDepth 100000 in
/-- **C16**, the code is at fault: index 0 doubles as "no run yet", and a bracket does not
end a run. In `1a` the digit at index 0 is at depth zero and nothing is found; in `12a` the
run is reported from index 1; in `a1[2]b` the run `1` at index 1 is reported up to index 5,
so the reported text is `1[2]`. -/
theorem Found_wrong_run :
    hasDigitOutsideBrackets "1a".toList = true ∧
    FoundFirstNumberWithoutBrackets "1a".toList = (false, 0, 0) ∧
    FoundFirstNumberWithoutBrackets "12a".toList = (true, 1, 2) ∧
    FoundFirstNumberWithoutBrackets "a1[2]b".toList = (true, 1, 5) ∧
    (("a1[2]b".toList.drop 1).take (5 - 1)) = "1[2]".toList := by
  decide

set_option maxRecDepth 100000 in
/-- **C17**, refuted as stated: in `cn01` the first digit run at depth zero goes on to the
end of the text, and it is found, from index 2 to index 4. -/
theorem Found_end_run_reported :
    FoundFirstNumberWithoutBrackets "cn01".toList = (true, 2, 4) ∧
    FoundFirstNumberWithoutBrackets "cn01".toList ≠ (false, 0, 0) := by
  decide

/-- **C17**, amended. A run that reaches the end of the text is found: for every text made
of a non-empty part without a digit at depth zero that ends at depth zero, followed by
digits up to the end, `FoundFirstNumberWithoutBrackets` returns `true`, the start is the
index of the first of these digits and the end is the length of the text. -/
theorem Found_run_at_end (pre n : Str) (hpre : pre ≠ []) (hl : pre.length < 2 ^ 64)
    (hd : hasDigitOutsideBrackets pre = false) (hz : depthAfter 0 pre = 0)
    (hn : isDigitStr n) :
    FoundFirstNumberWithoutBrackets (pre ++ n) = (true, pre.length, (pre ++ n).length) := by
  have h := Found_run pre n [] hpre hl hd hz hn (Or.inl rfl)
  rw [List.append_nil] at h
  rw [h, List.length_append]

set_option maxRecDepth 100000 in
/-- The text `a[1]b02`: the run `02` after the group `[1]` is found, from index 5 to the
end. -/
theorem Found_run_at_end_witness :
    FoundFirstNumberWithoutBrackets ("a[1]b".toList ++ "02".toList) =
      (true, "a[1]b".toList.length, ("a[1]b".toList ++ "02".toList).length) ∧
    "a[1]b".toList.length = 5 :=
  ⟨Found_run_at_end "a[1]b".toList "02".toList (by decide) (by decide) (by decide) (by decide)
    (by decide), by decide⟩

/-! ## `ParseNodeList` on tokens with several bracket groups -/

theorem HostUnit.ok_expands {u : HostUnit} (hu : u.ok) : u.expands := by
  cases u with
  | num d => exact hu
  | range a b =>
    obtain ⟨ha, hb, hab, hb2⟩ := hu
    exact ⟨ha, hb, by omega, hb2⟩

theorem HostUnit.expands_wf {u : HostUnit} (hu : u.expands) : u.wf := by
  cases u with
  | num d => exact hu
  | range a b => exact ⟨hu.1, hu.2.1⟩

theorem HostGroup.ok_wf {g : HostGroup} (hg : g.ok) : g.wf :=
  ⟨hg.1, hg.2.1, fun u hu => HostUnit.expands_wf (hg.2.2 u hu)⟩

theorem HostUnit.wf_chars {u : HostUnit} (hu : u.wf) :
    ∀ c ∈ u.text, c.isDigit = true ∨ c = '-' := by
  intro c hc
  cases u with
  | num d => exact Or.inl (hu.2 c hc)
  | range a b =>
    obtain ⟨ha, hb⟩ := hu
    simp only [HostUnit.text, List.mem_append, List.mem_cons] at hc
    rcases hc with h | h | h
    · exact Or.inl (ha.2 c h)
    · exact Or.inr h
    · exact Or.inl (hb.2 c h)

theorem groupText_wf_chars : ∀ (us : List HostUnit), (∀ u ∈ us, u.wf) →
    ∀ c ∈ groupText us, c.isDigit = true ∨ c = '-' ∨ c = ','
  | [], _ => by simp [groupText]
  | [u], h => by
    intro c hc
    rcases HostUnit.wf_chars (h u (List.mem_cons_self _ _)) c hc with h1 | h1
    · exact Or.inl h1
    · exact Or.inr (Or.inl h1)
  | u :: v :: rest, h => by
    intro c hc
    simp only [groupText, List.mem_append, List.mem_cons] at hc
    rcases hc with h1 | h1 | h1
    · rcases HostUnit.wf_chars (h u (List.mem_cons_self _ _)) c h1 with h2 | h2
      · exact Or.inl h2
      · exact Or.inr (Or.inl h2)
    · exact Or.inr (Or.inr h1)
    · exact groupText_wf_chars (v :: rest)
        (fun x hx => h x (List.mem_cons_of_mem _ hx)) c h1

/-- The text of a group has no bracket, no white space and no line break. -/
theorem groupText_wf_plain (us : List HostUnit) (h : ∀ u ∈ us, u.wf) :
    ∀ c ∈ groupText us, c ≠ '[' ∧ c ≠ ']' ∧ c ≠ '\n' ∧ isSpace c = false := by
  intro c hc
  rcases groupText_wf_chars us h c hc with h1 | h1 | h1
  · exact ⟨digit_ne h1 (by decide), digit_ne h1 (by decide), digit_ne h1 (by decide),
      digit_not_space h1⟩
  · subst h1; decide
  · subst h1; decide

/-- Splitting the text of a group at `[` and `,` gives its units. -/
theorem StrSplit_groupText_wf : ∀ (us : List HostUnit), us ≠ [] →
    (∀ u ∈ us, u.wf) →
    StrSplit (fun c => c == '[' || c == ',') (groupText us) = us.map HostUnit.text
  | [], h, _ => absurd rfl h
  | [u], _, h => by
    simp only [groupText, List.map_cons, List.map_nil]
    apply StrSplit_plain
    intro c hc
    rcases HostUnit.wf_chars (h u (List.mem_cons_self _ _)) c hc with h1 | h1
    · have h2 := digit_ne h1 (show '['.isDigit = false by decide)
      have h3 := digit_ne h1 (show ','.isDigit = false by decide)
      simp [h2, h3]
    · subst h1; decide
  | u :: v :: rest, _, h => by
    simp only [groupText, List.map_cons]
    rw [StrSplit_first _ ',' _ (by decide)]
    · rw [StrSplit_groupText_wf (v :: rest) (by simp)
        (fun x hx => h x (List.mem_cons_of_mem _ hx))]
      simp
    · intro c hc
      rcases HostUnit.wf_chars (h u (List.mem_cons_self _ _)) c hc with h1 | h1
      · have h2 := digit_ne h1 (show '['.isDigit = false by decide)
        have h3 := digit_ne h1 (show ','.isDigit = false by decide)
        simp [h2, h3]
      · subst h1; decide

/-- The units of a group, read by the loop of lines 66-96; a range from a larger to a
smaller value adds nothing. -/
theorem unitLoop_expands (p : Str) : ∀ (us : List HostUnit) (unit_list : List Str),
    (∀ u ∈ us, u.expands) →
      unitLoop p (us.map HostUnit.text) unit_list =
        Step.done (unit_list ++ us.flatMap (HostUnit.names p))
  | [], unit_list, _ => by simp [unitLoop]
  | u :: us, unit_list, h => by
    have hu := h u (List.mem_cons_self _ _)
    have ih := fun l => unitLoop_expands p us l (fun x hx => h x (List.mem_cons_of_mem _ hx))
    cases u with
    | num d =>
      have hm : RE2.FullMatch d num_regex = true := (FullMatch_num_regex d).mpr hu
      simp only [List.map_cons, HostUnit.text, unitLoop, hm, if_true, ih,
        List.flatMap_cons, HostUnit.names, List.append_assoc]
    | range a b =>
      obtain ⟨ha, hb, ha2, hb2⟩ := hu
      have hn : RE2.FullMatch (a ++ '-' :: b) num_regex = false := by
        rw [Bool.eq_false_iff]
        intro hh
        have := ((FullMatch_num_regex _).mp hh).2 '-' (by simp)
        exact absurd this (by decide)
      have hs : RE2.FullMatch (a ++ '-' :: b) scope_regex = true :=
        (FullMatch_scope_regex _).mpr ⟨a, b, rfl, ha, hb⟩
      have hsplit : StrSplit (fun c => c == '-') (a ++ '-' :: b) = [a, b] := by
        rw [StrSplit_first _ '-' _ (by decide), StrSplit_plain]
        · intro c hc
          simpa using digit_ne (hb.2 c hc) (show '-'.isDigit = false by decide)
        · intro c hc
          simpa using digit_ne (ha.2 c hc) (show '-'.isDigit = false by decide)
      have hfa : from_chars a = some (digitsVal a) := from_chars_digits ha ha2
      have hfb : from_chars b = some (digitsVal b) := from_chars_digits hb (by omega)
      have hr : ∀ l, rangeUnits p a.length (digitsVal a) (digitsVal b) l =
          Step.done (l ++ (HostUnit.range a b).names p) := by
        intro l
        have : digitsVal b ≠ 2 ^ 64 - 1 := by omega
        rw [rangeUnits, if_neg this]
        rfl
      simp only [List.map_cons, HostUnit.text, unitLoop, hn, hs, hsplit, List.getD_cons_zero,
        List.getD_cons_succ, hfa, hfb, hr, ih, List.flatMap_cons, List.append_assoc,
        Bool.false_eq_true, if_false, if_true]

/-- The accumulated names crossed with the unit lists of the groups still to come. -/
theorem foldl_crossProduct : ∀ (ls : List (List Str)) (acc : List Str),
    ls.foldl crossProduct acc =
      acc.flatMap (fun a => (cartesian ls).map (fun y => a ++ y))
  | [], acc => by simp [cartesian]
  | l :: ls, acc => by
    rw [List.foldl_cons, foldl_crossProduct ls]
    simp only [crossProduct, cartesian, List.flatMap_assoc, List.map_flatMap,
      List.flatMap_map, List.map_map, Function.comp_def, List.append_assoc]

theorem cartesian_eq_foldl (ls : List (List Str)) :
    cartesian ls = ls.foldl crossProduct [[]] := by
  rw [foldl_crossProduct]
  simp

/-- The number of concatenations is the product of the lengths of the lists. -/
theorem cartesian_length : ∀ (ls : List (List Str)),
    (cartesian ls).length = (ls.map List.length).prod
  | [] => by simp [cartesian]
  | l :: ls => by
    simp only [cartesian, List.length_flatMap, Function.comp_def, List.length_map,
      cartesian_length ls, List.map_cons, List.prod_cons, List.map_const', List.sum_replicate,
      smul_eq_mul]

/-- With an empty list among them there is no concatenation. -/
theorem cartesian_nil_mem : ∀ (ls : List (List Str)), [] ∈ ls → cartesian ls = []
  | [], h => by simp at h
  | l :: ls, h => by
    rcases List.mem_cons.mp h with h1 | h1
    · subst h1
      simp [cartesian]
    · simp [cartesian, cartesian_nil_mem ls h1]

theorem tokenText_cons (g : HostGroup) (gs : List HostGroup) (suffix : Str) :
    tokenText (g :: gs) suffix =
      (g.head ++ '[' :: groupText g.units) ++ ']' :: tokenText gs suffix := by
  simp [tokenText, HostGroup.text]

/-- Splitting a token at `]` gives the groups without their closing bracket, then the
suffix. -/
theorem StrSplit_tokenText (suffix : Str) (hs : ']' ∉ suffix) : ∀ (groups : List HostGroup),
    (∀ g ∈ groups, g.wf) →
      StrSplit (fun c => c == ']') (tokenText groups suffix) =
        groups.map (fun g => g.head ++ '[' :: groupText g.units) ++ [suffix]
  | [], _ => by
    simp only [tokenText, List.map_nil, List.flatten_nil, List.nil_append]
    apply StrSplit_plain
    intro c hc
    have : c ≠ ']' := fun h => hs (h ▸ hc)
    simpa using this
  | g :: gs, h => by
    obtain ⟨hh, _, hu⟩ := h g (List.mem_cons_self _ _)
    rw [tokenText_cons, StrSplit_first _ ']' _ (by decide),
      StrSplit_tokenText suffix hs gs (fun x hx => h x (List.mem_cons_of_mem _ hx))]
    · simp
    · intro c hc
      simp only [List.mem_append, List.mem_cons] at hc
      rcases hc with h1 | h1 | h1
      · simpa using (hh c h1).2.1
      · subst h1; decide
      · simpa using (groupText_wf_plain g.units hu c h1).2.1

/-- The loop over the fragments of a token crosses the unit lists of its groups in order. -/
theorem fragLoop_groups : ∀ (groups : List HostGroup) (res_list : List Str),
    (∀ g ∈ groups, g.ok) →
      fragLoop (groups.map (fun g => g.head ++ '[' :: groupText g.units)) res_list =
        Step.done ((groups.map HostGroup.names).foldl crossProduct res_list)
  | [], res_list, _ => by simp [fragLoop]
  | g :: gs, res_list, h => by
    obtain ⟨hh, hne, hu⟩ := h g (List.mem_cons_self _ _)
    have hsplit : StrSplit (fun c => c == '[' || c == ',') (g.head ++ '[' :: groupText g.units) =
        g.head :: g.units.map HostUnit.text := by
      rw [StrSplit_first _ '[' _ (by decide), StrSplit_groupText_wf g.units hne
        (fun u hx => HostUnit.expands_wf (hu u hx))]
      intro c hc
      have := hh c hc
      simp [this.1, this.2.2]
    simp only [List.map_cons, fragLoop, hsplit, List.headD_cons, List.tail_cons,
      unitLoop_expands g.head g.units [] hu, List.nil_append, List.foldl_cons]
    exact fragLoop_groups gs _ (fun x hx => h x (List.mem_cons_of_mem _ hx))

theorem PartialMatch_tokenText (g : HostGroup) (gs : List HostGroup) (suffix : Str)
    (hg : g.wf) : RE2.PartialMatch (tokenText (g :: gs) suffix) brackets_regex = true := by
  rw [PartialMatch_brackets_regex]
  refine ⟨g.head, groupText g.units, tokenText gs suffix, ?_, ?_⟩
  · rw [tokenText_cons]
    simp
  · intro c hc
    exact (groupText_wf_plain g.units hg.2.2 c hc).2.2.1

/-- `ParseNodeList` on a token of one or more groups and a suffix without `]`: success, and
the appended names are the concatenations of one entry of each group's unit list, in the
order of `cartesian`, each followed by the suffix. -/
theorem ParseNodeList_token (groups : List HostGroup) (suffix : Str) (nodelist : List Str)
    (hne : groups ≠ []) (hok : ∀ g ∈ groups, g.ok) (hs : ']' ∉ suffix) :
    ParseNodeList (tokenText groups suffix) nodelist =
      some (true, nodelist ++
        (cartesian (groups.map HostGroup.names)).map (fun x => x ++ suffix)) := by
  cases groups with
  | nil => exact absurd rfl hne
  | cons g gs =>
    have hpm := PartialMatch_tokenText g gs suffix
      (HostGroup.ok_wf (hok g (List.mem_cons_self _ _)))
    have hsplit := StrSplit_tokenText suffix hs (g :: gs)
      (fun x hx => HostGroup.ok_wf (hok x hx))
    have hfrag := fragLoop_groups (g :: gs) [[]] hok
    simp only [ParseNodeList, hpm, Bool.not_true, Bool.false_eq_true, if_false, hsplit,
      List.dropLast_concat, hfrag, List.getLastD_concat, ← cartesian_eq_foldl]
    cases suffix with
    | nil => simp
    | cons c cs => simp

/-- `from_chars` on a digit string whose value does not fit 64 bits. -/
theorem from_chars_large {d : Str} (h : isDigitStr d) (hv : ¬ digitsVal d < 2 ^ 64) :
    from_chars d = none := by
  simp only [from_chars, takeWhile_digits h.2, h.1, if_false, hv]

/-- When the loop over well-formed units comes to its end, every unit was one that the
expansion reads to its end. -/
theorem unitLoop_done_expands (p : Str) : ∀ (us : List HostUnit) (unit_list r : List Str),
    (∀ u ∈ us, u.wf) → unitLoop p (us.map HostUnit.text) unit_list = Step.done r →
      ∀ u ∈ us, u.expands
  | [], _, _, _, _ => by simp
  | u :: us, unit_list, r, h, hd => by
    have hu := h u (List.mem_cons_self _ _)
    have ih := fun l hl => unitLoop_done_expands p us l r
      (fun x hx => h x (List.mem_cons_of_mem _ hx)) hl
    cases u with
    | num d =>
      have hm : RE2.FullMatch d num_regex = true := (FullMatch_num_regex d).mpr hu
      simp only [List.map_cons, HostUnit.text, unitLoop, hm, if_true] at hd
      intro x hx
      rcases List.mem_cons.mp hx with rfl | hx
      · exact hu
      · exact ih _ hd x hx
    | range a b =>
      obtain ⟨ha, hb⟩ := hu
      have hn : RE2.FullMatch (a ++ '-' :: b) num_regex = false := by
        rw [Bool.eq_false_iff]
        intro hh
        have := ((FullMatch_num_regex _).mp hh).2 '-' (by simp)
        exact absurd this (by decide)
      have hs : RE2.FullMatch (a ++ '-' :: b) scope_regex = true :=
        (FullMatch_scope_regex _).mpr ⟨a, b, rfl, ha, hb⟩
      have hsplit : StrSplit (fun c => c == '-') (a ++ '-' :: b) = [a, b] := by
        rw [StrSplit_first _ '-' _ (by decide), StrSplit_plain]
        · intro c hc
          simpa using digit_ne (hb.2 c hc) (show '-'.isDigit = false by decide)
        · intro c hc
          simpa using digit_ne (ha.2 c hc) (show '-'.isDigit = false by decide)
      simp only [List.map_cons, HostUnit.text, unitLoop, hn, hs, hsplit, List.getD_cons_zero,
        List.getD_cons_succ, Bool.false_eq_true, if_false, if_true] at hd
      by_cases ha2 : digitsVal a < 2 ^ 64
      · by_cases hb2 : digitsVal b < 2 ^ 64
        · rw [from_chars_digits ha ha2, from_chars_digits hb hb2] at hd
          simp only [rangeUnits] at hd
          by_cases hb3 : digitsVal b = 2 ^ 64 - 1
          · simp [hb3] at hd
          · simp only [hb3, if_false] at hd
            intro x hx
            rcases List.mem_cons.mp hx with rfl | hx
            · exact ⟨ha, hb, ha2, by omega⟩
            · exact ih _ hd x hx
        · rw [from_chars_digits ha ha2, from_chars_large hb hb2] at hd
          simp at hd
      · rw [from_chars_large ha ha2] at hd
        simp at hd

/-- When the loop over the fragments of a well-formed token comes to its end, every unit
was one that the expansion reads to its end. -/
theorem fragLoop_done_ok : ∀ (groups : List HostGroup) (res_list r : List Str),
    (∀ g ∈ groups, g.wf) →
    fragLoop (groups.map (fun g => g.head ++ '[' :: groupText g.units)) res_list =
      Step.done r → ∀ g ∈ groups, g.ok
  | [], _, _, _, _ => by simp
  | g :: gs, res_list, r, h, hd => by
    obtain ⟨hh, hne, hu⟩ := h g (List.mem_cons_self _ _)
    have hsplit : StrSplit (fun c => c == '[' || c == ',') (g.head ++ '[' :: groupText g.units) =
        g.head :: g.units.map HostUnit.text := by
      rw [StrSplit_first _ '[' _ (by decide), StrSplit_groupText_wf g.units hne hu]
      intro c hc
      have := hh c hc
      simp [this.1, this.2.2]
    simp only [List.map_cons, fragLoop, hsplit, List.headD_cons, List.tail_cons] at hd
    cases hul : unitLoop g.head (g.units.map HostUnit.text) [] with
    | retFalse => simp [hul] at hd
    | hang => simp [hul] at hd
    | done ul =>
      simp only [hul] at hd
      intro x hx
      rcases List.mem_cons.mp hx with rfl | hx
      · exact ⟨hh, hne, unitLoop_done_expands _ _ _ _ hu hul⟩
      · exact fragLoop_done_ok gs _ r (fun y hy => h y (List.mem_cons_of_mem _ hy)) hd x hx

/-- `ParseNodeList` accepts a well-formed token exactly when every unit is one that the
expansion reads to its end, and the list it leaves is then the old one followed by the
concatenations in the order of `cartesian`. -/
theorem ParseNodeList_token_iff (groups : List HostGroup) (suffix : Str)
    (nodelist L : List Str) (hne : groups ≠ []) (hwf : ∀ g ∈ groups, g.wf)
    (hs : ']' ∉ suffix) :
    ParseNodeList (tokenText groups suffix) nodelist = some (true, L) ↔
      (∀ g ∈ groups, g.ok) ∧
        L = nodelist ++ (cartesian (groups.map HostGroup.names)).map (fun x => x ++ suffix) := by
  have hpm : RE2.PartialMatch (tokenText groups suffix) brackets_regex = true := by
    cases groups with
    | nil => exact absurd rfl hne
    | cons g gs => exact PartialMatch_tokenText g gs suffix (hwf g (List.mem_cons_self _ _))
  by_cases hall : ∀ g ∈ groups, g.ok
  · rw [ParseNodeList_token groups suffix nodelist hne hall hs]
    simp only [Option.some.injEq, Prod.mk.injEq, true_and]
    exact ⟨fun h => ⟨hall, h.symm⟩, fun h => h.2.symm⟩
  · constructor
    · intro hp
      exfalso
      apply hall
      have hsplit := StrSplit_tokenText suffix hs groups hwf
      simp only [ParseNodeList, hpm, Bool.not_true, Bool.false_eq_true, if_false, hsplit,
        List.dropLast_concat] at hp
      cases hfl : fragLoop (groups.map (fun g => g.head ++ '[' :: groupText g.units)) [[]] with
      | retFalse => simp [hfl] at hp
      | hang => simp [hfl] at hp
      | done r => exact fragLoop_done_ok groups _ r hwf hfl
    · intro hp
      exact absurd hp.1 hall

/-! ## `ParseHostList` on one token with bracket groups -/

/-- The splitting loop over a group keeps it in the token. -/
theorem splitLoop_group (g : HostGroup) (hg : g.wf) (rest : Str) (st : SplitState)
    (hq : st.char_queue = []) :
    splitLoop (g.text ++ rest) st =
      splitLoop rest { st with name_meta := st.name_meta ++ g.text } := by
  obtain ⟨nm, sl, cq⟩ := st
  simp only at hq
  subst hq
  obtain ⟨hh, _, hu⟩ := hg
  have hb : ∀ c ∈ groupText g.units, c ≠ '[' ∧ c ≠ ']' := fun c hc =>
    ⟨(groupText_wf_plain g.units hu c hc).1, (groupText_wf_plain g.units hu c hc).2.1⟩
  rw [HostGroup.text, List.append_assoc, splitLoop_literal g.head _ _ rfl hh]
  rw [List.cons_append, splitLoop]
  simp only [splitStep, if_true, List.nil_append]
  rw [List.append_assoc, splitLoop_inside (groupText g.units) _ _ (by simp) hb]
  rw [List.singleton_append, splitLoop]
  simp only [splitStep, show ¬ (']' = '[') by decide, if_false, if_true,
    show ¬ (['['] ++ groupText g.units = []) by simp]
  simp

/-- The splitting loop over the groups of a token keeps them in the token. -/
theorem splitLoop_groups : ∀ (groups : List HostGroup) (rest : Str) (st : SplitState),
    (∀ g ∈ groups, g.wf) → st.char_queue = [] →
      splitLoop ((groups.map HostGroup.text).flatten ++ rest) st =
        splitLoop rest { st with name_meta := st.name_meta ++ (groups.map HostGroup.text).flatten }
  | [], rest, st, _, _ => by simp
  | g :: gs, rest, ⟨nm, sl, cq⟩, h, hq => by
    simp only at hq
    subst hq
    rw [List.map_cons, List.flatten_cons, List.append_assoc,
      splitLoop_group g (h g (List.mem_cons_self _ _)) _ _ rfl,
      splitLoop_groups gs rest _ (fun x hx => h x (List.mem_cons_of_mem _ hx)) rfl]
    simp

/-- A token has no white space when its heads and its suffix have none. -/
theorem tokenText_nospace (suffix : Str) (hs : ∀ c ∈ suffix, isSpace c = false) :
    ∀ (groups : List HostGroup), (∀ g ∈ groups, g.wf) →
    (∀ g ∈ groups, ∀ c ∈ g.head, isSpace c = false) →
      ∀ c ∈ tokenText groups suffix, isSpace c = false
  | [], _, _ => by simpa [tokenText] using hs
  | g :: gs, h, hsp => by
    intro c hc
    rw [tokenText_cons] at hc
    simp only [List.mem_append, List.mem_cons] at hc
    rcases hc with (h1 | h1 | h1) | h1 | h1
    · exact hsp g (List.mem_cons_self _ _) c h1
    · subst h1; decide
    · exact (groupText_wf_plain g.units (h g (List.mem_cons_self _ _)).2.2 c h1).2.2.2
    · subst h1; decide
    · exact tokenText_nospace suffix hs gs (fun x hx => h x (List.mem_cons_of_mem _ hx))
        (fun x hx => hsp x (List.mem_cons_of_mem _ hx)) c h1

/-- `ParseHostList` on one token: the text of groups and a suffix without bracket, comma or
white space comes to the loop over the tokens as it is. -/
theorem ParseHostList_token_split (groups : List HostGroup) (suffix : Str)
    (host_list : List Str) (hwf : ∀ g ∈ groups, g.wf)
    (hsp : ∀ g ∈ groups, ∀ c ∈ g.head, isSpace c = false)
    (hs : ∀ c ∈ suffix, c ≠ '[' ∧ c ≠ ']' ∧ c ≠ ',' ∧ isSpace c = false) :
    ParseHostList (tokenText groups suffix) host_list =
      tokenLoop [tokenText groups suffix] host_list := by
  have hall := tokenText_nospace suffix (fun c hc => (hs c hc).2.2.2) groups hwf hsp
  have hfilter : (tokenText groups suffix).filter (fun i => i != ' ') =
      tokenText groups suffix := by
    rw [List.filter_eq_self]
    intro c hc
    simpa using (not_space_ne (hall c hc)).1
  have hsplit : splitLoop (tokenText groups suffix ++ [','])
      { name_meta := [], str_list := [], char_queue := [] } =
      some { name_meta := [], str_list := [tokenText groups suffix], char_queue := [] } := by
    rw [tokenText, List.append_assoc, splitLoop_groups groups _ _ hwf rfl,
      splitLoop_literal suffix _ _ rfl
        (fun c hc => ⟨(hs c hc).1, (hs c hc).2.1, (hs c hc).2.2.1⟩)]
    simp [splitLoop, splitStep]
  simp only [ParseHostList, hfilter, hsplit, ne_eq, not_true_eq_false, if_false]

/-- A token with a group matches the pattern of line 167 when its suffix is a dot tail. -/
theorem FullMatch_regex_token (groups : List HostGroup) (suffix : Str) (hne : groups ≠ [])
    (hwf : ∀ g ∈ groups, g.wf) (hsp : ∀ g ∈ groups, ∀ c ∈ g.head, isSpace c = false)
    (ht : isDotTail suffix) :
    RE2.FullMatch (tokenText groups suffix) regex = true := by
  rcases List.eq_nil_or_concat groups with h | ⟨gs, g, rfl⟩
  · exact absurd h hne
  · rw [List.concat_eq_append] at hwf hsp ⊢
    have hg := hwf g (by simp)
    have hx := tokenText_nospace g.head (hsp g (by simp)) gs
      (fun x hx => hwf x (by simp [hx])) (fun x hx => hsp x (by simp [hx]))
    refine (FullMatch_regex _).mpr ⟨tokenText gs g.head, groupText g.units, suffix, ?_,
      fun c hc => (not_space_ne (hx c hc)).2,
      fun c hc => (groupText_wf_plain g.units hg.2.2 c hc).2.2.1, ?_⟩
    · simp [tokenText, HostGroup.text]
    · rcases ht with rfl | ⟨r, rfl, hr⟩
      · exact Or.inl rfl
      · exact Or.inr ⟨r, rfl, fun c hc => (not_space_ne (hr c hc).2.2.2).2⟩

/-- `ParseHostList` on one token of groups and a dot tail: the token goes to
`ParseNodeList`. -/
theorem ParseHostList_token (groups : List HostGroup) (suffix : Str) (host_list : List Str)
    (hne : groups ≠ []) (hok : ∀ g ∈ groups, g.ok)
    (hsp : ∀ g ∈ groups, ∀ c ∈ g.head, isSpace c = false) (ht : isDotTail suffix) :
    ParseHostList (tokenText groups suffix) host_list =
      some (true, host_list ++
        (cartesian (groups.map HostGroup.names)).map (fun x => x ++ suffix)) := by
  have hwf : ∀ g ∈ groups, g.wf := fun g hg => HostGroup.ok_wf (hok g hg)
  have htc := isDotTail_chars ht
  have hall := tokenText_nospace suffix (fun c hc => (htc c hc).2.2.2) groups hwf hsp
  rw [ParseHostList_token_split groups suffix host_list hwf hsp htc]
  simp only [tokenLoop, Strip_nospace _ hall, FullMatch_regex_token groups suffix hne hwf hsp ht,
    Bool.not_true, Bool.false_eq_true, if_false,
    ParseNodeList_token groups suffix host_list hne hok (fun h => (htc _ h).2.1 rfl)]

/-- Two ways to cut a text at `]`, when the text has one `]` only. -/
theorem close_unique {A B s z : Str} (h : A ++ ']' :: s = B ++ ']' :: z) (hA : ']' ∉ A)
    (hs : ']' ∉ s) : z = s := by
  rcases List.append_eq_append_iff.mp h with ⟨a, rfl, h2⟩ | ⟨c, rfl, h2⟩
  · cases a with
    | nil =>
      simp only [List.nil_append, List.cons.injEq, true_and] at h2
      exact h2.symm
    | cons x a =>
      simp only [List.cons_append, List.cons.injEq] at h2
      exact absurd (h2.2 ▸ (by simp : ']' ∈ a ++ ']' :: z)) hs
  · cases c with
    | nil =>
      simp only [List.nil_append, List.cons.injEq, true_and] at h2
      exact h2
    | cons x c =>
      simp only [List.cons_append, List.cons.injEq] at h2
      obtain ⟨h3, _⟩ := h2
      subst h3
      exact absurd (by simp : ']' ∈ B ++ ']' :: c) hA

/-- A token of one group and a suffix that is not a dot tail does not match the pattern of
line 167. -/
theorem FullMatch_regex_suffix (g : HostGroup) (s : Str) (hg : g.wf)
    (hs : ∀ c ∈ s, c ≠ '[' ∧ c ≠ ']' ∧ c ≠ ',' ∧ isSpace c = false)
    (hne : s ≠ []) (hdot : s.head? ≠ some '.') :
    RE2.FullMatch (tokenText [g] s) regex = false := by
  rw [Bool.eq_false_iff]
  intro hm
  obtain ⟨x, y, z, e, _, _, hz⟩ := (FullMatch_regex _).mp hm
  have e2 : (g.head ++ '[' :: groupText g.units) ++ ']' :: s = (x ++ '[' :: y) ++ ']' :: z := by
    have e3 : (x ++ '[' :: y) ++ ']' :: z = x ++ '[' :: (y ++ ']' :: z) := by simp
    rw [e3, ← e]
    simp [tokenText, HostGroup.text]
  have hA : ']' ∉ g.head ++ '[' :: groupText g.units := by
    intro h
    simp only [List.mem_append, List.mem_cons] at h
    rcases h with h | h | h
    · exact (hg.1 _ h).2.1 rfl
    · exact absurd h (by decide)
    · exact (groupText_wf_plain g.units hg.2.2 _ h).2.1 rfl
  have hzs := close_unique e2 hA (fun h => (hs _ h).2.1 rfl)
  subst hzs
  rcases hz with rfl | ⟨t, rfl, _⟩
  · exact hne rfl
  · exact hdot rfl

/-- `ParseHostList` on one token of one group and a suffix that is not a dot tail: the token
is appended as it is. -/
theorem ParseHostList_token_suffix (g : HostGroup) (s : Str) (host_list : List Str)
    (hg : g.wf) (hsp : ∀ c ∈ g.head, isSpace c = false)
    (hs : ∀ c ∈ s, c ≠ '[' ∧ c ≠ ']' ∧ c ≠ ',' ∧ isSpace c = false)
    (hne : s ≠ []) (hdot : s.head? ≠ some '.') :
    ParseHostList (tokenText [g] s) host_list = some (true, host_list ++ [tokenText [g] s]) := by
  have hwf : ∀ x ∈ [g], x.wf := by simpa using hg
  have hsp2 : ∀ x ∈ [g], ∀ c ∈ x.head, isSpace c = false := by simpa using hsp
  have hall := tokenText_nospace s (fun c hc => (hs c hc).2.2.2) [g] hwf hsp2
  rw [ParseHostList_token_split [g] s host_list hwf hsp2 hs]
  simp only [tokenLoop, Strip_nospace _ hall, FullMatch_regex_suffix g s hg hs hne hdot,
    Bool.not_false, if_true]

/-! ## The claims on the expansion of a token -/

/-- **C12.** Cartesian expansion order. Take a token of one or more groups `head[units]`,
heads without bracket and comma, units well formed, and a suffix without `]`.
`ParseNodeList` accepts it exactly when every unit is read to its end (the values fit 64
bits and no range ends at the largest 64-bit value), and the list it then leaves is the old
list followed by all concatenations `x_1 + ... + x_k + suffix`, with `x_i` from the unit
list of group `i`, the first group varying slowest and the last one fastest; their number is
the product of the lengths of the unit lists. -/
theorem ParseNodeList_cartesian (groups : List HostGroup) (suffix : Str)
    (nodelist L : List Str) (hne : groups ≠ []) (hwf : ∀ g ∈ groups, g.wf)
    (hs : ']' ∉ suffix) :
    (ParseNodeList (tokenText groups suffix) nodelist = some (true, L) ↔
      (∀ g ∈ groups, g.ok) ∧
        L = nodelist ++
          (cartesian (groups.map HostGroup.names)).map (fun x => x ++ suffix)) ∧
    ((cartesian (groups.map HostGroup.names)).map (fun x => x ++ suffix)).length =
      (groups.map (fun g => g.names.length)).prod := by
  refine ⟨ParseNodeList_token_iff groups suffix nodelist L hne hwf hs, ?_⟩
  rw [List.length_map, cartesian_length, List.map_map]
  rfl

set_option maxRecDepth 100000 in
/-- The token `cn[1-2]x[3-4]` gives `cn1x3, cn1x4, cn2x3, cn2x4`. -/
theorem ParseNodeList_cartesian_witness :
    (([⟨"cn".toList, [HostUnit.range "1".toList "2".toList]⟩,
        ⟨"x".toList, [HostUnit.range "3".toList "4".toList]⟩] : List HostGroup) ≠ [] ∧
      (∀ g ∈ ([⟨"cn".toList, [HostUnit.range "1".toList "2".toList]⟩,
        ⟨"x".toList, [HostUnit.range "3".toList "4".toList]⟩] : List HostGroup), g.wf) ∧
      ']' ∉ ([] : Str)) ∧
    ((ParseNodeList (tokenText [⟨"cn".toList, [HostUnit.range "1".toList "2".toList]⟩,
        ⟨"x".toList, [HostUnit.range "3".toList "4".toList]⟩] []) [] =
          some (true, ["cn1x3".toList, "cn1x4".toList, "cn2x3".toList, "cn2x4".toList]) ↔
      (∀ g ∈ ([⟨"cn".toList, [HostUnit.range "1".toList "2".toList]⟩,
        ⟨"x".toList, [HostUnit.range "3".toList "4".toList]⟩] : List HostGroup), g.ok) ∧
        ["cn1x3".toList, "cn1x4".toList, "cn2x3".toList, "cn2x4".toList] = [] ++
          (cartesian (([⟨"cn".toList, [HostUnit.range "1".toList "2".toList]⟩,
            ⟨"x".toList, [HostUnit.range "3".toList "4".toList]⟩] : List HostGroup).map
              HostGroup.names)).map (fun x => x ++ [])) ∧
      ((cartesian (([⟨"cn".toList, [HostUnit.range "1".toList "2".toList]⟩,
            ⟨"x".toList, [HostUnit.range "3".toList "4".toList]⟩] : List HostGroup).map
              HostGroup.names)).map (fun x => x ++ [])).length =
        (([⟨"cn".toList, [HostUnit.range "1".toList "2".toList]⟩,
            ⟨"x".toList, [HostUnit.range "3".toList "4".toList]⟩] : List HostGroup).map
              (fun g => g.names.length)).prod) ∧
    tokenText [⟨"cn".toList, [HostUnit.range "1".toList "2".toList]⟩,
        ⟨"x".toList, [HostUnit.range "3".toList "4".toList]⟩] [] = "cn[1-2]x[3-4]".toList ∧
    ParseNodeList "cn[1-2]x[3-4]".toList [] =
      some (true, ["cn1x3".toList, "cn1x4".toList, "cn2x3".toList, "cn2x4".toList]) :=
  ⟨⟨by simp, by decide, by decide⟩,
    ParseNodeList_cartesian _ [] [] _ (by simp) (by decide) (by decide), by decide, by decide⟩

set_option maxRecDepth 100000 in
/-- **C14**, refuted as stated: the token `cn[1-2]x` has the shape `p[units]s` with the
literal suffix `x`, and `ParseHostList` appends the token text as it is, not `cn1x` and
`cn2x`. -/
theorem ParseHostList_suffix_not_expanded :
    ParseHostList "cn[1-2]x".toList [] = some (true, ["cn[1-2]x".toList]) ∧
    ParseHostList "cn[1-2]x".toList [] ≠ some (true, ["cn1x".toList, "cn2x".toList]) := by
  decide

/-- **C14**, amended. A bracketed token is expanded when its suffix is empty or begins with
a dot: for a token `p[units]s`, with `p` and `s` without bracket, comma and white space and
units that are read to their end, `ParseHostList` succeeds; when `s` is empty or begins
with `.` it appends every name `p + number + s` of the units, in order, and otherwise it
appends the one token text itself. -/
theorem ParseHostList_group_suffix (p s : Str) (us : List HostUnit) (host_list : List Str)
    (hp : ∀ c ∈ p, c ≠ '[' ∧ c ≠ ']' ∧ c ≠ ',' ∧ isSpace c = false)
    (hs : ∀ c ∈ s, c ≠ '[' ∧ c ≠ ']' ∧ c ≠ ',' ∧ isSpace c = false)
    (hne : us ≠ []) (hus : ∀ u ∈ us, u.expands) :
    ParseHostList (p ++ '[' :: (groupText us ++ ']' :: s)) host_list =
      some (true, host_list ++
        if s = [] ∨ s.head? = some '.' then
          (us.flatMap (HostUnit.names p)).map (fun x => x ++ s)
        else [p ++ '[' :: (groupText us ++ ']' :: s)]) := by
  have htok : p ++ '[' :: (groupText us ++ ']' :: s) = tokenText [⟨p, us⟩] s := by
    simp [tokenText, HostGroup.text]
  have hok : (⟨p, us⟩ : HostGroup).ok :=
    ⟨fun c hc => ⟨(hp c hc).1, (hp c hc).2.1, (hp c hc).2.2.1⟩, hne, hus⟩
  have hfm : ∀ (l : List Str), l.flatMap (fun x => [x]) = l := by
    intro l
    induction l with
    | nil => rfl
    | cons x xs ih => simp [List.flatMap_cons, ih]
  by_cases hd : s = [] ∨ s.head? = some '.'
  · have ht : isDotTail s := by
      rcases hd with h | h
      · exact Or.inl h
      · cases s with
        | nil => simp at h
        | cons c r =>
          simp only [List.head?_cons, Option.some.injEq] at h
          subst h
          exact Or.inr ⟨r, rfl, fun c hc => hs c (List.mem_cons_of_mem _ hc)⟩
    rw [if_pos hd, htok, ParseHostList_token [⟨p, us⟩] s host_list (by simp)
      (by simpa using hok) (by simpa using fun c hc => (hp c hc).2.2.2) ht]
    simp [cartesian, HostGroup.names, hfm]
  · rw [if_neg hd, htok]
    exact ParseHostList_token_suffix ⟨p, us⟩ s host_list (HostGroup.ok_wf hok)
      (fun c hc => (hp c hc).2.2.2) hs (fun h => hd (Or.inl h)) (fun h => hd (Or.inr h))

set_option maxRecDepth 100000 in
/-- The token `cn[1-2].x` is expanded to `cn1.x` and `cn2.x`. -/
theorem ParseHostList_group_suffix_witness :
    ((∀ c ∈ "cn".toList, c ≠ '[' ∧ c ≠ ']' ∧ c ≠ ',' ∧ isSpace c = false) ∧
      (∀ c ∈ ".x".toList, c ≠ '[' ∧ c ≠ ']' ∧ c ≠ ',' ∧ isSpace c = false) ∧
      [HostUnit.range "1".toList "2".toList] ≠ [] ∧
      (∀ u ∈ [HostUnit.range "1".toList "2".toList], u.expands)) ∧
    ParseHostList ("cn".toList ++ '[' ::
        (groupText [HostUnit.range "1".toList "2".toList] ++ ']' :: ".x".toList)) [] =
      some (true, [] ++
        if ".x".toList = [] ∨ ".x".toList.head? = some '.' then
          ([HostUnit.range "1".toList "2".toList].flatMap
            (HostUnit.names "cn".toList)).map (fun x => x ++ ".x".toList)
        else ["cn".toList ++ '[' ::
          (groupText [HostUnit.range "1".toList "2".toList] ++ ']' :: ".x".toList)]) ∧
    ParseHostList "cn[1-2].x".toList [] = some (true, ["cn1.x".toList, "cn2.x".toList]) :=
  ⟨⟨by decide, by decide, by simp, by decide⟩,
    ParseHostList_group_suffix "cn".toList ".x".toList [HostUnit.range "1".toList "2".toList] []
      (by decide) (by decide) (by simp) (by decide), by decide⟩

set_option maxRecDepth 100000 in
/-- **C19**, refuted as stated: a range from a larger to a smaller value does not always
give success with nothing appended. With a start that does not fit 64 bits `ParseNodeList`
returns failure; with another group that is not valid it returns failure; and
`ParseHostList` appends the token `cn[2-1]x` itself, its suffix not being a dot tail. -/
theorem reversed_range_not_always_empty :
    digitsVal "1".toList < digitsVal "99999999999999999999".toList ∧
    ParseNodeList "cn[99999999999999999999-1]".toList [] = some (false, []) ∧
    ParseNodeList "cn[2-1]x[y]".toList [] = some (false, []) ∧
    ParseHostList "cn[2-1]x".toList [] = some (true, ["cn[2-1]x".toList]) := by
  decide

/-- **C19**, amended. A reversed range expands to nothing when the token is one that the
expansion reads to its end: for a token of groups `head[units]` (heads without bracket and
comma, the values of all units fitting 64 bits, no range ending at the largest 64-bit
value) and a suffix without `]`, one of whose groups has for only unit a range `a-b` with
`value(a) > value(b)`, `ParseNodeList` returns success and leaves the list as it was; and
so does `ParseHostList` on that token when heads and suffix have no white space and the
suffix is empty or a dot followed by text without bracket and comma. -/
theorem reversed_range_expands_to_nothing (groups : List HostGroup) (suffix : Str)
    (out : List Str) (g : HostGroup) (a b : Str) (hok : ∀ x ∈ groups, x.ok)
    (hg : g ∈ groups) (hu : g.units = [HostUnit.range a b])
    (hab : digitsVal b < digitsVal a) (hs : ']' ∉ suffix) :
    ParseNodeList (tokenText groups suffix) out = some (true, out) ∧
    ((∀ x ∈ groups, ∀ c ∈ x.head, isSpace c = false) → isDotTail suffix →
      ParseHostList (tokenText groups suffix) out = some (true, out)) := by
  have hne : groups ≠ [] := List.ne_nil_of_mem hg
  have hnil : g.names = [] := by
    have : digitsVal b + 1 - digitsVal a = 0 := by omega
    simp [HostGroup.names, hu, HostUnit.names, this]
  have hc : cartesian (groups.map HostGroup.names) = [] :=
    cartesian_nil_mem _ (hnil ▸ List.mem_map_of_mem HostGroup.names hg)
  constructor
  · rw [ParseNodeList_token groups suffix out hne hok hs, hc]
    simp
  · intro hsp ht
    rw [ParseHostList_token groups suffix out hne hok hsp ht, hc]
    simp

set_option maxRecDepth 100000 in
/-- The tokens `a[1-2]cn[2-1].x` and `cn[2-1]` add no name. -/
theorem reversed_range_expands_to_nothing_witness :
    ((∀ x ∈ ([⟨"a".toList, [HostUnit.range "1".toList "2".toList]⟩,
        ⟨"cn".toList, [HostUnit.range "2".toList "1".toList]⟩] : List HostGroup), x.ok) ∧
      digitsVal "1".toList < digitsVal "2".toList ∧ ']' ∉ ".x".toList) ∧
    (ParseNodeList (tokenText [⟨"a".toList, [HostUnit.range "1".toList "2".toList]⟩,
        ⟨"cn".toList, [HostUnit.range "2".toList "1".toList]⟩] ".x".toList) ["n0".toList] =
        some (true, ["n0".toList]) ∧
      ((∀ x ∈ ([⟨"a".toList, [HostUnit.range "1".toList "2".toList]⟩,
          ⟨"cn".toList, [HostUnit.range "2".toList "1".toList]⟩] : List HostGroup),
          ∀ c ∈ x.head, isSpace c = false) → isDotTail ".x".toList →
        ParseHostList (tokenText [⟨"a".toList, [HostUnit.range "1".toList "2".toList]⟩,
          ⟨"cn".toList, [HostUnit.range "2".toList "1".toList]⟩] ".x".toList) ["n0".toList] =
          some (true, ["n0".toList]))) ∧
    tokenText [⟨"a".toList, [HostUnit.range "1".toList "2".toList]⟩,
        ⟨"cn".toList, [HostUnit.range "2".toList "1".toList]⟩] ".x".toList =
      "a[1-2]cn[2-1].x".toList ∧
    ParseHostList "a[1-2]cn[2-1].x".toList ["n0".toList] = some (true, ["n0".toList]) ∧
    ParseNodeList "cn[2-1]".toList [] = some (true, []) ∧
    ParseHostList "cn[2-1]".toList [] = some (true, []) :=
  ⟨⟨by decide, by decide, by decide⟩,
    reversed_range_expands_to_nothing _ ".x".toList ["n0".toList]
      ⟨"cn".toList, [HostUnit.range "2".toList "1".toList]⟩ "2".toList "1".toList
      (by decide) (by simp) rfl (by decide) (by decide),
    by decide, by decide, by decide, by decide⟩

/-! ## `ParseNodeList` on a token with a piece that is not a unit -/

theorem isUnitText_iff (u : Str) :
    isUnitText u ↔ RE2.FullMatch u num_regex = true ∨ RE2.FullMatch u scope_regex = true := by
  rw [FullMatch_num_regex, FullMatch_scope_regex]
  rfl

/-- When the loop over the units comes to its end, every piece was a unit. -/
theorem unitLoop_done_valid (p : Str) : ∀ (us : List Str) (unit_list r : List Str),
    unitLoop p us unit_list = Step.done r → ∀ u ∈ us, isUnitText u
  | [], _, _, _ => by simp
  | u :: us, unit_list, r, hd => by
    have ih := fun l hl => unitLoop_done_valid p us l r hl
    rw [unitLoop] at hd
    by_cases hn : RE2.FullMatch u num_regex = true
    · simp only [hn, if_true] at hd
      intro x hx
      rcases List.mem_cons.mp hx with rfl | hx
      · exact (isUnitText_iff _).mpr (Or.inl hn)
      · exact ih _ hd x hx
    · by_cases hs : RE2.FullMatch u scope_regex = true
      · simp only [hn, hs, if_true, if_false, Bool.false_eq_true] at hd
        have hu : isUnitText u := (isUnitText_iff _).mpr (Or.inr hs)
        split at hd
        · simp at hd
        · split at hd
          · simp at hd
          · split at hd
            · intro x hx
              rcases List.mem_cons.mp hx with rfl | hx
              · exact hu
              · exact ih _ hd x hx
            · simp at hd
            · simp at hd
      · simp [hn, hs] at hd

/-- When the loop over the fragments comes to its end, every piece after the head of every
fragment was a unit. -/
theorem fragLoop_done_valid : ∀ (frags : List Str) (res_list r : List Str),
    fragLoop frags res_list = Step.done r →
      ∀ f ∈ frags, ∀ u ∈ (StrSplit (fun c => c == '[' || c == ',') f).tail, isUnitText u
  | [], _, _, _ => by simp
  | f :: rest, res_list, r, hd => by
    rw [fragLoop] at hd
    split at hd
    · rename_i ul hul
      intro x hx
      rcases List.mem_cons.mp hx with rfl | hx
      · exact unitLoop_done_valid _ _ _ _ hul
      · exact fragLoop_done_valid rest _ r hd x hx
    · simp at hd
    · simp at hd

/-- Splitting at a delimiter: the pieces before it, then the pieces after it. -/
theorem StrSplit_append_delim (isDelim : Char → Bool) (d : Char) (B : Str)
    (hd : isDelim d = true) : ∀ (A : Str),
    StrSplit isDelim (A ++ d :: B) = StrSplit isDelim A ++ StrSplit isDelim B
  | [] => by simp [StrSplit, hd]
  | c :: cs => by
    have ih := StrSplit_append_delim isDelim d B hd cs
    by_cases hc : isDelim c = true
    · simp [StrSplit, hc, ih]
    · cases hs : StrSplit isDelim cs with
      | nil => exact absurd hs (StrSplit_ne_nil _ cs)
      | cons q qs =>
        rw [hs] at ih
        simp [StrSplit, hc, ih, hs]

/-- Text without a delimiter, put after a text, goes to its last piece. -/
theorem StrSplit_append_plain (isDelim : Char → Bool) (Y : Str)
    (hY : ∀ c ∈ Y, isDelim c = false) : ∀ (X : Str),
    ∃ init last, StrSplit isDelim X = init ++ [last] ∧
      StrSplit isDelim (X ++ Y) = init ++ [last ++ Y]
  | [] => ⟨[], [], by simp [StrSplit], by simpa using StrSplit_plain isDelim Y hY⟩
  | c :: cs => by
    obtain ⟨init, last, e1, e2⟩ := StrSplit_append_plain isDelim Y hY cs
    by_cases hc : isDelim c = true
    · exact ⟨[] :: init, last, by simp [StrSplit, hc, e1], by simp [StrSplit, hc, e2]⟩
    · cases init with
      | nil =>
        refine ⟨[], c :: last, ?_, ?_⟩
        · simp only [List.nil_append] at e1
          simp [StrSplit, hc, e1]
        · simp only [List.nil_append] at e2
          simp [StrSplit, hc, e2]
      | cons q qs =>
        refine ⟨(c :: q) :: qs, last, ?_, ?_⟩
        · simp only [List.cons_append] at e1
          simp [StrSplit, hc, e1]
        · simp only [List.cons_append] at e2
          simp [StrSplit, hc, e2]

/-- Splitting depends on the delimiters among the characters of the text only. -/
theorem StrSplit_congr (f g : Char → Bool) : ∀ (s : Str), (∀ c ∈ s, f c = g c) →
    StrSplit f s = StrSplit g s
  | [], _ => rfl
  | c :: cs, h => by
    have ih := StrSplit_congr f g cs (fun x hx => h x (List.mem_cons_of_mem _ hx))
    have hc := h c (List.mem_cons_self _ _)
    simp only [StrSplit, hc, ih]

/-- A closed bracket group with a piece that is not a unit: the fragment that ends with the
group has the piece among its units. -/
theorem invalid_piece_fragment (pre body post piece : Str) (hb1 : '[' ∉ body)
    (hb2 : ']' ∉ body) (hpiece : piece ∈ StrSplit (fun c => c == ',') body) :
    ∃ f ∈ (StrSplit (fun c => c == ']') (pre ++ '[' :: (body ++ ']' :: post))).dropLast,
      piece ∈ (StrSplit (fun c => c == '[' || c == ',') f).tail := by
  have e : pre ++ '[' :: (body ++ ']' :: post) = (pre ++ '[' :: body) ++ ']' :: post := by simp
  obtain ⟨init, last, e1, e2⟩ := StrSplit_append_plain (fun c => c == ']') ('[' :: body)
    (by
      intro c hc
      rcases List.mem_cons.mp hc with rfl | hc
      · decide
      · have : c ≠ ']' := fun h => hb2 (h ▸ hc)
        simpa using this) pre
  obtain ⟨init2, last2, e3⟩ : ∃ init2 last2,
      StrSplit (fun c => c == ']') post = init2 ++ [last2] := by
    rcases List.eq_nil_or_concat (StrSplit (fun c => c == ']') post) with h | ⟨a, b, h⟩
    · exact absurd h (StrSplit_ne_nil _ post)
    · exact ⟨a, b, by rw [h, List.concat_eq_append]⟩
  refine ⟨last ++ '[' :: body, ?_, ?_⟩
  · rw [e, StrSplit_append_delim _ ']' _ (by decide), e2, e3, ← List.append_assoc,
      List.dropLast_concat]
    simp
  · rw [StrSplit_append_delim _ '[' _ (by decide)]
    have hne := StrSplit_ne_nil (fun c => c == '[' || c == ',') last
    have hc : StrSplit (fun c => c == '[' || c == ',') body =
        StrSplit (fun c => c == ',') body := by
      apply StrSplit_congr
      intro c hc
      have : c ≠ '[' := fun h => hb1 (h ▸ hc)
      simp [this]
    rw [List.tail_append_of_ne_nil hne, hc]
    exact List.mem_append_right _ hpiece

/-- A token with a piece that is not a unit is never expanded: `ParseNodeList` returns
failure with the list as it was, unless it does not return. -/
theorem ParseNodeList_invalid_piece (pre body post piece : Str) (nodelist : List Str)
    (hb1 : '[' ∉ body) (hb2 : ']' ∉ body)
    (hpiece : piece ∈ StrSplit (fun c => c == ',') body) (hinv : ¬ isUnitText piece) :
    ParseNodeList (pre ++ '[' :: (body ++ ']' :: post)) nodelist = some (false, nodelist) ∨
      ParseNodeList (pre ++ '[' :: (body ++ ']' :: post)) nodelist = none := by
  obtain ⟨f, hf, hp⟩ := invalid_piece_fragment pre body post piece hb1 hb2 hpiece
  rw [ParseNodeList]
  by_cases hpm : RE2.PartialMatch (pre ++ '[' :: (body ++ ']' :: post)) brackets_regex = true
  · simp only [hpm, Bool.not_true, Bool.false_eq_true, if_false]
    cases hfl : fragLoop
        (StrSplit (fun c => c == ']') (pre ++ '[' :: (body ++ ']' :: post))).dropLast [[]] with
    | retFalse => exact Or.inl rfl
    | hang => exact Or.inr rfl
    | done r => exact absurd (fragLoop_done_valid _ _ _ hfl f hf piece hp) hinv
  · simp [hpm]

/-! ## `ParseNodeList` returns, the largest 64-bit value apart -/

/-- The first piece of a split text is a prefix of the text. -/
theorem StrSplit_head_start (isDelim : Char → Bool) : ∀ (s : Str) (q : Str) (qs : List Str),
    StrSplit isDelim s = q :: qs → q <+: s
  | [], q, qs, h => by
    simp only [StrSplit, List.cons.injEq] at h
    rw [← h.1]
  | c :: cs, q, qs, h => by
    by_cases hc : isDelim c = true
    · simp only [StrSplit, hc, if_true, List.cons.injEq] at h
      rw [← h.1]
      exact List.nil_prefix
    · cases hs : StrSplit isDelim cs with
      | nil => exact absurd hs (StrSplit_ne_nil _ cs)
      | cons r rs =>
        simp only [StrSplit, hc, Bool.false_eq_true, if_false, hs, List.cons.injEq] at h
        rw [← h.1]
        exact (List.prefix_cons_inj c).mpr (StrSplit_head_start isDelim cs r rs hs)

/-- Every piece of a split text is a part of the text. -/
theorem StrSplit_part (isDelim : Char → Bool) : ∀ (s : Str),
    ∀ p ∈ StrSplit isDelim s, p <:+: s
  | [], p, hp => by
    simp only [StrSplit, List.mem_singleton] at hp
    subst hp
    exact List.infix_refl _
  | c :: cs, p, hp => by
    have ih := StrSplit_part isDelim cs
    by_cases hc : isDelim c = true
    · simp only [StrSplit, hc, if_true, List.mem_cons] at hp
      rcases hp with rfl | hp
      · exact List.nil_infix
      · exact (ih p hp).trans (List.suffix_cons c cs).isInfix
    · cases hs : StrSplit isDelim cs with
      | nil => exact absurd hs (StrSplit_ne_nil _ cs)
      | cons r rs =>
        have hpre : (c :: r) <+: (c :: cs) :=
          (List.prefix_cons_inj c).mpr (StrSplit_head_start isDelim cs r rs hs)
        simp only [StrSplit, hc, Bool.false_eq_true, if_false, hs, List.mem_cons] at hp
        rcases hp with rfl | hp
        · exact hpre.isInfix
        · exact (ih p (by rw [hs]; exact List.mem_cons_of_mem _ hp)).trans
            (List.suffix_cons c cs).isInfix

theorem getD_part (l : List Str) (s : Str) (h : ∀ p ∈ l, p <:+: s) (i : Nat) :
    l.getD i [] <:+: s := by
  rw [List.getD_eq_getElem?_getD]
  cases hi : l[i]? with
  | none => exact List.nil_infix
  | some x => exact h x (List.getElem?_mem hi)

/-- A digit string of the largest 64-bit value ends with that value as it is written. -/
theorem sizeMaxText_suffix (d : Str) (hd : isDigitStr d) (hv : digitsVal d = 2 ^ 64 - 1) :
    sizeMaxText <:+ d := by
  have h := eq_zeroPadLeft d hd
  rw [hv] at h
  have e : Nat.toDigits 10 (2 ^ 64 - 1) = sizeMaxText := by decide
  rw [zeroPadLeft, e] at h
  rw [h]
  exact List.suffix_append _ _

/-- When `from_chars` reads the largest 64-bit value, the text has it as it is written. -/
theorem from_chars_sizeMax (s : Str) (h : from_chars s = some (2 ^ 64 - 1)) :
    sizeMaxText <:+: s := by
  rw [from_chars] at h
  by_cases h1 : s.takeWhile Char.isDigit = []
  · simp [h1] at h
  · by_cases h2 : digitsVal (s.takeWhile Char.isDigit) < 2 ^ 64
    · simp only [h1, h2, if_false, if_true, Option.some.injEq] at h
      have hd : isDigitStr (s.takeWhile Char.isDigit) :=
        ⟨h1, fun c hc => (List.mem_takeWhile_imp hc)⟩
      exact (sizeMaxText_suffix _ hd h).isInfix.trans (List.takeWhile_prefix _).isInfix
    · simp [h1] at h
      omega

/-- The loop over the units ends when no unit has the largest 64-bit value in it. -/
theorem unitLoop_no_hang (p : Str) : ∀ (us : List Str) (unit_list : List Str),
    (∀ u ∈ us, ¬ sizeMaxText <:+: u) → unitLoop p us unit_list ≠ Step.hang
  | [], _, _ => by simp [unitLoop]
  | u :: us, unit_list, h => by
    have ih := fun l => unitLoop_no_hang p us l (fun x hx => h x (List.mem_cons_of_mem _ hx))
    have hu := h u (List.mem_cons_self _ _)
    rw [unitLoop]
    by_cases hn : RE2.FullMatch u num_regex = true
    · simp only [hn, if_true]
      exact ih _
    · by_cases hs : RE2.FullMatch u scope_regex = true
      · simp only [hn, hs, if_true, if_false, Bool.false_eq_true]
        split
        · simp
        · split
          · simp
          · rename_i end_ hend
            rw [rangeUnits]
            by_cases he : end_ = 2 ^ 64 - 1
            · exfalso
              subst he
              apply hu
              exact (from_chars_sizeMax _ hend).trans
                (getD_part _ u (StrSplit_part _ u) 1)
            · simp only [he, if_false]
              exact ih _
      · simp [hn, hs]

/-- The loop over the fragments ends when no fragment has the largest 64-bit value in it. -/
theorem fragLoop_no_hang : ∀ (frags : List Str) (res_list : List Str),
    (∀ f ∈ frags, ¬ sizeMaxText <:+: f) → fragLoop frags res_list ≠ Step.hang
  | [], _, _ => by simp [fragLoop]
  | f :: rest, res_list, h => by
    have hf := h f (List.mem_cons_self _ _)
    have hul := unitLoop_no_hang ((StrSplit (fun c => c == '[' || c == ',') f).headD [])
      (StrSplit (fun c => c == '[' || c == ',') f).tail []
      (fun u hu hi => hf (hi.trans (StrSplit_part _ f u (List.mem_of_mem_tail hu))))
    rw [fragLoop]
    split
    · exact fragLoop_no_hang rest _ (fun x hx => h x (List.mem_cons_of_mem _ hx))
    · simp
    · rename_i heq
      exact absurd heq hul

/-- `ParseNodeList` returns on every text that does not have the largest 64-bit value
written in it. -/
theorem ParseNodeList_returns (node_str : Str) (nodelist : List Str)
    (h : ¬ sizeMaxText <:+: node_str) : ParseNodeList node_str nodelist ≠ none := by
  rw [ParseNodeList]
  by_cases hpm : RE2.PartialMatch node_str brackets_regex = true
  · simp only [hpm, Bool.not_true, Bool.false_eq_true, if_false]
    have hfl := fragLoop_no_hang (StrSplit (fun c => c == ']') node_str).dropLast [[]]
      (fun f hf hi => h (hi.trans (StrSplit_part _ node_str f (List.mem_of_mem_dropLast hf))))
    split
    · simp
    · rename_i heq
      exact absurd heq hfl
    · simp
  · simp [hpm]

/-- A token with a piece that is not a unit, and without the largest 64-bit value written in
it: `ParseNodeList` returns failure and leaves the list as it was. -/
theorem ParseNodeList_invalid_piece_fails (pre body post piece : Str) (nodelist : List Str)
    (hb1 : '[' ∉ body) (hb2 : ']' ∉ body)
    (hpiece : piece ∈ StrSplit (fun c => c == ',') body) (hinv : ¬ isUnitText piece)
    (hmax : ¬ sizeMaxText <:+: pre ++ '[' :: (body ++ ']' :: post)) :
    ParseNodeList (pre ++ '[' :: (body ++ ']' :: post)) nodelist = some (false, nodelist) := by
  rcases ParseNodeList_invalid_piece pre body post piece nodelist hb1 hb2 hpiece hinv with h | h
  · exact h
  · exact absurd h (ParseNodeList_returns _ nodelist hmax)

set_option maxRecDepth 100000 in
/-- **C15**, the code is at fault: in the token `cn[0-18446744073709551615,x]` the piece `x`
is not a unit, yet `ParseNodeList` does not return failure: the range before `x` ends at
the largest 64-bit value, the loop over it never ends (the defect of **C1**), and the call
does not return. -/
theorem ParseNodeList_invalid_piece_hangs :
    "x".toList ∈ StrSplit (fun c => c == ',') "0-18446744073709551615,x".toList ∧
    ¬ isUnitText "x".toList ∧
    ParseNodeList "cn[0-18446744073709551615,x]".toList [] = none ∧
    ParseNodeList "cn[0-18446744073709551615,x]".toList [] ≠ some (false, []) := by
  refine ⟨by decide, ?_, by decide, by decide⟩
  rintro (h | ⟨a, b, e, _, _⟩)
  · exact absurd h (by decide)
  · have h2 : '-' ∈ "x".toList := by
      rw [e]
      simp
    exact absurd h2 (by decide)

/-! ## A bucket with one number -/

/-- A bucket whose entries are all the number `n` is written with the one unit `n`. -/
theorem sortedRuns_single (v : List Str) (n : Str) (hn : isIntStr n) (hne : v ≠ [])
    (hv : ∀ m ∈ v, m = n) : sortedRuns v = [HostUnit.num n] := by
  have hmem : ∀ x, x ∈ [n] ↔ x ∈ v := by
    intro x
    constructor
    · intro hx
      rw [List.mem_singleton] at hx
      subst hx
      cases v with
      | nil => exact absurd rfl hne
      | cons a rest =>
        rw [hv a (List.mem_cons_self _ _)]
        exact List.mem_cons_self _ _
    · intro hx
      rw [List.mem_singleton]
      exact hv x hx
  have hu := unique_sortNums v [n] (fun m hm => hv m hm ▸ hn) (List.pairwise_singleton _ _) hmem
  simp [sortedRuns, hu, runs, runUnit]

set_option maxRecDepth 100000 in
/-- **C18**, the code is at fault: the key of a bucket is `head + "<" + tail`, and it is cut
again at its first `<`, so a `<` in a head mixes buckets up. In `a1b<c` the run `1` has the
head `a` and the tail `b<c`; in `a<b2c` the run `2` has the head `a<b` and the tail `c`. The
two pairs differ, the two keys are the same text `a<b<c`, and both hosts go into the one
string `a[1-2]b<c`, in which the head `a<b` of the second host does not come back. -/
theorem HostNameListToStr_mixes_keys :
    FoundFirstNumberWithoutBrackets "a1b<c".toList = (true, 1, 2) ∧
    FoundFirstNumberWithoutBrackets "a<b2c".toList = (true, 3, 4) ∧
    ("a1b<c".toList.take 1, "a1b<c".toList.drop 2) = ("a".toList, "b<c".toList) ∧
    ("a<b2c".toList.take 3, "a<b2c".toList.drop 4) = ("a<b".toList, "c".toList) ∧
    "a".toList ++ '<' :: "b<c".toList = "a<b".toList ++ '<' :: "c".toList ∧
    HostNameListToStr_ id ["a1b<c".toList, "a<b2c".toList] [] =
      some (false, ["a[1-2]b<c".toList]) := by
  decide

/-! ## `ParseHostList`: what a failing call leaves -/

/-- On a text whose bracket structure is well formed the splitting loop ends with the
tokens of the text. -/
theorem splitLoop_tokens : ∀ (t : Str) (st : SplitState),
    illFormedFrom (decide (st.char_queue ≠ [])) t = false →
      splitLoop (t ++ [',']) st =
        some { name_meta := [],
               str_list := st.str_list ++
                 tokensFrom (st.name_meta ++ st.char_queue) (decide (st.char_queue ≠ [])) t,
               char_queue := [] }
  | [], ⟨nm, sl, cq⟩ => by
    intro h
    simp only [illFormedFrom, decide_eq_false_iff_not, ne_eq, not_not] at h
    subst h
    simp [splitLoop, splitStep, tokensFrom]
  | c :: cs, ⟨nm, sl, cq⟩ => by
    intro h
    simp only [illFormedFrom] at h
    rw [List.cons_append, splitLoop]
    by_cases hq : cq = []
    · subst hq
      simp only [ne_eq, not_true_eq_false, decide_False, Bool.false_eq_true, if_false] at h
      by_cases h1 : c = '['
      · subst h1
        simp only [if_true] at h
        have ih := splitLoop_tokens cs { name_meta := nm, str_list := sl, char_queue := ['['] }
          (by simpa using h)
        simp only [splitStep, if_true, List.nil_append]
        rw [ih]
        simp [tokensFrom]
      · by_cases h3 : c = ']'
        · simp [h1, h3] at h
        · simp only [h1, h3, if_false] at h
          by_cases h4 : c = ','
          · subst h4
            have ih := splitLoop_tokens cs
              { name_meta := [], str_list := sl ++ [nm], char_queue := [] } (by simpa using h)
            simp only [splitStep, h1, h3, if_true, if_false]
            rw [ih]
            simp [tokensFrom]
          · have ih := splitLoop_tokens cs
              { name_meta := nm ++ [c], str_list := sl, char_queue := [] } (by simpa using h)
            simp only [splitStep, h1, h3, h4, if_true, if_false]
            rw [ih]
            simp [tokensFrom, h1, h3, h4]
    · simp only [hq, ne_eq, not_false_eq_true, decide_True, if_true] at h
      by_cases h1 : c = '['
      · simp [h1] at h
      · by_cases h3 : c = ']'
        · subst h3
          simp only [h1, if_true, if_false] at h
          have ih := splitLoop_tokens cs
            { name_meta := nm ++ cq ++ [']'], str_list := sl, char_queue := [] }
            (by simpa using h)
          simp only [splitStep, h1, hq, if_true, if_false]
          rw [ih]
          simp [tokensFrom, hq]
        · simp only [h1, h3, if_false] at h
          have hq2 : cq ++ [c] ≠ [] := by simp
          have ih := splitLoop_tokens cs
            { name_meta := nm, str_list := sl, char_queue := cq ++ [c] }
            (by simpa [hq2] using h)
          by_cases h4 : c = ','
          · subst h4
            simp only [splitStep, hq, if_true, if_false, show ¬ (',' = '[') by decide,
              show ¬ (',' = ']') by decide]
            rw [ih]
            simp [tokensFrom, hq]
          · simp only [splitStep, h1, h3, h4, hq, if_true, if_false]
            rw [ih]
            simp [tokensFrom, h1, h3, h4, hq]

/-- A token does not both expand and fail. -/
theorem tokenFails_not_expands (tok : Str) (names : List Str) (hf : tokenFails tok) :
    ¬ tokenExpands tok names := by
  rintro (⟨h1, _⟩ | ⟨_, h2⟩)
  · rw [hf.1] at h1
    exact Bool.noConfusion h1
  · rw [hf.2] at h2
    simp at h2

/-- A failing token loop: the tokens before the first failing one have given their names,
and nothing else was appended. -/
theorem tokenLoop_fails : ∀ (toks : List Str) (host_list l2 : List Str),
    tokenLoop toks host_list = some (false, l2) →
      ∃ pre tok post names, toks = pre ++ tok :: post ∧
        List.Forall₂ tokenExpands pre names ∧ tokenFails tok ∧
        l2 = host_list ++ names.flatten
  | [], host_list, l2 => by simp [tokenLoop]
  | t :: rest, host_list, l2 => by
    intro h
    rw [tokenLoop] at h
    by_cases hm : RE2.FullMatch (StripAsciiWhitespace t) regex = true
    · simp only [hm, Bool.not_true, Bool.false_eq_true, if_false] at h
      rw [ParseNodeList_append] at h
      cases hp : ParseNodeList (StripAsciiWhitespace t) [] with
      | none => simp [hp] at h
      | some p =>
        obtain ⟨b, l⟩ := p
        cases b with
        | false =>
          have hl := ParseNodeList_false _ _ _ hp
          subst hl
          simp only [hp, Option.map_some', List.append_nil, Option.some.injEq, Prod.mk.injEq,
            true_and] at h
          subst h
          exact ⟨[], t, rest, [], rfl, List.Forall₂.nil, ⟨hm, hp⟩, by simp⟩
        | true =>
          simp only [hp, Option.map_some'] at h
          obtain ⟨pre, tok, post, names, e, h1, h2, h3⟩ := tokenLoop_fails rest _ l2 h
          refine ⟨t :: pre, tok, post, l :: names, by rw [e]; rfl,
            List.Forall₂.cons (Or.inr ⟨hm, hp⟩) h1, h2, ?_⟩
          rw [h3]
          simp
    · simp only [hm, Bool.not_false, if_true] at h
      obtain ⟨pre, tok, post, names, e, h1, h2, h3⟩ := tokenLoop_fails rest _ l2 h
      refine ⟨t :: pre, tok, post, [StripAsciiWhitespace t] :: names, by rw [e]; rfl,
        List.Forall₂.cons (Or.inl ⟨by simpa using hm, rfl⟩) h1, h2, ?_⟩
      rw [h3]
      simp

/-- The token loop over tokens that give their names, then a failing token: failure, with
these names appended. -/
theorem tokenLoop_of_fails : ∀ (pre : List Str) (names : List (List Str)) (tok : Str)
    (post : List Str) (host_list : List Str),
    List.Forall₂ tokenExpands pre names → tokenFails tok →
      tokenLoop (pre ++ tok :: post) host_list = some (false, host_list ++ names.flatten)
  | [], names, tok, post, host_list => by
    intro h1 h2
    cases h1
    rw [List.nil_append, tokenLoop]
    simp only [h2.1, Bool.not_true, Bool.false_eq_true, if_false]
    rw [ParseNodeList_append, h2.2]
    simp
  | t :: pre, names, tok, post, host_list => by
    intro h1 h2
    cases h1 with
    | cons ht hrest =>
      rename_i ns nss
      rw [List.cons_append, tokenLoop]
      rcases ht with ⟨hm, rfl⟩ | ⟨hm, hp⟩
      · simp only [hm, Bool.not_false, if_true]
        rw [tokenLoop_of_fails pre nss tok post _ hrest h2]
        simp
      · simp only [hm, Bool.not_true, Bool.false_eq_true, if_false]
        rw [ParseNodeList_append, hp]
        simp only [Option.map_some']
        rw [tokenLoop_of_fails pre nss tok post _ hrest h2]
        simp

/-- The description of a failing call is complete: whenever the input is ill formed, or its
tokens are tokens that give their names followed by a failing one, `ParseHostList` returns
`false` with the list described. -/
theorem ParseHostList_fails_of_tokens (host_str : Str) (host_list : List Str)
    (pre : List Str) (tok : Str) (post : List Str) (names : List (List Str))
    (hwf : illFormedBrackets (host_str.filter (fun i => i != ' ')) = false)
    (htoks : tokens (host_str.filter (fun i => i != ' ')) = pre ++ tok :: post)
    (hpre : List.Forall₂ tokenExpands pre names) (htok : tokenFails tok) :
    ParseHostList host_str host_list = some (false, host_list ++ names.flatten) := by
  have hs := splitLoop_tokens (host_str.filter (fun i => i != ' '))
    { name_meta := [], str_list := [], char_queue := [] } (by simpa [illFormedBrackets] using hwf)
  simp only [ParseHostList, hs, ne_eq, not_true_eq_false, if_false, List.nil_append,
    decide_False]
  rw [show tokensFrom [] false (host_str.filter (fun i => i != ' ')) =
    tokens (host_str.filter (fun i => i != ' ')) from rfl, htoks]
  exact tokenLoop_of_fails pre names tok post host_list hpre htok

/-- **C5**, amended. When `ParseHostList` returns `false`, `*host_list` is what it was
before the call followed by exactly the host names of the tokens that precede the first
token whose expansion fails. Either the bracket structure of the input (its spaces
removed) is ill formed and the list is unchanged; or it is well formed, its tokens are
`pre ++ tok :: post`, every token of `pre` gives its host names (`names`), the expansion of
`tok` fails, and the list is the old one followed by the names of `pre`, in order. A token
does not both give names and fail, so `tok` is the first failing token and the list is
fixed by the input. -/
theorem ParseHostList_failure_output (host_str : Str) (host_list l2 : List Str)
    (h : ParseHostList host_str host_list = some (false, l2)) :
    (illFormedBrackets (host_str.filter (fun i => i != ' ')) = true ∧ l2 = host_list) ∨
      (illFormedBrackets (host_str.filter (fun i => i != ' ')) = false ∧
        ∃ pre tok post names,
          tokens (host_str.filter (fun i => i != ' ')) = pre ++ tok :: post ∧
          List.Forall₂ tokenExpands pre names ∧ tokenFails tok ∧
          l2 = host_list ++ names.flatten) := by
  by_cases hwf : illFormedBrackets (host_str.filter (fun i => i != ' ')) = true
  · left
    rw [ParseHostList_illFormed host_str host_list hwf] at h
    simp only [Option.some.injEq, Prod.mk.injEq, true_and] at h
    exact ⟨hwf, h.symm⟩
  · right
    have hwf2 : illFormedBrackets (host_str.filter (fun i => i != ' ')) = false := by
      simpa using hwf
    have hs := splitLoop_tokens (host_str.filter (fun i => i != ' '))
      { name_meta := [], str_list := [], char_queue := [] }
      (by simpa [illFormedBrackets] using hwf2)
    simp only [ParseHostList, hs, ne_eq, not_true_eq_false, if_false, List.nil_append,
      decide_False] at h
    exact ⟨hwf2, tokenLoop_fails _ host_list l2 h⟩

set_option maxRecDepth 100000 in
/-- The amended statement at `a,b,c[x]` after the list `[z]`: the names `a` and `b` of the
two tokens before the failing one stay appended. -/
theorem ParseHostList_failure_output_witness :
    ParseHostList "a,b,c[x]".toList ["z".toList] =
      some (false, ["z".toList, "a".toList, "b".toList]) ∧
    tokens ("a,b,c[x]".toList.filter (fun i => i != ' ')) =
      ["a".toList, "b".toList, "c[x]".toList] ∧
    ((illFormedBrackets ("a,b,c[x]".toList.filter (fun i => i != ' ')) = true ∧
        ["z".toList, "a".toList, "b".toList] = ["z".toList]) ∨
      (illFormedBrackets ("a,b,c[x]".toList.filter (fun i => i != ' ')) = false ∧
        ∃ pre tok post names,
          tokens ("a,b,c[x]".toList.filter (fun i => i != ' ')) = pre ++ tok :: post ∧
          List.Forall₂ tokenExpands pre names ∧ tokenFails tok ∧
          ["z".toList, "a".toList, "b".toList] = ["z".toList] ++ names.flatten)) :=
  ⟨by decide, by decide, ParseHostList_failure_output "a,b,c[x]".toList ["z".toList]
    ["z".toList, "a".toList, "b".toList] (by decide)⟩

/-! ## `HostNameListToStr_` on any list: the buckets -/

theorem hostParts_nil : hostParts [] = none := rfl

/-- One turn of the grouping loop, by the parts of the host. -/
theorem groupStep_parts (st : GroupState) (host : Str) :
    groupStep st host =
      match hostParts host with
      | some (h, n, t) =>
        { st with res := false, host_map := mapPush st.host_map (h ++ '<' :: t) n }
      | none => if host = [] then st else { st with res_list := st.res_list ++ [host] } := by
  by_cases he : host = []
  · subst he
    simp [groupStep, hostParts_nil]
  · rw [groupStep, hostParts]
    simp only [he, if_false]
    rcases hf : FoundFirstNumberWithoutBrackets host with ⟨b, s, e⟩
    cases b <;> simp

/-- One turn of the grouping loop keeps `PartsInv`. -/
theorem PartsInv_step (done : List Str) (st : GroupState) (host : Str)
    (hinv : PartsInv done st) : PartsInv (done ++ [host]) (groupStep st host) := by
  obtain ⟨h1, h2, h3⟩ := hinv
  rw [groupStep_parts]
  cases hp : hostParts host with
  | none =>
    have hst : (if host = [] then st else { st with res_list := st.res_list ++ [host] }).res =
        st.res ∧
        (if host = [] then st else { st with res_list := st.res_list ++ [host] }).host_map =
        st.host_map := by
      by_cases he : host = [] <;> simp [he]
    refine ⟨?_, ?_, ?_⟩
    · intro hr y hy
      simp only at hr
      rw [hst.1] at hr
      rcases List.mem_append.mp hy with hy | hy
      · exact h1 hr y hy
      · rw [List.mem_singleton] at hy
        rw [hy, hp]
    · intro k v hkv
      simp only at hkv
      rw [hst.2] at hkv
      obtain ⟨a, b⟩ := h2 k v hkv
      refine ⟨a, fun m hm => ?_⟩
      obtain ⟨y, hy, h, t, c, d⟩ := b m hm
      exact ⟨y, List.mem_append_left _ hy, h, t, c, d⟩
    · intro y hy h n t hyp
      simp only
      rw [hst.2]
      rcases List.mem_append.mp hy with hy | hy
      · exact h3 y hy h n t hyp
      · rw [List.mem_singleton] at hy
        rw [hy, hp] at hyp
        simp at hyp
  | some p =>
    obtain ⟨h, n, t⟩ := p
    refine ⟨?_, ?_, ?_⟩
    · intro hr
      simp at hr
    · intro k v hkv
      rcases mem_mapPush _ _ _ _ _ hkv with hm | ⟨rfl, rfl⟩ | ⟨rfl, v0, hv0, rfl⟩
      · obtain ⟨a, b⟩ := h2 k v hm
        refine ⟨a, fun x hx => ?_⟩
        obtain ⟨y, hy, h', t', c, d⟩ := b x hx
        exact ⟨y, List.mem_append_left _ hy, h', t', c, d⟩
      · refine ⟨by simp, fun x hx => ?_⟩
        simp only [List.mem_singleton] at hx
        subst hx
        exact ⟨host, by simp, h, t, hp, rfl⟩
      · refine ⟨by simp, fun x hx => ?_⟩
        rcases List.mem_append.mp hx with hx | hx
        · obtain ⟨y, hy, h', t', c, d⟩ := (h2 _ v0 hv0).2 x hx
          exact ⟨y, List.mem_append_left _ hy, h', t', c, d⟩
        · simp only [List.mem_singleton] at hx
          subst hx
          exact ⟨host, by simp, h, t, hp, rfl⟩
    · intro y hy h' n' t' hyp
      rcases List.mem_append.mp hy with hy | hy
      · obtain ⟨v, a, b⟩ := h3 y hy h' n' t' hyp
        obtain ⟨v2, c, d⟩ := mapPush_old st.host_map (h ++ '<' :: t) n _ v a
        exact ⟨v2, c, d n' b⟩
      · rw [List.mem_singleton] at hy
        rw [hy, hp] at hyp
        simp only [Option.some.injEq, Prod.mk.injEq] at hyp
        obtain ⟨rfl, rfl, rfl⟩ := hyp
        exact mapPush_new st.host_map _ _

/-- The grouping loop keeps `PartsInv`. -/
theorem PartsInv_loop : ∀ (hosts done : List Str) (st : GroupState),
    PartsInv done st → PartsInv (done ++ hosts) (hosts.foldl groupStep st)
  | [], done, st => by
    intro h
    simpa using h
  | x :: rest, done, st => by
    intro hinv
    have h2 := PartsInv_loop rest (done ++ [x]) _ (PartsInv_step done st x hinv)
    simpa using h2

/-- The run walk ends when `stoi` reads every entry. -/
theorem walkLoop_some : ∀ (l : List Str) (w : Walk), (∀ n ∈ l, stoi n ≠ none) →
    ∃ w2, walkLoop l w = some w2
  | [], w, _ => ⟨w, rfl⟩
  | n :: l, w, h => by
    have hn := h n (List.mem_cons_self _ _)
    cases hs : stoi n with
    | none => exact absurd hs hn
    | some num =>
      rw [walkLoop, hs]
      exact walkLoop_some l _ (fun x hx => h x (List.mem_cons_of_mem _ hx))

/-- A bucket gives a text when `stoi` reads every entry. -/
theorem bucketStr_some (k : Str) (v : List Str) (hv : ∀ n ∈ v, stoi n ≠ none) :
    ∃ s, bucketStr k v = some s := by
  have e4 : v.all (fun n => (stoi n).isSome) = true := by
    rw [List.all_eq_true]
    intro n hn
    exact Option.isSome_iff_ne_none.mpr (hv n hn)
  have hmem : ∀ n ∈ unique (sortNums v), stoi n ≠ none := by
    intro n hn
    rw [unique_mem] at hn
    exact hv n ((List.perm_insertionSort _ v).mem_iff.mp hn)
  obtain ⟨w2, hw⟩ := walkLoop_some (unique (sortNums v))
    { first := -1, last := -1, first_str := [], last_str := [],
      host_name_str := k.take (k.takeWhile (fun c => c != '<')).length ++ ['['] } hmem
  simp only [bucketStr, e4, if_true, hw]
  exact ⟨_, rfl⟩

theorem unique_replicate (n : Str) : ∀ (k : Nat), unique (List.replicate (k + 1) n) = [n]
  | 0 => rfl
  | k + 1 => by
    rw [List.replicate_succ, List.replicate_succ, unique, if_pos rfl, ← List.replicate_succ]
    exact unique_replicate n k

/-- Lines 215-274 for a bucket whose entries are all the one text `n`: the text is
`head[n]tail`. -/
theorem bucketStr_single (h t n : Str) (v : List Str) (hh : '<' ∉ h) (hne : v ≠ [])
    (hv : ∀ m ∈ v, m = n) (hn : stoi n ≠ none) :
    bucketStr (h ++ '<' :: t) v = some (h ++ '[' :: (n ++ ']' :: t)) := by
  have hrep : v = List.replicate v.length n := List.eq_replicate_iff.mpr ⟨rfl, hv⟩
  have hsort : sortNums v = List.replicate v.length n := by
    have hp : (sortNums v).Perm (List.replicate v.length n) := by
      rw [← hrep]
      exact List.perm_insertionSort _ v
    exact List.perm_replicate.mp hp
  have hlen : v.length = (v.length - 1) + 1 := by
    cases v with
    | nil => exact absurd rfl hne
    | cons a r => simp
  have hu : unique (sortNums v) = [n] := by
    rw [hsort, hlen]
    exact unique_replicate n _
  have e1 : (h ++ '<' :: t).takeWhile (fun c => c != '<') = h := takeWhile_ne_first '<' h t hh
  have e2 : (h ++ '<' :: t).take h.length = h := by simp
  have e3 : ((h ++ '<' :: t).drop (h.length + 1)).take (h ++ '<' :: t).length = t := by
    have a : h ++ '<' :: t = (h ++ ['<']) ++ t := by simp
    have b : h.length + 1 = (h ++ ['<']).length := by simp
    rw [a, b, List.drop_left, List.take_of_length_le]
    simp only [List.length_append]
    omega
  have e4 : v.all (fun m => (stoi m).isSome) = true := by
    rw [List.all_eq_true]
    intro m hm
    rw [hv m hm]
    exact Option.isSome_iff_ne_none.mpr hn
  cases hs : stoi n with
  | none => exact absurd hs hn
  | some num =>
    simp only [bucketStr, e1, e2, e3, e4, if_true, hu, walkLoop, hs, walkStep, Walk.flush]
    simp

/-- `HostNameListToStr_` on any list of two or more hosts in which `stoi` reads every
numeric string and one has a numeric run: the flag is `false`, and the result holds the
text of every bucket. -/
theorem HostNameListToStr_buckets (iterOrder : HostMap → HostMap)
    (hiter : ∀ m, (iterOrder m).Perm m) (host_list res_list : List Str)
    (hlen : 2 ≤ host_list.length)
    (hstoi : ∀ y ∈ host_list, ∀ h n t, hostParts y = some (h, n, t) → stoi n ≠ none)
    (x : Str) (hx : x ∈ host_list) (hxp : hostParts x ≠ none) :
    ∃ (M : HostMap) (out : List Str),
      HostNameListToStr_ iterOrder host_list res_list = some (false, out) ∧
      PartsInv host_list { host_map := M, res := false, res_list := [] } ∧
      ∀ kv ∈ M, ∃ s, bucketStr kv.1 kv.2 = some s ∧ s ∈ out := by
  have hinit : PartsInv [] { host_map := [], res := true, res_list := res_list } :=
    ⟨fun _ y hy => by simp at hy, fun k v hm => by simp at hm, fun y hy => by simp at hy⟩
  have hinv := PartsInv_loop host_list [] _ hinit
  rw [List.nil_append] at hinv
  have hsz0 : ¬ (host_list.length = 0) := by omega
  have hsz1 : ¬ (host_list.length = 1) := by omega
  unfold HostNameListToStr_
  simp only [hsz0, hsz1, if_false]
  generalize host_list.foldl groupStep
    { host_map := [], res := true, res_list := res_list } = st at hinv ⊢
  obtain ⟨h1, h2, h3⟩ := hinv
  have hres : st.res = false := by
    cases hr : st.res with
    | false => rfl
    | true => exact absurd (h1 hr x hx) hxp
  have hb : ∀ kv ∈ st.host_map, ∃ s, bucketStr kv.1 kv.2 = some s := by
    rintro ⟨k, v⟩ hkv
    apply bucketStr_some
    intro n hn
    obtain ⟨y, hy, h, t, hp, _⟩ := (h2 k v hkv).2 n hn
    exact hstoi y hy h n t hp
  have hperm := hiter st.host_map
  have hemit := emitLoop_all (iterOrder st.host_map) st.res_list
    (fun kv hkv => hb kv (hperm.mem_iff.mp hkv))
  simp only [hres, Bool.false_eq_true, if_false, hemit]
  refine ⟨st.host_map, _, rfl, ⟨fun hr => by simp at hr, h2, h3⟩, ?_⟩
  intro kv hkv
  obtain ⟨s, hs⟩ := hb kv hkv
  refine ⟨s, hs, ?_⟩
  apply List.mem_append_right
  rw [List.mem_map]
  exact ⟨kv, hperm.mem_iff.mpr hkv, by simp [hs]⟩

set_option maxRecDepth 100000 in
/-- **C11**, refuted as stated: of the two hosts `cn5` and `x` the bucket of `cn` holds the
one number `5`, and `HostNameListToStr_` emits `cn[5]`, with the bracket pair, not `cn5`. -/
theorem HostNameListToStr_keeps_single_bracket :
    HostNameListToStr_ id ["cn5".toList, "x".toList] [] =
      some (false, ["x".toList, "cn[5]".toList]) ∧
    "cn5".toList ∉ ["x".toList, "cn[5]".toList] ∧
    RemoveBracketsWithoutDashOrComma "cn[5]".toList = "cn5".toList := by
  decide

/-- **C11**, amended. A bucket with one number is emitted with its bracket pair. Take any
list of two or more hosts, cut as the code cuts them (`hostParts`), in which `stoi` reads
every numeric string. Let a host of the list have the head `h` without `<`, the numeric
string `n` and the tail `t`, and let every host of the list whose key `head<tail` is the
key of `h` and `t` have the numeric string `n`. Then `HostNameListToStr_` returns `false`
and its result holds the text `h[n]t`, with the bracket pair; when `n` is a digit string
and `h` and `t` have no `[`, applying `RemoveBracketsWithoutDashOrComma` to that text
gives `h + n + t`. -/
theorem HostNameListToStr_single_number (iterOrder : HostMap → HostMap)
    (hiter : ∀ m, (iterOrder m).Perm m) (host_list res_list : List Str) (x h n t : Str)
    (hlen : 2 ≤ host_list.length)
    (hstoi : ∀ y ∈ host_list, ∀ h2 n2 t2, hostParts y = some (h2, n2, t2) → stoi n2 ≠ none)
    (hx : x ∈ host_list) (hxp : hostParts x = some (h, n, t)) (hlt : '<' ∉ h)
    (hone : ∀ y ∈ host_list, ∀ h2 n2 t2, hostParts y = some (h2, n2, t2) →
      h2 ++ '<' :: t2 = h ++ '<' :: t → n2 = n) :
    ∃ out : List Str,
      HostNameListToStr_ iterOrder host_list res_list = some (false, out) ∧
      h ++ '[' :: (n ++ ']' :: t) ∈ out ∧
      (isDigitStr n → '[' ∉ h → '[' ∉ t →
        RemoveBracketsWithoutDashOrComma (h ++ '[' :: (n ++ ']' :: t)) = h ++ (n ++ t)) := by
  obtain ⟨M, out, hout, ⟨_, h2, h3⟩, hM⟩ := HostNameListToStr_buckets iterOrder hiter
    host_list res_list hlen hstoi x hx (by rw [hxp]; simp)
  obtain ⟨v, hv, hnv⟩ := h3 x hx h n t hxp
  obtain ⟨hvne, hvall⟩ := h2 _ v hv
  have hall : ∀ m ∈ v, m = n := by
    intro m hm
    obtain ⟨y, hy, h', t', hp, hk⟩ := hvall m hm
    exact hone y hy h' m t' hp hk.symm
  have hb := bucketStr_single h t n v hlt hvne hall (hstoi x hx h n t hxp)
  obtain ⟨s, hs, hmem⟩ := hM _ hv
  simp only at hs
  rw [hb] at hs
  simp only [Option.some.injEq] at hs
  subst hs
  refine ⟨out, hout, hmem, ?_⟩
  intro hn hh ht
  have hd := hn.2
  have c2 : ']' ∉ n := fun hc => absurd (hd _ hc) (by decide)
  have c3 : '-' ∉ n := fun hc => absurd (hd _ hc) (by decide)
  have c4 : ',' ∉ n := fun hc => absurd (hd _ hc) (by decide)
  have c5 : '[' ∉ n ++ t := by
    intro hc
    rcases List.mem_append.mp hc with hc | hc
    · exact absurd (hd _ hc) (by decide)
    · exact ht hc
  rw [Remove_step h n t hh c2, if_pos ⟨c3, c4⟩, Remove_no_open _ c5]

set_option maxRecDepth 100000 in
/-- The hosts `cn5x`, `gpu9` and `gpu10`: the result holds `cn[5]x`. -/
theorem HostNameListToStr_single_number_witness :
    ((∀ m, (id m : HostMap).Perm m) ∧
      2 ≤ ["cn5x".toList, "gpu9".toList, "gpu10".toList].length ∧
      "cn5x".toList ∈ ["cn5x".toList, "gpu9".toList, "gpu10".toList] ∧
      hostParts "cn5x".toList = some ("cn".toList, "5".toList, "x".toList) ∧
      '<' ∉ "cn".toList) ∧
    (∃ out : List Str,
      HostNameListToStr_ id ["cn5x".toList, "gpu9".toList, "gpu10".toList] [] =
        some (false, out) ∧
      "cn".toList ++ '[' :: ("5".toList ++ ']' :: "x".toList) ∈ out ∧
      (isDigitStr "5".toList → '[' ∉ "cn".toList → '[' ∉ "x".toList →
        RemoveBracketsWithoutDashOrComma
          ("cn".toList ++ '[' :: ("5".toList ++ ']' :: "x".toList)) =
          "cn".toList ++ ("5".toList ++ "x".toList))) ∧
    HostNameListToStr_ id ["cn5x".toList, "gpu9".toList, "gpu10".toList] [] =
      some (false, ["cn[5]x".toList, "gpu[9-10]".toList]) :=
  have e1 : hostParts "cn5x".toList = some ("cn".toList, "5".toList, "x".toList) := by decide
  have e2 : hostParts "gpu9".toList = some ("gpu".toList, "9".toList, []) := by decide
  have e3 : hostParts "gpu10".toList = some ("gpu".toList, "10".toList, []) := by decide
  ⟨⟨fun m => List.Perm.refl m, by decide, by decide, e1, by decide⟩,
    HostNameListToStr_single_number id (fun m => List.Perm.refl m)
      ["cn5x".toList, "gpu9".toList, "gpu10".toList] [] "cn5x".toList
      "cn".toList "5".toList "x".toList (by decide)
      (by
        intro y hy h2 n2 t2 hp
        simp only [List.mem_cons, List.not_mem_nil, or_false] at hy
        rcases hy with rfl | rfl | rfl
        · rw [e1] at hp
          simp only [Option.some.injEq, Prod.mk.injEq] at hp
          obtain ⟨_, rfl, _⟩ := hp
          decide
        · rw [e2] at hp
          simp only [Option.some.injEq, Prod.mk.injEq] at hp
          obtain ⟨_, rfl, _⟩ := hp
          decide
        · rw [e3] at hp
          simp only [Option.some.injEq, Prod.mk.injEq] at hp
          obtain ⟨_, rfl, _⟩ := hp
          decide)
      (by decide) e1 (by decide)
      (by
        intro y hy h2 n2 t2 hp hk
        simp only [List.mem_cons, List.not_mem_nil, or_false] at hy
        rcases hy with rfl | rfl | rfl
        · rw [e1] at hp
          simp only [Option.some.injEq, Prod.mk.injEq] at hp
          exact hp.2.1.symm
        · rw [e2] at hp
          simp only [Option.some.injEq, Prod.mk.injEq] at hp
          obtain ⟨rfl, _, rfl⟩ := hp
          exact absurd hk (by decide)
        · rw [e3] at hp
          simp only [Option.some.injEq, Prod.mk.injEq] at hp
          obtain ⟨rfl, _, rfl⟩ := hp
          exact absurd hk (by decide)),
    by decide⟩

/-! ## Runs of entries of different width -/

/-- A digit string that does not begin with `0` is its value as `std::to_string` writes
it. -/
theorem toDigits_of_head (y : Str) (hy : isDigitStr y) (h0 : y.head? ≠ some '0') :
    y = Nat.toDigits 10 (digitsVal y) := by
  have e := eq_zeroPadLeft y hy
  rw [zeroPadLeft] at e
  cases hk : y.length - (Nat.toDigits 10 (digitsVal y)).length with
  | zero =>
    rw [hk] at e
    simpa using e
  | succ k =>
    rw [hk] at e
    exfalso
    apply h0
    rw [e]
    simp [List.replicate_succ]

theorem zeroPadLeft_long (j w : Nat) (h : w ≤ (Nat.toDigits 10 j).length) :
    zeroPadLeft j w = Nat.toDigits 10 j := by
  have : w - (Nat.toDigits 10 j).length = 0 := by omega
  simp [zeroPadLeft, this]

theorem toDigits_length_pos (n : Nat) : 1 ≤ (Nat.toDigits 10 n).length := by
  rcases Nat.eq_zero_or_pos (Nat.toDigits 10 n).length with e | e
  · exact absurd (List.length_eq_zero.mp e) (toDigits_ne_nil n)
  · exact e

/-- A larger number has no fewer decimal digits. -/
theorem toDigits_length_mono (a b : Nat) (h : a ≤ b) :
    (Nat.toDigits 10 a).length ≤ (Nat.toDigits 10 b).length := by
  have h1 := digitsVal_lt_pow (Nat.toDigits 10 b) (toDigits_isDigit b)
  rw [digitsVal_toDigits] at h1
  have h2 := toDigits_length (Nat.toDigits 10 b).length a (by omega)
  have h3 := toDigits_length_pos b
  omega

/-- A digit string has at least the decimal digits of its value. -/
theorem toDigits_length_le (y : Str) (hy : isDigitStr y) :
    (Nat.toDigits 10 (digitsVal y)).length ≤ y.length := by
  have h1 := toDigits_length y.length (digitsVal y) (digitsVal_lt_pow y hy.2)
  have h2 : 1 ≤ y.length := by
    rcases Nat.eq_zero_or_pos y.length with e | e
    · exact absurd (List.length_eq_zero.mp e) hy.1
    · exact e
  omega

/-- An entry that has the width of the first entry of its run, or is longer and written
without a leading zero, is its value written with the width of the first entry. -/
theorem zeroPadLeft_canon (f y : Str) (hy : isDigitStr y) (hlen : f.length ≤ y.length)
    (hc : y.length = f.length ∨ y = Nat.toDigits 10 (digitsVal y)) :
    zeroPadLeft (digitsVal y) f.length = y := by
  rcases hc with h | h
  · rw [← h]
    exact (eq_zeroPadLeft y hy).symm
  · rw [zeroPadLeft_long]
    · exact h.symm
    · rw [← h]
      exact hlen

/-- The entry that extends a run is written as the run asks for it. -/
theorem canon_step (f l y : Str) (hy : isDigitStr y)
    (hfl : f.length ≤ l.length)
    (hc : l.length = f.length ∨ l = Nat.toDigits 10 (digitsVal l))
    (hstep : cleanStep l y) (hv : digitsVal y = digitsVal l + 1) :
    f.length ≤ y.length ∧ (y.length = f.length ∨ y = Nat.toDigits 10 (digitsVal y)) := by
  obtain ⟨hw, hpad⟩ := hstep
  have hly : l.length ≤ y.length := by
    rcases hw with h | h
    · omega
    · omega
  refine ⟨by omega, ?_⟩
  by_cases e : y.length = f.length
  · exact Or.inl e
  · right
    by_cases e2 : l.length < y.length
    · exact toDigits_of_head y hy (hpad e2 hv)
    · have e3 : l.length = y.length := by omega
      have hl2 : l = Nat.toDigits 10 (digitsVal l) := by
        rcases hc with h | h
        · omega
        · exact h
      have h1 : (Nat.toDigits 10 (digitsVal l)).length = l.length := by rw [← hl2]
      have h2 := toDigits_length_mono (digitsVal l) (digitsVal y) (by omega)
      have h3 := eq_zeroPadLeft y hy
      rw [zeroPadLeft_long _ _ (by omega)] at h3
      exact h3

/-- The text of the pending run, as lines 252-258 and 264-270 write it. -/
theorem flush_pending (f l acc : Str) (hfl : f = l ∨ digitsVal f < digitsVal l) :
    Walk.flush { first := digitsVal f, last := digitsVal l, first_str := f, last_str := l,
                 host_name_str := acc } = acc ++ (runUnit f l).text := by
  by_cases e : f = l
  · subst e
    simp [Walk.flush, runUnit, HostUnit.text]
  · have hlt : digitsVal f < digitsVal l := by
      rcases hfl with h | h
      · exact absurd h e
      · exact h
    have hne : ¬ ((digitsVal f : Int) = (digitsVal l : Int)) := by
      intro hv
      have hv2 : digitsVal f = digitsVal l := by exact_mod_cast hv
      omega
    simp [Walk.flush, runUnit, HostUnit.text, e, hne]

/-- The run walk writes the runs of the entries, whatever their widths. -/
theorem walkAll_pending : ∀ (rest : List Str) (f l acc : Str),
    (f = l ∨ digitsVal f < digitsVal l) →
      (walkAll { first := digitsVal f, last := digitsVal l, first_str := f, last_str := l,
                 host_name_str := acc } rest).flush = acc ++ groupText (runs f l rest)
  | [], f, l, acc => by
    intro hfl
    simp only [walkAll, List.foldl_nil, runs, groupText]
    exact flush_pending f l acc hfl
  | y :: rest, f, l, acc => by
    intro hfl
    have hle : digitsVal f ≤ digitsVal l := by
      rcases hfl with h | h
      · rw [h]
      · omega
    have h1 : ¬ ((digitsVal f : Int) < 0) := by
      have := Int.natCast_nonneg (digitsVal f)
      omega
    by_cases hm : digitsVal y = digitsVal l + 1
    · have hm2 : (digitsVal y : Int) = (digitsVal l : Int) + 1 := by exact_mod_cast hm
      have e : walkStep { first := digitsVal f, last := digitsVal l, first_str := f,
                          last_str := l, host_name_str := acc } y (digitsVal y) =
          { first := digitsVal f, last := digitsVal y, first_str := f, last_str := y,
            host_name_str := acc } := by
        simp [walkStep, h1, hm2]
      rw [walkAll, List.foldl_cons, e]
      have ih := walkAll_pending rest f y acc (Or.inr (by omega))
      rw [walkAll] at ih
      rw [ih]
      simp [runs, hm]
    · have hm2 : ¬ ((digitsVal y : Int) = (digitsVal l : Int) + 1) := by
        intro hv
        exact hm (by exact_mod_cast hv)
      have e : walkStep { first := digitsVal f, last := digitsVal l, first_str := f,
                          last_str := l, host_name_str := acc } y (digitsVal y) =
          { first := digitsVal y, last := digitsVal y, first_str := y, last_str := y,
            host_name_str := acc ++ (runUnit f l).text ++ [','] } := by
        simp only [walkStep, h1, hm2, if_false, flush_pending f l acc hfl]
      rw [walkAll, List.foldl_cons, e]
      have ih := walkAll_pending rest y y (acc ++ (runUnit f l).text ++ [',']) (Or.inl rfl)
      rw [walkAll] at ih
      rw [ih]
      simp [runs, hm, groupText_cons _ _ (runs_ne_nil y y rest)]

/-- Expanding the runs of entries that follow one another by `cleanStep` gives the entries
back, in order. -/
theorem runs_names_clean (p : Str) : ∀ (rest : List Str) (f l : Str),
    isDigitStr f → isDigitStr l → digitsVal f ≤ digitsVal l → f.length ≤ l.length →
    (l.length = f.length ∨ l = Nat.toDigits 10 (digitsVal l)) →
    (∀ y ∈ rest, isDigitStr y) → List.Chain cleanStep l rest →
      (runs f l rest).flatMap (HostUnit.names p) =
        (List.range' (digitsVal f) (digitsVal l + 1 - digitsVal f)).map
          (fun j => p ++ zeroPadLeft j f.length) ++ rest.map (fun n => p ++ n)
  | [], f, l => by
    intro hf _ _ _ _ _ _
    simp only [runs, List.flatMap_cons, List.flatMap_nil, List.append_nil, List.map_nil]
    rw [runUnit_names p f l hf]
  | y :: rest, f, l => by
    intro hf hl hfl hlen hc hrest hchain
    have hy := hrest y (List.mem_cons_self _ _)
    have hrest2 : ∀ z ∈ rest, isDigitStr z := fun z hz => hrest z (List.mem_cons_of_mem _ hz)
    obtain ⟨hstep, hchain2⟩ := List.chain_cons.mp hchain
    by_cases hm : digitsVal y = digitsVal l + 1
    · obtain ⟨hlen2, hc2⟩ := canon_step f l y hy hlen hc hstep hm
      have hyy := zeroPadLeft_canon f y hy hlen2 hc2
      simp only [runs, hm, if_true]
      have ih := runs_names_clean p rest f y hf hy (by omega) hlen2 hc2 hrest2 hchain2
      rw [ih]
      have e1 : digitsVal y + 1 - digitsVal f = (digitsVal l + 1 - digitsVal f) + 1 := by omega
      have e2 : digitsVal f + (digitsVal l + 1 - digitsVal f) = digitsVal y := by omega
      rw [e1, List.range'_concat, List.map_append]
      simp only [List.map_cons, List.map_nil, Nat.one_mul, e2, hyy, List.append_assoc,
        List.singleton_append]
    · simp only [runs, hm, if_false, List.flatMap_cons]
      have ih := runs_names_clean p rest y y hy hy (Nat.le_refl _) (Nat.le_refl _)
        (Or.inl rfl) hrest2 hchain2
      have hyy : zeroPadLeft (digitsVal y) y.length = y := (eq_zeroPadLeft y hy).symm
      have e1 : digitsVal y + 1 - digitsVal y = 1 := by omega
      rw [ih, runUnit_names p f l hf, e1]
      simp [hyy]

theorem widthThenValue_asymm (a b : Str) (h1 : widthThenValue a b) (h2 : widthThenValue b a) :
    False := by
  rcases h1 with h1 | h1 <;> rcases h2 with h2 | h2 <;> omega

/-- In a bucket ordered by length, then value, neighbours follow one another by `cleanStep`
when no entry that directly follows a shorter entry of value one less begins with `0`. -/
theorem chain_cleanStep (L : List Str)
    (hpad : ∀ a ∈ L, ∀ b ∈ L, a.length < b.length → digitsVal b = digitsVal a + 1 →
      (∀ m ∈ L, ¬ (widthThenValue a m ∧ widthThenValue m b)) → b.head? ≠ some '0') :
    ∀ (rest pre : List Str) (a : Str), L = pre ++ a :: rest → L.Pairwise widthThenValue →
      List.Chain cleanStep a rest
  | [], _, _, _, _ => List.Chain.nil
  | b :: rest, pre, a, hL, hp => by
    have hL2 : L = (pre ++ [a]) ++ b :: rest := by simp [hL]
    refine List.Chain.cons ?_ (chain_cleanStep L hpad rest (pre ++ [a]) b hL2 hp)
    have hp2 := hp
    rw [hL] at hp2
    have hab : widthThenValue a b := by
      have := (List.pairwise_append.mp hp2).2.1
      exact (List.pairwise_cons.mp this).1 b (List.mem_cons_self _ _)
    refine ⟨hab, fun hlen hv => ?_⟩
    apply hpad a (by rw [hL]; simp) b (by rw [hL]; simp) hlen hv
    intro m hm hbetween
    rw [hL] at hm
    obtain ⟨h1, h2, h3⟩ := List.pairwise_append.mp hp2
    obtain ⟨h4, h5⟩ := List.pairwise_cons.mp h2
    obtain ⟨h6, _⟩ := List.pairwise_cons.mp h5
    rcases List.mem_append.mp hm with hm | hm
    · exact widthThenValue_asymm _ _ (h3 m hm a (List.mem_cons_self _ _)) hbetween.1
    · rcases List.mem_cons.mp hm with rfl | hm
      · exact widthThenValue_asymm _ _ hbetween.1 hbetween.1
      · rcases List.mem_cons.mp hm with rfl | hm
        · exact widthThenValue_asymm _ _ hbetween.2 hbetween.2
        · exact widthThenValue_asymm _ _ (h6 m hm) hbetween.2

/-! ## One bucket, whatever the widths of its entries -/

theorem sortedRuns_ordered (v : List Str) (hne : v ≠ []) (hv : ∀ n ∈ v, isIntStr n) :
    ∃ x rest, unique (sortNums v) = x :: rest ∧ sortedRuns v = runs x x rest ∧
      (x :: rest).Pairwise widthThenValue ∧ ∀ y, y ∈ x :: rest ↔ y ∈ v := by
  obtain ⟨hpw, hmem⟩ := unique_sortNums_sorted v hv
  cases hu : unique (sortNums v) with
  | nil =>
    rw [hu] at hmem
    cases v with
    | nil => exact absurd rfl hne
    | cons a _ =>
      have := (hmem a).mpr (List.mem_cons_self _ _)
      simp at this
  | cons x rest =>
    rw [hu] at hmem hpw
    exact ⟨x, rest, rfl, by simp [sortedRuns, hu], hpw, hmem⟩

/-- Lines 215-274 for a bucket whose entries `stoi` reads: the text is `head[runs]tail`. -/
theorem bucketStr_runs (h t : Str) (v : List Str) (hh : '<' ∉ h)
    (hne : v ≠ []) (hv : ∀ n ∈ v, isIntStr n) :
    bucketStr (h ++ '<' :: t) v =
      some (h ++ '[' :: (groupText (sortedRuns v) ++ ']' :: t)) := by
  obtain ⟨x, rest, hu, hsr, _, hmem⟩ := sortedRuns_ordered v hne hv
  have hxr : ∀ y ∈ x :: rest, isIntStr y := fun y hy => hv y ((hmem y).mp hy)
  have e1 : (h ++ '<' :: t).takeWhile (fun c => c != '<') = h := takeWhile_ne_first '<' h t hh
  have e2 : (h ++ '<' :: t).take h.length = h := by simp
  have e3 : ((h ++ '<' :: t).drop (h.length + 1)).take (h ++ '<' :: t).length = t := by
    have a : h ++ '<' :: t = (h ++ ['<']) ++ t := by simp
    have b : h.length + 1 = (h ++ ['<']).length := by simp
    rw [a, b, List.drop_left, List.take_of_length_le]
    simp only [List.length_append]
    omega
  have e4 : v.all (fun n => (stoi n).isSome) = true := by
    rw [List.all_eq_true]
    intro n hn
    rw [stoi_digits n (hv n hn).1 (hv n hn).2]
    rfl
  have hwalk : (walkAll (walkStart h) (x :: rest)).flush =
      h ++ '[' :: groupText (runs x x rest) := by
    have e : walkAll (walkStart h) (x :: rest) =
        walkAll { first := digitsVal x, last := digitsVal x, first_str := x,
                  last_str := x, host_name_str := h ++ ['['] } rest := by
      rw [walkAll, List.foldl_cons, walkStep_start]
      rfl
    rw [e, walkAll_pending rest x x _ (Or.inl rfl)]
    simp
  have e5 : walkLoop (x :: rest) { first := -1, last := -1, first_str := [], last_str := [],
                                   host_name_str := h ++ ['['] } =
      some (walkAll (walkStart h) (x :: rest)) :=
    walkLoop_isIntStr (x :: rest) _ hxr
  simp only [bucketStr, e1, e2, e3, e4, if_true, hu, e5, hwalk, hsr]
  simp

/-- Expanding the text of such a bucket gives `head + number + tail` for the distinct
entries of the bucket, when no entry that directly follows a shorter entry of value one
less begins with `0`. -/
theorem ParseHostList_bucket_runs (h t : Str) (v : List Str)
    (hp : ∀ c ∈ h, c ≠ '[' ∧ c ≠ ']' ∧ c ≠ ',' ∧ isSpace c = false) (ht : isDotTail t)
    (hne : v ≠ []) (hv : ∀ n ∈ v, isIntStr n)
    (hpad : ∀ a ∈ v, ∀ b ∈ v, a.length < b.length → digitsVal b = digitsVal a + 1 →
      (∀ m ∈ v, ¬ (widthThenValue a m ∧ widthThenValue m b)) → b.head? ≠ some '0') :
    ∃ Lc, ParseHostList (h ++ '[' :: (groupText (sortedRuns v) ++ ']' :: t)) [] =
        some (true, Lc) ∧
      ∀ x, x ∈ Lc ↔ ∃ n ∈ v, x = h ++ (n ++ t) := by
  obtain ⟨x, rest, _, hsr, hpw, hmem⟩ := sortedRuns_ordered v hne hv
  have hxr : ∀ y ∈ x :: rest, isIntStr y := fun y hy => hv y ((hmem y).mp hy)
  have hx := hxr x (List.mem_cons_self _ _)
  have hrest : ∀ y ∈ rest, isIntStr y := fun y hy => hxr y (List.mem_cons_of_mem _ hy)
  have hexp := ParseHostList_group_tail h t (runs x x rest) [] hp ht (runs_ne_nil x x rest)
    (runs_ok rest x x hx hx (Nat.le_refl _) hrest)
  have hpadL : ∀ a ∈ x :: rest, ∀ b ∈ x :: rest, a.length < b.length →
      digitsVal b = digitsVal a + 1 →
      (∀ m ∈ x :: rest, ¬ (widthThenValue a m ∧ widthThenValue m b)) →
      b.head? ≠ some '0' := by
    intro a ha b hb hlen hval hbetween
    exact hpad a ((hmem a).mp ha) b ((hmem b).mp hb) hlen hval
      (fun m hm => hbetween m ((hmem m).mpr hm))
  have hchain := chain_cleanStep (x :: rest) hpadL rest [] x rfl hpw
  have hnames := runs_names_clean h rest x x hx.1 hx.1 (Nat.le_refl _) (Nat.le_refl _)
    (Or.inl rfl) (fun y hy => (hrest y hy).1) hchain
  have e1 : digitsVal x + 1 - digitsVal x = 1 := by omega
  have hxx : zeroPadLeft (digitsVal x) x.length = x := (eq_zeroPadLeft x hx.1).symm
  rw [e1, List.range'_one, List.map_cons, List.map_nil, hxx, List.singleton_append] at hnames
  rw [hsr]
  refine ⟨_, hexp, ?_⟩
  intro y
  rw [hnames]
  simp only [List.nil_append, List.mem_map, List.mem_cons]
  constructor
  · rintro ⟨z, hz, rfl⟩
    rcases hz with rfl | ⟨n, hn, rfl⟩
    · exact ⟨x, (hmem x).mp (List.mem_cons_self _ _), by simp⟩
    · exact ⟨n, (hmem n).mp (List.mem_cons_of_mem _ hn), by simp⟩
  · rintro ⟨n, hn, rfl⟩
    rcases List.mem_cons.mp ((hmem n).mpr hn) with rfl | hn2
    · exact ⟨h ++ n, Or.inl rfl, by simp⟩
    · exact ⟨h ++ n, Or.inr ⟨n, hn2, rfl⟩, by simp⟩

/-! ## The keys of the map are distinct -/

theorem mapPush_keys : ∀ (m : HostMap) (k n x : Str),
    x ∈ (mapPush m k n).map Prod.fst → x ∈ m.map Prod.fst ∨ x = k
  | [], k, n, x => by
    intro h
    simp only [mapPush, List.map_cons, List.map_nil, List.mem_singleton] at h
    exact Or.inr h
  | (k0, v0) :: rest, k, n, x => by
    intro h
    by_cases e : k0 = k
    · simp only [mapPush, e, if_true, List.map_cons, List.mem_cons] at h
      rcases h with h | h
      · exact Or.inr h
      · exact Or.inl (by simp [h])
    · simp only [mapPush, e, if_false, List.map_cons, List.mem_cons] at h
      rcases h with h | h
      · exact Or.inl (by simp [h])
      · rcases mapPush_keys rest k n x h with h2 | h2
        · exact Or.inl (by simp [h2])
        · exact Or.inr h2

theorem mapPush_nodup : ∀ (m : HostMap) (k n : Str),
    (m.map Prod.fst).Nodup → ((mapPush m k n).map Prod.fst).Nodup
  | [], k, n => by intro _; simp [mapPush]
  | (k0, v0) :: rest, k, n => by
    intro h
    simp only [List.map_cons, List.nodup_cons] at h
    by_cases e : k0 = k
    · simp only [mapPush, e, if_true, List.map_cons, List.nodup_cons]
      rw [← e]
      exact h
    · simp only [mapPush, e, if_false, List.map_cons, List.nodup_cons]
      refine ⟨fun hc => ?_, mapPush_nodup rest k n h.2⟩
      rcases mapPush_keys rest k n k0 hc with h2 | h2
      · exact h.1 h2
      · exact e h2

theorem groupStep_nodup (st : GroupState) (host : Str)
    (h : (st.host_map.map Prod.fst).Nodup) :
    ((groupStep st host).host_map.map Prod.fst).Nodup := by
  rw [groupStep_parts]
  cases hp : hostParts host with
  | none =>
    by_cases he : host = [] <;> simp [he, h]
  | some p =>
    obtain ⟨a, b, c⟩ := p
    exact mapPush_nodup _ _ _ h

theorem groupLoop_nodup : ∀ (hosts : List Str) (st : GroupState),
    (st.host_map.map Prod.fst).Nodup →
      ((hosts.foldl groupStep st).host_map.map Prod.fst).Nodup
  | [], _, h => h
  | x :: rest, st, h => groupLoop_nodup rest _ (groupStep_nodup st x h)

/-- Two entries of a map with distinct keys that have one key are one entry. -/
theorem bucket_unique : ∀ (M : HostMap) (k : Str) (v1 v2 : List Str),
    (M.map Prod.fst).Nodup → (k, v1) ∈ M → (k, v2) ∈ M → v1 = v2
  | [], _, _, _, _, h, _ => by simp at h
  | (k0, v0) :: rest, k, v1, v2, hn, h1, h2 => by
    simp only [List.map_cons, List.nodup_cons] at hn
    rcases List.mem_cons.mp h1 with e1 | e1 <;> rcases List.mem_cons.mp h2 with e2 | e2
    · simp only [Prod.mk.injEq] at e1 e2
      rw [e1.2, e2.2]
    · simp only [Prod.mk.injEq] at e1
      exact absurd (List.mem_map_of_mem Prod.fst e2) (by simpa [e1.1] using hn.1)
    · simp only [Prod.mk.injEq] at e2
      exact absurd (List.mem_map_of_mem Prod.fst e1) (by simpa [e2.1] using hn.1)
    · exact bucket_unique rest k v1 v2 hn.2 e1 e2

/-! ## The parts of a host name make up the name -/

/-- A run that the scan reports lies in the text. -/
theorem foundLoop_bounds : ∀ (cs : Str) (opens start i s e : Nat), start ≤ i →
    foundLoop cs opens start i = (true, s, e) → s ≤ e ∧ e ≤ i + cs.length
  | [], opens, start, i, s, e => by
    intro hsi h
    rw [foundLoop] at h
    by_cases h0 : start ≠ 0
    · rw [if_pos h0] at h
      simp only [Prod.mk.injEq, true_and] at h
      obtain ⟨rfl, rfl⟩ := h
      exact ⟨hsi, by simp⟩
    · rw [if_neg h0] at h
      simp at h
  | c :: cs, opens, start, i, s, e => by
    intro hsi h
    rw [foundLoop] at h
    simp only [List.length_cons]
    by_cases h1 : c = '['
    · simp only [h1, if_true] at h
      have := foundLoop_bounds cs _ start (i + 1) s e (by omega) h
      omega
    · by_cases h2 : c = ']'
      · simp only [h1, h2, if_true, if_false] at h
        have := foundLoop_bounds cs _ start (i + 1) s e (by omega) h
        omega
      · simp only [h1, h2, if_false] at h
        by_cases h3 : opens = 0
        · simp only [h3, if_true] at h
          by_cases h4 : start = 0 ∧ c.isDigit = true
          · rw [if_pos h4] at h
            have := foundLoop_bounds cs 0 i (i + 1) s e (by omega) h
            omega
          · rw [if_neg h4] at h
            by_cases h5 : start ≠ 0 ∧ c.isDigit = false
            · rw [if_pos h5] at h
              simp only [Prod.mk.injEq, true_and] at h
              obtain ⟨rfl, rfl⟩ := h
              omega
            · rw [if_neg h5] at h
              have := foundLoop_bounds cs 0 start (i + 1) s e (by omega) h
              omega
        · simp only [h3, if_false] at h
          have := foundLoop_bounds cs opens start (i + 1) s e (by omega) h
          omega

/-- The head, the numeric string and the tail of a host name, put together, are the name. -/
theorem hostParts_eq (x h n t : Str) (hp : hostParts x = some (h, n, t)) :
    x = h ++ (n ++ t) := by
  rw [hostParts] at hp
  rcases hf : FoundFirstNumberWithoutBrackets x with ⟨b, s, e⟩
  rw [hf] at hp
  cases b with
  | false => simp at hp
  | true =>
    simp only [Option.some.injEq, Prod.mk.injEq] at hp
    obtain ⟨rfl, rfl, rfl⟩ := hp
    obtain ⟨h1, h2⟩ := foundLoop_bounds x 0 0 0 s e (Nat.le_refl _) hf
    rw [Nat.zero_add] at h2
    have e1 : List.take x.length (List.drop e x) = List.drop e x :=
      List.take_of_length_le (by simp)
    have e2 : List.take s x ++ List.take (e - s) (List.drop s x) = List.take e x := by
      have : e = s + (e - s) := by omega
      conv_rhs => rw [this, List.take_add]
    rw [e1, ← List.append_assoc, e2, List.take_append_drop]

/-- The names that the grouping loop passes on are the names without a numeric run that are
not empty. -/
theorem groupLoop_res_list : ∀ (hosts : List Str) (st : GroupState),
    (hosts.foldl groupStep st).res_list =
      st.res_list ++ hosts.filter (fun y => decide (y ≠ []) && (hostParts y).isNone)
  | [], st => by simp
  | x :: rest, st => by
    rw [List.foldl_cons, groupLoop_res_list rest, groupStep_parts]
    cases hp : hostParts x with
    | none =>
      by_cases he : x = []
      · simp [he, hp, List.filter_cons]
      · simp [he, hp, List.filter_cons]
    | some p =>
      obtain ⟨a, b, c⟩ := p
      simp [hp, List.filter_cons]

/-- `HostNameListToStr_` on any list of two or more names in which `stoi` reads every
numeric string: the names without a numeric run that are not empty are appended, then one
text for every entry of a list `M` of buckets with distinct keys; every bucket holds
numeric strings of names with its key and nothing else, and the numeric string of every
name is in the bucket of its key. -/
theorem HostNameListToStr_parts (iterOrder : HostMap → HostMap)
    (hiter : ∀ m, (iterOrder m).Perm m) (L res_list : List Str) (hlen : 2 ≤ L.length)
    (hstoi : ∀ y ∈ L, ∀ h n t, hostParts y = some (h, n, t) → stoi n ≠ none) :
    ∃ (b : Bool) (M : HostMap),
      HostNameListToStr_ iterOrder L res_list =
        some (b, res_list ++ L.filter (fun y => decide (y ≠ []) && (hostParts y).isNone) ++
          M.map (fun kv => (bucketStr kv.1 kv.2).getD [])) ∧
      (∀ k v, (k, v) ∈ M → v ≠ [] ∧
        ∀ m ∈ v, ∃ y ∈ L, ∃ h t, hostParts y = some (h, m, t) ∧ k = h ++ '<' :: t) ∧
      (∀ y ∈ L, ∀ h n t, hostParts y = some (h, n, t) →
        ∃ v, (h ++ '<' :: t, v) ∈ M ∧ n ∈ v) ∧
      (M.map Prod.fst).Nodup := by
  have hinit : PartsInv [] { host_map := [], res := true, res_list := res_list } :=
    ⟨fun _ y hy => by simp at hy, fun k v hm => by simp at hm, fun y hy => by simp at hy⟩
  have hinv := PartsInv_loop L [] _ hinit
  rw [List.nil_append] at hinv
  have hnodup := groupLoop_nodup L { host_map := [], res := true, res_list := res_list }
    (by simp)
  have hrl := groupLoop_res_list L { host_map := [], res := true, res_list := res_list }
  have hsz0 : ¬ (L.length = 0) := by omega
  have hsz1 : ¬ (L.length = 1) := by omega
  unfold HostNameListToStr_
  simp only [hsz0, hsz1, if_false]
  generalize L.foldl groupStep
    { host_map := [], res := true, res_list := res_list } = st at hinv hnodup hrl ⊢
  simp only at hrl
  obtain ⟨h1, h2, h3⟩ := hinv
  cases hres : st.res with
  | true =>
    refine ⟨true, [], ?_, fun k v hkv => by simp at hkv, ?_, by simp⟩
    · simp [hrl]
    · intro y hy h n t hp
      have := h1 hres y hy
      rw [hp] at this
      simp at this
  | false =>
    have hb : ∀ kv ∈ st.host_map, ∃ s, bucketStr kv.1 kv.2 = some s := by
      rintro ⟨k, v⟩ hkv
      apply bucketStr_some
      intro n hn
      obtain ⟨y, hy, h, t, hp, _⟩ := (h2 k v hkv).2 n hn
      exact hstoi y hy h n t hp
    have hperm := hiter st.host_map
    have hemit := emitLoop_all (iterOrder st.host_map) st.res_list
      (fun kv hkv => hb kv (hperm.mem_iff.mp hkv))
    rw [hrl] at hemit
    refine ⟨false, iterOrder st.host_map, ?_, ?_, ?_, ?_⟩
    · simp only [Bool.false_eq_true, if_false, hemit, hrl]
    · intro k v hkv
      exact h2 k v (hperm.mem_iff.mp hkv)
    · intro y hy h n t hp
      obtain ⟨v, a, b⟩ := h3 y hy h n t hp
      exact ⟨v, hperm.mem_iff.mpr a, b⟩
    · exact ((hperm.map Prod.fst).nodup_iff).mpr hnodup

/-! ## The round trip -/

theorem nameOk_none {x : Str} (hx : nameOk x) (hp : hostParts x = none) :
    x ≠ [] ∧ ParseHostList x [] = some (true, [x]) := by
  unfold nameOk at hx
  rw [hp] at hx
  exact hx

theorem nameOk_some {x h n t : Str} (hx : nameOk x) (hp : hostParts x = some (h, n, t)) :
    (∀ c ∈ h, c ≠ '[' ∧ c ≠ ']' ∧ c ≠ '<' ∧ c ≠ ',' ∧ isSpace c = false) ∧
      isIntStr n ∧ isDotTail t := by
  unfold nameOk at hx
  rw [hp] at hx
  exact hx

end util
